import Mathlib

/-!
# DES over textual bit strings (`bitstr.c`, `des.c`)

Shallow embedding of the C sources.

Memory model.  A `char *` argument that the code tests against `NULL` is an
`Option (List Nat)`: `none` is the null pointer and `some b` points at the bytes
`b` (character codes), which are followed in memory by the terminating NUL of
the allocation.  A byte `0` inside `b` is a NUL written into the buffer (the
code does this to split a buffer in two), so the C string that starts at `b`
ends at the first `0` of `b`, or at the end of `b`.  Reading index `b.length`
yields the terminator `0`.  Pointer arithmetic `p + k` is `List.drop k`.
Functions that write through a pointer return the new contents of the buffer;
they are modelled on a non-null buffer (on `NULL` each of them returns false at
once, `bstr_len` being 0, and there is nothing to write).
The characters `'0'` and `'1'` are the codes 48 and 49.  `malloc` is taken to
succeed, `size_t` is 64 bits wide.

`bstr_xor` takes two pointers that may name the same buffer.  It is modelled
twice: `bstr_xor` on two separate buffers, as `des` and `f_func` call it, and
`bstr_xor_mem` on one memory with the two addresses, which covers arguments that
share memory; the lemma `bstr_xor_mem_separate` relates the two.

The first part of the file holds the definitions: the translation of the two C
files, then the predicates on inputs and the list-level operations used to
state the lemmas.  The second part holds the lemmas and the numbered claims.
-/

namespace Des

/-! ## bitstr.c -/

/-- The scanning loop of `bstr_len`: `i` characters have been accepted. -/
def bstr_len_loop : List Nat → Nat → Nat
  | [], i => i
  | c :: rest, i =>
    if c = 0 then i
    else if c ≠ 48 ∧ c ≠ 49 then 0
    else bstr_len_loop rest (i + 1)

/-- Source `size_t bstr_len(char *str)`: the length of the bit string, 0 on any error. -/
def bstr_len : Option (List Nat) → Nat
  | none => 0
  | some str => if str.getD 0 0 = 0 then 0 else bstr_len_loop str 0

/-- Library `memcpy(dst + off, src, n)` and `memmove`: the bytes `[off, off + n)` of `dst`
are replaced by the first `n` bytes of `src` (which is read before the write). -/
def memcpy (dst : List Nat) (off : Nat) (src : List Nat) (n : Nat) : List Nat :=
  dst.take off ++ src.take n ++ dst.drop (off + n)

/-- Source `static char *str_clone(char *s, size_t len)`. -/
def str_clone (s : Option (List Nat)) (len : Nat) : Option (List Nat) :=
  match s with
  | none => none
  | some b => if len = 0 then none else some (b.take len)

/-- Source `char *bstr_pad(char *str, size_t n)`. -/
def bstr_pad (str : Option (List Nat)) (n : Nat) : Option (List Nat) :=
  let len := bstr_len str
  if len = 0 ∨ n = 0 then none
  else if n ≤ len then str_clone str n
  else
    match str with
    | none => none
    | some b => some (b.take len ++ List.replicate (n - len) 48)

/-- Source `_Bool bstr_lrot(char *str, uint32_t n)` on a non-null buffer: the return
value and the buffer afterwards. -/
def bstr_lrot (str : List Nat) (n : Nat) : Bool × List Nat :=
  let len := bstr_len (some str)
  if len = 0 then (false, str)
  else if n % len = 0 then (true, str)
  else
    let n := n % len
    let rotlen := len - n
    let temp := str.take n
    let str := memcpy str 0 (str.drop n) rotlen
    let str := memcpy str rotlen temp n
    (true, str)

/-- Source `_Bool bstr_rrot(char *str, uint32_t n)` on a non-null buffer. -/
def bstr_rrot (str : List Nat) (n : Nat) : Bool × List Nat :=
  let len := bstr_len (some str)
  if len = 0 then (false, str)
  else if n % len = 0 then (true, str)
  else
    let n := n % len
    let rotlen := len - n
    let temp := (str.drop rotlen).take n
    let str := memcpy str n str rotlen
    let str := memcpy str 0 temp n
    (true, str)

/-- The loop of `bstr_xor`, walking both strings: `a[i] = ((a[i] - '0') ^ (b[i] - '0')) + '0'`
for the next `n` indices. -/
def bstr_xor_loop : Nat → List Nat → List Nat → List Nat
  | n + 1, ai :: a, bi :: b => (((ai - 48) ^^^ (bi - 48)) + 48) :: bstr_xor_loop n a b
  | _, a, _ => a

/-- Source `_Bool bstr_xor(char *a, char *b)` on non-null buffers: the return value and
the buffer `a` afterwards. -/
def bstr_xor (a b : List Nat) : Bool × List Nat :=
  let alen := bstr_len (some a)
  let blen := bstr_len (some b)
  if alen = 0 ∨ blen = 0 ∨ alen ≠ blen then (false, a)
  else (true, bstr_xor_loop alen a b)

/-- The C string that starts at the first byte of a piece of memory: the bytes
before the first NUL (the end of the list counts as a NUL). -/
def cstr : List Nat → List Nat
  | [] => []
  | c :: rest => if c = 0 then [] else c :: cstr rest

/-- The C string at address `p` of the memory `mem`. -/
def strAt (mem : List Nat) (p : Nat) : List Nat := cstr (mem.drop p)

/-- The loop of `bstr_xor` on a memory that holds both arguments, `a` at address
`pa` and `b` at address `pb`: `a[i] = ((a[i] - '0') ^ (b[i] - '0')) + '0'` for the
next `n` indices from `i` on.  Both characters are read from the memory as it is
when index `i` is reached, and the result is written through `a`. -/
def bstr_xor_mem_loop (pa pb : Nat) : Nat → Nat → List Nat → List Nat
  | 0, _, mem => mem
  | n + 1, i, mem =>
    bstr_xor_mem_loop pa pb n (i + 1)
      (mem.set (pa + i) (((mem.getD (pa + i) 0 - 48) ^^^ (mem.getD (pb + i) 0 - 48)) + 48))

/-- Source `_Bool bstr_xor(char *a, char *b)` with the two pointers into one
memory, so that the arguments may be the same buffer or overlap: the return
value and the memory afterwards. -/
def bstr_xor_mem (mem : List Nat) (pa pb : Nat) : Bool × List Nat :=
  let alen := bstr_len (some (mem.drop pa))
  let blen := bstr_len (some (mem.drop pb))
  if alen = 0 ∨ blen = 0 ∨ alen ≠ blen then (false, mem)
  else (true, bstr_xor_mem_loop pa pb alen 0 mem)

/-- One iteration of the loop of `bstr_swap`. -/
def bstr_swap_step (half : Nat) (str : List Nat) (i : Nat) : List Nat :=
  let curr := str.getD i 0
  let str := str.set i (str.getD (i + half) 0)
  str.set (i + half) curr

/-- Source `_Bool bstr_swap(char *str)` on a non-null buffer. -/
def bstr_swap (str : List Nat) : Bool × List Nat :=
  let len := bstr_len (some str)
  if len = 0 ∨ len % 2 ≠ 0 then (false, str)
  else
    let half := len / 2
    (true, (List.range half).foldl (bstr_swap_step half) str)

/-- Library `strlen(str)`: the number of characters before the first NUL. -/
def strlen : List Nat → Nat
  | [] => 0
  | c :: rest => if c = 0 then 0 else strlen rest + 1

/-- The `do ... while` loop of `to_bstr`: `str[bi--] = (c & 1) + '0'` while
`(c >>= 1) > 0`; the first argument is `bi + 1`. -/
def to_bstr_loop : Nat → List Nat → Nat → List Nat
  | 0, str, _ => str
  | bi + 1, str, c =>
    let str := str.set bi ((c &&& 1) + 48)
    let c := c >>> 1
    if c > 0 then to_bstr_loop bi str c else str

/-- Source `static char *to_bstr(unsigned char c)`: the 8 characters of the static
buffer on return.  The argument is converted to `unsigned char`. -/
def to_bstr (c : Nat) : List Nat :=
  let c := c % 256
  let str := [48, 48, 48, 48, 48, 48, 48, 48]
  to_bstr_loop 8 str c

/-- The loop of `to_char`, `for (int i = 7; i >= 0; i--)`, in `unsigned char`
arithmetic; the first argument is `i + 1`. -/
def to_char_loop : Nat → List Nat → Nat → Nat → Nat
  | 0, _, c, _ => c
  | i + 1, str, c, pow =>
    let c := if str.getD i 0 = 49 then (c + pow) % 256 else c
    let pow := (pow <<< 1) % 256
    to_char_loop i str c pow

/-- Source `static unsigned char to_char(char *str)`. -/
def to_char (str : List Nat) : Nat := to_char_loop 8 str 0 1

/-- Source `char *bstr_new(char *str)`.  The loop copies the 8 characters of
`to_bstr(str[j])` to `bits + 8 * j` for `j = 0, 1, ...` while `8 * j < len`; the
fresh buffer is taken to hold zero bytes before it is filled. -/
def bstr_new (str : Option (List Nat)) : Option (List Nat) :=
  match str with
  | none => none
  | some b =>
    if b.getD 0 0 = 0 then none
    else
      let len := 8 * strlen b
      let bits := List.replicate len 0
      some ((List.range (strlen b)).foldl
        (fun bits j => memcpy bits (8 * j) (to_bstr (b.getD j 0)) 8) bits)

/-- Source `char *bstr_original(char *str)`: `new[i] = to_char(str + i * 8)` for
every `i < len / 8`. -/
def bstr_original (str : Option (List Nat)) : Option (List Nat) :=
  let len := bstr_len str
  if len = 0 ∨ len % 8 ≠ 0 then none
  else
    match str with
    | none => none
    | some b =>
      let bstrlen := len / 8
      some ((List.range bstrlen).map fun i => to_char (b.drop (i * 8)))

/-- The loop of `bstr_flip` from the current character on: the return value and
the characters afterwards.  A character is tested, then overwritten, before
the next one is looked at. -/
def bstr_flip_loop : List Nat → Bool × List Nat
  | [] => (true, [])
  | c :: rest =>
    if c = 0 then (true, c :: rest)
    else if c ≠ 49 ∧ c ≠ 48 then (false, c :: rest)
    else
      let r := bstr_flip_loop rest
      (r.1, (if c = 49 then 48 else 49) :: r.2)

/-- Source `_Bool bstr_flip(char *str)` on a non-null buffer: the return value and
the buffer afterwards. -/
def bstr_flip (str : List Nat) : Bool × List Nat :=
  if str.getD 0 0 = 0 then (false, str) else bstr_flip_loop str

/-! ## des.c -/

/-- The initial permutation (64). -/
def IP : List Int := [
  58, 50, 42, 34, 26, 18, 10, 2,
  60, 52, 44, 36, 28, 20, 12, 4,
  62, 54, 46, 38, 30, 22, 14, 6,
  64, 56, 48, 40, 32, 24, 16, 8,
  57, 49, 41, 33, 25, 17, 9, 1,
  59, 51, 43, 35, 27, 19, 11, 3,
  61, 53, 45, 37, 29, 21, 13, 5,
  63, 55, 47, 39, 31, 23, 15, 7]

/-- The inverse of the initial permutation (64). -/
def IP_INV : List Int := [
  40, 8, 48, 16, 56, 24, 64, 32,
  39, 7, 47, 15, 55, 23, 63, 31,
  38, 6, 46, 14, 54, 22, 62, 30,
  37, 5, 45, 13, 53, 21, 61, 29,
  36, 4, 44, 12, 52, 20, 60, 28,
  35, 3, 43, 11, 51, 19, 59, 27,
  34, 2, 42, 10, 50, 18, 58, 26,
  33, 1, 41, 9, 49, 17, 57, 25]

/-- The key permutation PC-1 (56). -/
def PC1 : List Int := [
  57, 49, 41, 33, 25, 17, 9,
  1, 58, 50, 42, 34, 26, 18,
  10, 2, 59, 51, 43, 35, 27,
  19, 11, 3, 60, 52, 44, 36,
  63, 55, 47, 39, 31, 23, 15,
  7, 62, 54, 46, 38, 30, 22,
  14, 6, 61, 53, 45, 37, 29,
  21, 13, 5, 28, 20, 12, 4]

/-- The key permutation PC-2 (48). -/
def PC2 : List Int := [
  14, 17, 11, 24, 1, 5,
  3, 28, 15, 6, 21, 10,
  23, 19, 12, 4, 26, 8,
  16, 7, 27, 20, 13, 2,
  41, 52, 31, 37, 47, 55,
  30, 40, 51, 45, 33, 48,
  44, 49, 39, 56, 34, 53,
  46, 42, 50, 36, 29, 32]

/-- The expansion permutation for the f-function (48). -/
def EXP : List Int := [
  32, 1, 2, 3, 4, 5,
  4, 5, 6, 7, 8, 9,
  8, 9, 10, 11, 12, 13,
  12, 13, 14, 15, 16, 17,
  16, 17, 18, 19, 20, 21,
  20, 21, 22, 23, 24, 25,
  24, 25, 26, 27, 28, 29,
  28, 29, 30, 31, 32, 1]

/-- The permutation that shuffles a 32-bit block (32). -/
def P : List Int := [
  16, 7, 20, 21, 29, 12, 28, 17,
  1, 15, 23, 26, 5, 18, 31, 10,
  2, 8, 24, 14, 32, 27, 3, 9,
  19, 13, 30, 6, 22, 11, 4, 25]

/-- All of the 8 s-boxes, 64 numbers each (4 rows of 16). -/
def SBOX : List (List Int) := [
  [ 14, 4, 13, 1, 2, 15, 11, 8, 3, 10, 6, 12, 5, 9, 0, 7,
    0, 15, 7, 4, 14, 2, 13, 1, 10, 6, 12, 11, 9, 5, 3, 8,
    4, 1, 14, 8, 13, 6, 2, 11, 15, 12, 9, 7, 3, 10, 5, 0,
    15, 12, 8, 2, 4, 9, 1, 7, 5, 11, 3, 14, 10, 0, 6, 13 ],
  [ 15, 1, 8, 14, 6, 11, 3, 4, 9, 7, 2, 13, 12, 0, 5, 10,
    3, 13, 4, 7, 15, 2, 8, 14, 12, 0, 1, 10, 6, 9, 11, 5,
    0, 14, 7, 11, 10, 4, 13, 1, 5, 8, 12, 6, 9, 3, 2, 15,
    13, 8, 10, 1, 3, 15, 4, 2, 11, 6, 7, 12, 0, 5, 14, 9 ],
  [ 10, 0, 9, 14, 6, 3, 15, 5, 1, 13, 12, 7, 11, 4, 2, 8,
    13, 7, 0, 9, 3, 4, 6, 10, 2, 8, 5, 14, 12, 11, 15, 1,
    13, 6, 4, 9, 8, 15, 3, 0, 11, 1, 2, 12, 5, 10, 14, 7,
    1, 10, 13, 0, 6, 9, 8, 7, 4, 15, 14, 3, 11, 5, 2, 12 ],
  [ 7, 13, 14, 3, 0, 6, 9, 10, 1, 2, 8, 5, 11, 12, 4, 15,
    13, 8, 11, 5, 6, 15, 0, 3, 4, 7, 2, 12, 1, 10, 14, 9,
    10, 6, 9, 0, 12, 11, 7, 13, 15, 1, 3, 14, 5, 2, 8, 4,
    3, 15, 0, 6, 10, 1, 13, 8, 9, 4, 5, 11, 12, 7, 2, 14 ],
  [ 2, 12, 4, 1, 7, 10, 11, 6, 8, 5, 3, 15, 13, 0, 14, 9,
    14, 11, 2, 12, 4, 7, 13, 1, 5, 0, 15, 10, 3, 9, 8, 6,
    4, 2, 1, 11, 10, 13, 7, 8, 15, 9, 12, 5, 6, 3, 0, 14,
    11, 8, 12, 7, 1, 14, 2, 13, 6, 15, 0, 9, 10, 4, 5, 3 ],
  [ 12, 1, 10, 15, 9, 2, 6, 8, 0, 13, 3, 4, 14, 7, 5, 11,
    10, 15, 4, 2, 7, 12, 9, 5, 6, 1, 13, 14, 0, 11, 3, 8,
    9, 14, 15, 5, 2, 8, 12, 3, 7, 0, 4, 10, 1, 13, 11, 6,
    4, 3, 2, 12, 9, 5, 15, 10, 11, 14, 1, 7, 6, 0, 8, 13 ],
  [ 4, 11, 2, 14, 15, 0, 8, 13, 3, 12, 9, 7, 5, 10, 6, 1,
    13, 0, 11, 7, 4, 9, 1, 10, 14, 3, 5, 12, 2, 15, 8, 6,
    1, 4, 11, 13, 12, 3, 7, 14, 10, 15, 6, 8, 0, 5, 9, 2,
    6, 11, 13, 8, 1, 4, 10, 7, 9, 5, 0, 15, 14, 2, 3, 12 ],
  [ 13, 2, 8, 4, 6, 15, 11, 1, 10, 9, 3, 14, 5, 0, 12, 7,
    1, 15, 13, 8, 10, 3, 7, 4, 12, 5, 6, 11, 0, 14, 9, 2,
    7, 11, 4, 1, 9, 12, 14, 2, 0, 6, 10, 13, 15, 3, 5, 8,
    2, 1, 14, 7, 4, 10, 8, 13, 15, 12, 9, 0, 3, 5, 6, 11 ]]

/-- The conversion of the `int` value `x` to `size_t`, as the comparison
`(p[i] - 1) > oldlen` performs it. -/
def toSizeT (x : Int) : Nat := (x % 2 ^ 64).toNat

/-- The loop of `des_permute` over the table entries still to be read: `none`
when an entry is rejected, otherwise the characters written. -/
def des_permute_loop (str : List Nat) (oldlen : Nat) : List Int → Option (List Nat)
  | [] => some []
  | pi :: rest =>
    if toSizeT (pi - 1) > oldlen then none
    else
      match des_permute_loop str oldlen rest with
      | none => none
      | some out => some (str.getD (pi - 1).toNat 0 :: out)

/-- Source `char *des_permute(char *str, const int p[], size_t len)`.  The table
`p` is given as the list of the entries it holds; the loop reads the first `len`
of them (a `len` beyond the end of the table is outside the model). -/
def des_permute (str : Option (List Nat)) (p : Option (List Int)) (len : Nat) :
    Option (List Nat) :=
  let oldlen := bstr_len str
  match str, p with
  | some s, some tbl =>
    if oldlen = 0 ∨ len = 0 then none else des_permute_loop s oldlen (tbl.take len)
  | _, _ => none

/-- The digits loop of `strtol(s, NULL, 2)`: `acc` is the value read so far; the
conversion stops at the first character that is not a binary digit. -/
def strtol2_loop : List Nat → Int → Int
  | [], acc => acc
  | c :: rest, acc =>
    if c = 48 then strtol2_loop rest (2 * acc)
    else if c = 49 then strtol2_loop rest (2 * acc + 1)
    else acc

/-- Library `strtol(s, NULL, 2)` on a string of binary digits (leading white space and a
sign, which `strtol` also accepts, do not occur in a bit string). -/
def strtol2 (s : List Nat) : Int := strtol2_loop s 0

/-- The `do ... while` loop of `sbox_value`: `bin[i--] = (sbox_val & 1) + '0'`
while `(sbox_val >>= 1) > 0`; the first argument is `i + 1`. -/
def sbox_bits : Nat → List Nat → Nat → List Nat
  | 0, bin, _ => bin
  | i + 1, bin, v =>
    let bin := bin.set i ((v &&& 1) + 48)
    let v := v >>> 1
    if v > 0 then sbox_bits i bin v else bin

/-- Source `static char *sbox_value(char *b, int sbox)`: the 4 characters of the static
buffer `bin` on return. -/
def sbox_value (b : List Nat) (sbox : Nat) : List Nat :=
  let bin := [48, 48, 48, 48]
  let row := [b.getD 0 0, b.getD 5 0]
  let col := [b.getD 1 0, b.getD 2 0, b.getD 3 0, b.getD 4 0]
  let sbox_index := 16 * strtol2 row + strtol2 col
  let sbox_val := (SBOX.getD sbox []).getD sbox_index.toNat 0
  if sbox_val > 15 ∨ sbox_val < 0 then bin
  else sbox_bits 4 bin sbox_val.toNat

/-- One iteration of the loop of `f_func`; the state is
`(expanded, r_index, fill_index)`. -/
def f_func_step (st : List Nat × Nat × Nat) (i : Nat) : List Nat × Nat × Nat :=
  let (expanded, r_index, fill_index) := st
  let sbox_bin := sbox_value (expanded.drop r_index) i
  let expanded := memcpy expanded fill_index sbox_bin 4
  (expanded, r_index + 6, fill_index + 4)

/-- Source `static char *f_func(char *r, char *k48)`. -/
def f_func (r k48 : List Nat) : Option (List Nat) :=
  match des_permute (some r) (some EXP) 48 with
  | none => none
  | some expanded =>
    let expanded := (bstr_xor expanded k48).2
    let expanded := ([0, 1, 2, 3, 4, 5, 6, 7].foldl f_func_step (expanded, 0, 0)).1
    let expanded := expanded.set 32 0
    des_permute (some expanded) (some P) 32

/-- Source `static char *key_init(char *k)`. -/
def key_init (k : Option (List Nat)) : Option (List Nat) :=
  let len := bstr_len k
  if len = 0 then none
  else
    let k := if len < 64 then bstr_pad k 64 else k
    des_permute k (some PC1) 56

/-- Source `static void key_rot_enc(char *k56, int r)`: the buffer `k56` afterwards. -/
def key_rot_enc (k56 : List Nat) (r : Int) : List Nat :=
  let mid := k56.getD 28 0
  let k56 := k56.set 28 0
  if (r ≥ 3 ∧ r ≤ 8) ∨ (r ≥ 10 ∧ r ≤ 15) then
    let k56 := (bstr_lrot k56 2).2
    let k56 := k56.set 28 mid
    k56.take 28 ++ (bstr_lrot (k56.drop 28) 2).2
  else
    let k56 := (bstr_lrot k56 1).2
    let k56 := k56.set 28 mid
    k56.take 28 ++ (bstr_lrot (k56.drop 28) 1).2

/-- Source `static void key_rot_dec(char *k56, int r)`: the buffer `k56` afterwards. -/
def key_rot_dec (k56 : List Nat) (r : Int) : List Nat :=
  if r = 1 then k56
  else
    let mid := k56.getD 28 0
    let k56 := k56.set 28 0
    if (r ≥ 3 ∧ r ≤ 8) ∨ (r ≥ 10 ∧ r ≤ 15) then
      let k56 := (bstr_rrot k56 2).2
      let k56 := k56.set 28 mid
      k56.take 28 ++ (bstr_rrot (k56.drop 28) 2).2
    else
      let k56 := (bstr_rrot k56 1).2
      let k56 := k56.set 28 mid
      k56.take 28 ++ (bstr_rrot (k56.drop 28) 1).2

/-- The body of the round loop of `des`; the state is the pair of buffers
`(ct, k56)`. -/
def des_round (k_func : List Nat → Int → List Nat) (st : List Nat × List Nat) (i : Int) :
    List Nat × List Nat :=
  let (ct, k56) := st
  let k56 := k_func k56 i
  match des_permute (some k56) (some PC2) 48 with
  | none => (ct, k56)
  | some k48 =>
    match f_func (ct.drop 32) k48 with
    | none => (ct, k56)
    | some ffunc =>
      let temp := ct.getD 32 0
      let ct := ct.set 32 0
      let ct := (bstr_xor ct ffunc).2
      let ct := ct.set 32 temp
      let ct := (bstr_swap ct).2
      (ct, k56)

/-- The round numbers `for (int i = 1; i <= 16; i++)`. -/
def des_rounds : List Int := [1, 2, 3, 4, 5, 6, 7, 8, 9, 10, 11, 12, 13, 14, 15, 16]

/-- Source `static char *des(char *msg, char *k56, KeyRot k_func)`. -/
def des (msg k56 : List Nat) (k_func : List Nat → Int → List Nat) : Option (List Nat) :=
  match des_permute (some msg) (some IP) 64 with
  | none => none
  | some ct =>
    let ct := (des_rounds.foldl (des_round k_func) (ct, k56)).1
    let ct := (bstr_swap ct).2
    des_permute (some ct) (some IP_INV) 64

/-- Source `char *des_enc(char *msg, char *k64)`. -/
def des_enc (msg k64 : Option (List Nat)) : Option (List Nat) :=
  let msglen := bstr_len msg
  if msglen ≠ 64 then none
  else
    match msg, key_init k64 with
    | some m, some k56 => des m k56 key_rot_enc
    | _, _ => none

/-- Source `char *des_dec(char *msg, char *k64)`. -/
def des_dec (msg k64 : Option (List Nat)) : Option (List Nat) :=
  let msglen := bstr_len msg
  if msglen ≠ 64 then none
  else
    match msg, key_init k64 with
    | some m, some k56 => des m k56 key_rot_dec
    | _, _ => none

/-! ## Bit strings written from hexadecimal digits -/

/-- The 4 characters, most significant bit first, of a value below 16. -/
def nibble (v : Nat) : List Nat :=
  [48 + v / 8 % 2, 48 + v / 4 % 2, 48 + v / 2 % 2, 48 + v % 2]

/-- The bit string of a list of hexadecimal digits. -/
def hexBits (ds : List Nat) : List Nat := ds.flatMap nibble

/-! ## Well-formed inputs -/

/-- Every character is `'0'` or `'1'`. -/
def Bits (s : List Nat) : Prop := ∀ c ∈ s, c = 48 ∨ c = 49

instance (s : List Nat) : Decidable (Bits s) := by
  unfold Bits; infer_instance

/-- A valid bit string: non-empty, every character `'0'` or `'1'`. -/
def BitStr (s : List Nat) : Prop := s ≠ [] ∧ Bits s

instance (s : List Nat) : Decidable (BitStr s) := by
  unfold BitStr; infer_instance

/-- A C string argument: a null pointer, or characters none of which is NUL. -/
def CStr : Option (List Nat) → Prop
  | none => True
  | some s => 0 ∉ s

instance (s : Option (List Nat)) : Decidable (CStr s) := by
  cases s <;> unfold CStr <;> infer_instance

/-- A valid bit string behind a possibly null pointer. -/
def ValidBits : Option (List Nat) → Prop
  | none => False
  | some s => BitStr s

instance (s : Option (List Nat)) : Decidable (ValidBits s) := by
  cases s <;> unfold ValidBits <;> infer_instance

/-- The length of the C string behind a pointer, as `strlen` gives it (0 for
the null pointer, for which the claims never use it). -/
def slen : Option (List Nat) → Nat
  | none => 0
  | some s => s.length

/-! ## The operations on plain lists of bit characters -/

/-- The string selected by a table of 1-based indices: entry `p` selects
character `p - 1`. -/
def permuteL (tbl : List Int) (s : List Nat) : List Nat :=
  tbl.map fun p => s.getD (p - 1).toNat 0

/-- Character-wise XOR of two bit strings. -/
def xorBits (a b : List Nat) : List Nat :=
  List.zipWith (fun x y => ((x - 48) ^^^ (y - 48)) + 48) a b

/-- The two halves of a string exchanged. -/
def swapHalves (s : List Nat) : List Nat :=
  s.drop (s.length / 2) ++ s.take (s.length / 2)

/-- The two 28-character halves of a key state, each rotated left by `n`. -/
def rotHalves (k : List Nat) (n : Nat) : List Nat :=
  (k.take 28).rotate n ++ (k.drop 28).rotate n

/-- The value of the round function: the string `f_func` returns. -/
def fBits (r k48 : List Nat) : List Nat := (f_func r k48).getD []

/-- One Feistel round on the 64-character state `L ++ R` with the subkey `k48`:
the new state is `R ++ (L XOR f(R, k48))`. -/
def feistel (ct k48 : List Nat) : List Nat :=
  ct.drop 32 ++ xorBits (ct.take 32) (fBits (ct.drop 32) k48)

/-- The subkeys of the rounds `rs`, starting from the key state `k56`. -/
def subkeys (k_func : List Nat → Int → List Nat) : List Nat → List Int → List (List Nat)
  | _, [] => []
  | k56, r :: rs => permuteL PC2 (k_func k56 r) :: subkeys k_func (k_func k56 r) rs

/-- A key rotation that keeps a 56-bit key state a 56-bit key state. -/
def KeepsKey (k_func : List Nat → Int → List Nat) : Prop :=
  ∀ k i, Bits k → k.length = 56 → Bits (k_func k i) ∧ (k_func k i).length = 56

/-- The block `des` computes, written with the list operations: initial
permutation, the Feistel rounds with the subkeys of the schedule, the final
swap, and the inverse permutation. -/
def desBlock (msg k56 : List Nat) (k_func : List Nat → Int → List Nat) : List Nat :=
  permuteL IP_INV (swapHalves ((subkeys k_func k56 des_rounds).foldl feistel (permuteL IP msg)))

/-- The rotation `key_rot_enc` performs in round `r`, on the halves of the key. -/
def rotEnc (k : List Nat) (r : Int) : List Nat :=
  rotHalves k (if (r ≥ 3 ∧ r ≤ 8) ∨ (r ≥ 10 ∧ r ≤ 15) then 2 else 1)

/-- The rotation `key_rot_dec` performs in round `r`: none in round 1, otherwise
a right rotation by 1 or 2, which is a left rotation by 27 or 26. -/
def rotDec (k : List Nat) (r : Int) : List Nat :=
  if r = 1 then k
  else rotHalves k (if (r ≥ 3 ∧ r ≤ 8) ∨ (r ≥ 10 ∧ r ≤ 15) then 26 else 27)

/-- The 64-bit key `key_init` permutes: the key padded with `'0'` up to 64
characters, or its first 64 characters. -/
def key64 (k : List Nat) : List Nat :=
  (k ++ List.replicate (64 - k.length) 48).take 64

/-! ## Test vectors -/

/-- Key `0x133457799BBCDFF1`. -/
def key2 : List Nat := hexBits [1, 3, 3, 4, 5, 7, 7, 9, 9, 11, 11, 12, 13, 15, 15, 1]

/-- Plaintext `0x0123456789ABCDEF`. -/
def plain2 : List Nat := hexBits [0, 1, 2, 3, 4, 5, 6, 7, 8, 9, 10, 11, 12, 13, 14, 15]

/-- Ciphertext `0x85E813540F0AB405`. -/
def cipher2 : List Nat := hexBits [8, 5, 14, 8, 1, 3, 5, 4, 0, 15, 0, 10, 11, 4, 0, 5]

/-- The 64-bit block `0x0000000000000000`. -/
def zero64 : List Nat := hexBits [0, 0, 0, 0, 0, 0, 0, 0, 0, 0, 0, 0, 0, 0, 0, 0]

/-- Ciphertext `0x8CA64DE9C1B123A7`. -/
def cipher1 : List Nat := hexBits [8, 12, 10, 6, 4, 13, 14, 9, 12, 1, 11, 1, 2, 3, 10, 7]

/-- Key `0x0E329232EA6D0D73`. -/
def key3 : List Nat := hexBits [0, 14, 3, 2, 9, 2, 3, 2, 14, 10, 6, 13, 0, 13, 7, 3]

/-- Plaintext `0x8787878787878787`. -/
def plain3 : List Nat := hexBits [8, 7, 8, 7, 8, 7, 8, 7, 8, 7, 8, 7, 8, 7, 8, 7]

/-- The 8 characters of a byte value, most significant bit first. -/
def bits8 (c : Nat) : List Nat :=
  [48 + c / 128 % 2, 48 + c / 64 % 2, 48 + c / 32 % 2, 48 + c / 16 % 2,
   48 + c / 8 % 2, 48 + c / 4 % 2, 48 + c / 2 % 2, 48 + c % 2]

/-! ## The round function as the specification words it -/

/-- The value 0 or 1 of a bit character. -/
def bitVal (c : Nat) : Nat := c - 48

/-- The output of S-box `i` on the 48-bit string `X`, in the words of the
specification: `row = 2 * X[6i] + X[6i+5]`,
`col = 8 * X[6i+1] + 4 * X[6i+2] + 2 * X[6i+3] + X[6i+4]`, and the 4-bit
most-significant-first representation of `SBOX[i][16 * row + col]`. -/
def sboxSpec (X : List Nat) (i : Nat) : List Nat :=
  let row := 2 * bitVal (X.getD (6 * i) 0) + bitVal (X.getD (6 * i + 5) 0)
  let col := 8 * bitVal (X.getD (6 * i + 1) 0) + 4 * bitVal (X.getD (6 * i + 2) 0) +
    2 * bitVal (X.getD (6 * i + 3) 0) + bitVal (X.getD (6 * i + 4) 0)
  nibble ((SBOX.getD i []).getD (16 * row + col) 0).toNat

/-- The round function in the words of the specification: with
`X = permute(R, EXP, 48) XOR k` and `S` the concatenation of the eight S-box
outputs on `X`, the value is `permute(S, P, 32)`. -/
def fSpec (R k : List Nat) : List Nat :=
  permuteL P ((List.range 8).flatMap (sboxSpec (xorBits (permuteL EXP R) k)))

/-- Every character complemented, as the loop of `bstr_flip` writes it. -/
def flipBits (s : List Nat) : List Nat := s.map fun c => if c = 49 then 48 else 49

/-! ## The calls of `des_permute` made by `des_enc` and `des_dec` -/

/-- A call `des_permute(str, p, len)`. -/
structure PermCall where
  /-- The string argument. -/
  str : Option (List Nat)
  /-- The table argument. -/
  tbl : List Int
  /-- The length argument. -/
  len : Nat

/-- The call runs its loop to the end within bounds: the string is a non-empty
bit string, the table holds `len > 0` entries, and for every entry `p` read the
rejection test `(p - 1) > oldlen` is false and the index `p - 1` read lies in
`[0, oldlen)`, before the end of the string. -/
def PermCall.safe (c : PermCall) : Prop :=
  bstr_len c.str ≠ 0 ∧ c.len ≠ 0 ∧ c.len = c.tbl.length ∧
    ∀ p ∈ c.tbl.take c.len,
      ¬ (toSizeT (p - 1) > bstr_len c.str) ∧ 0 ≤ p - 1 ∧ (p - 1).toNat < bstr_len c.str

/-- The calls of `des_permute` made by `f_func(r, k48)`, in order: the expansion,
and, when it succeeds, the permutation `P` of the buffer cut at index 32. -/
def f_func_calls (r k48 : List Nat) : List PermCall :=
  ⟨some r, EXP, 48⟩ ::
    match des_permute (some r) (some EXP) 48 with
    | none => []
    | some expanded =>
      let expanded := (bstr_xor expanded k48).2
      let expanded := ([0, 1, 2, 3, 4, 5, 6, 7].foldl f_func_step (expanded, 0, 0)).1
      let expanded := expanded.set 32 0
      [⟨some expanded, P, 32⟩]

/-- The calls of `des_permute` made by one pass through the round loop of `des`
from the state `(ct, k56)`: the subkey selection and, when it succeeds, the calls
of `f_func`. -/
def des_round_calls (k_func : List Nat → Int → List Nat) (st : List Nat × List Nat)
    (i : Int) : List PermCall :=
  let k56 := k_func st.2 i
  ⟨some k56, PC2, 48⟩ ::
    match des_permute (some k56) (some PC2) 48 with
    | none => []
    | some k48 => f_func_calls (st.1.drop 32) k48

/-- The calls made by the passes `rs` of the round loop, from the state `st`. -/
def des_loop_calls (k_func : List Nat → Int → List Nat) :
    List Nat × List Nat → List Int → List PermCall
  | _, [] => []
  | st, i :: rest =>
    des_round_calls k_func st i ++ des_loop_calls k_func (des_round k_func st i) rest

/-- The calls of `des_permute` made by `des(msg, k56, k_func)`, in order. -/
def des_calls (msg k56 : List Nat) (k_func : List Nat → Int → List Nat) : List PermCall :=
  ⟨some msg, IP, 64⟩ ::
    match des_permute (some msg) (some IP) 64 with
    | none => []
    | some ct =>
      des_loop_calls k_func (ct, k56) des_rounds ++
        [⟨some (bstr_swap (des_rounds.foldl (des_round k_func) (ct, k56)).1).2, IP_INV, 64⟩]

/-- The call of `des_permute` made by `key_init(k)`. -/
def key_init_calls (k : Option (List Nat)) : List PermCall :=
  let len := bstr_len k
  if len = 0 then []
  else [⟨if len < 64 then bstr_pad k 64 else k, PC1, 56⟩]

/-- The calls of `des_permute` made by `des_enc(msg, k64)`, in order. -/
def des_enc_calls (msg k64 : Option (List Nat)) : List PermCall :=
  if bstr_len msg ≠ 64 then []
  else
    key_init_calls k64 ++
      match msg, key_init k64 with
      | some m, some k56 => des_calls m k56 key_rot_enc
      | _, _ => []

/-- The calls of `des_permute` made by `des_dec(msg, k64)`, in order. -/
def des_dec_calls (msg k64 : Option (List Nat)) : List PermCall :=
  if bstr_len msg ≠ 64 then []
  else
    key_init_calls k64 ++
      match msg, key_init k64 with
      | some m, some k56 => des_calls m k56 key_rot_dec
      | _, _ => []

end Des

namespace Des

/-! ## Lemmas on `bstr_len` -/

theorem Bits.nil : Bits [] := by
  intro c hc; cases hc

theorem Bits.cons_iff {c : Nat} {s : List Nat} : Bits (c :: s) ↔ (c = 48 ∨ c = 49) ∧ Bits s := by
  simp [Bits]

theorem Bits.append {s t : List Nat} (hs : Bits s) (ht : Bits t) : Bits (s ++ t) := by
  intro c hc
  rcases List.mem_append.mp hc with h | h
  · exact hs c h
  · exact ht c h

theorem Bits.take {s : List Nat} (hs : Bits s) (n : Nat) : Bits (s.take n) :=
  fun c hc => hs c (List.mem_of_mem_take hc)

theorem Bits.drop {s : List Nat} (hs : Bits s) (n : Nat) : Bits (s.drop n) :=
  fun c hc => hs c (List.mem_of_mem_drop hc)

theorem Bits.not_nul {s : List Nat} (hs : Bits s) : 0 ∉ s := by
  intro h
  rcases hs 0 h with h | h <;> omega

theorem bstr_len_loop_append (s t : List Nat) (i : Nat) (hs : Bits s) :
    bstr_len_loop (s ++ t) i = bstr_len_loop t (i + s.length) := by
  induction s generalizing i with
  | nil => simp
  | cons c s ih =>
    obtain ⟨hc, hs⟩ := Bits.cons_iff.mp hs
    have h0 : c ≠ 0 := by omega
    have h1 : ¬ (c ≠ 48 ∧ c ≠ 49) := by omega
    rw [List.cons_append]
    simp only [bstr_len_loop, if_neg h0, if_neg h1, List.length_cons]
    rw [ih _ hs]
    congr 1
    omega

theorem bstr_len_loop_bits (s : List Nat) (i : Nat) (hs : Bits s) :
    bstr_len_loop s i = i + s.length := by
  have h := bstr_len_loop_append s [] i hs
  simpa [bstr_len_loop] using h

theorem bstr_len_loop_bits_nul (s r : List Nat) (i : Nat) (hs : Bits s) :
    bstr_len_loop (s ++ 0 :: r) i = i + s.length := by
  rw [bstr_len_loop_append s _ i hs]
  simp [bstr_len_loop]

/-- On a buffer holding only bit characters `bstr_len` is the number of
characters. -/
theorem bstr_len_bits (s : List Nat) (hs : Bits s) : bstr_len (some s) = s.length := by
  cases s with
  | nil => simp [bstr_len]
  | cons c s =>
    have hc : c ≠ 0 := by
      have := (Bits.cons_iff.mp hs).1
      omega
    simp only [bstr_len, List.getD_cons_zero, if_neg hc]
    rw [bstr_len_loop_bits _ _ hs]
    simp

/-- A NUL written after the bit characters `s` ends the string there. -/
theorem bstr_len_bits_nul (s r : List Nat) (hs : Bits s) :
    bstr_len (some (s ++ 0 :: r)) = s.length := by
  cases s with
  | nil => simp [bstr_len]
  | cons c s =>
    have hc : c ≠ 0 := by
      have := (Bits.cons_iff.mp hs).1
      omega
    simp only [bstr_len, List.cons_append, List.getD_cons_zero, if_neg hc]
    rw [← List.cons_append, bstr_len_loop_bits_nul _ _ _ hs]
    simp

theorem bstr_len_loop_not_bits (s : List Nat) (i : Nat) (h0 : 0 ∉ s) (hs : ¬ Bits s) :
    bstr_len_loop s i = 0 := by
  induction s generalizing i with
  | nil => exact absurd Bits.nil hs
  | cons c s ih =>
    have hc : c ≠ 0 := fun h => h0 (by simp [h])
    have h0s : 0 ∉ s := fun h => h0 (List.mem_cons_of_mem _ h)
    by_cases hb : c = 48 ∨ c = 49
    · have h1 : ¬ (c ≠ 48 ∧ c ≠ 49) := by omega
      have hs2 : ¬ Bits s := fun h => hs (Bits.cons_iff.mpr ⟨hb, h⟩)
      simp only [bstr_len_loop, if_neg hc, if_neg h1]
      exact ih _ h0s hs2
    · have h1 : c ≠ 48 ∧ c ≠ 49 := by omega
      simp only [bstr_len_loop, if_neg hc, if_pos h1]

/-- On a C string that is not a bit string `bstr_len` is 0. -/
theorem bstr_len_not_bits (s : List Nat) (h0 : 0 ∉ s) (hs : ¬ Bits s) :
    bstr_len (some s) = 0 := by
  simp only [bstr_len]
  split
  · rfl
  · exact bstr_len_loop_not_bits s 0 h0 hs

/-- The value of `bstr_len` on every C string argument. -/
theorem bstr_len_eq (str : Option (List Nat)) (hc : CStr str) :
    bstr_len str = if ValidBits str then slen str else 0 := by
  cases str with
  | none => simp [bstr_len, ValidBits]
  | some s =>
    by_cases hs : Bits s
    · rw [bstr_len_bits s hs]
      by_cases hn : s = []
      · simp [hn, slen]
      · simp [ValidBits, BitStr, hs, hn, slen]
    · rw [bstr_len_not_bits s hc hs]
      simp [ValidBits, BitStr, hs]

theorem bstr_len_valid (str : Option (List Nat)) (hv : ValidBits str) :
    bstr_len str = slen str ∧ 0 < slen str := by
  cases str with
  | none => exact absurd hv (by simp [ValidBits])
  | some s =>
    obtain ⟨hn, hs⟩ := hv
    exact ⟨bstr_len_bits s hs, List.length_pos.mpr hn⟩

/-! ## Lemmas on `des_permute` -/

theorem toSizeT_of_nonneg (x : Int) (h0 : 0 ≤ x) : toSizeT x ≤ x.toNat := by
  unfold toSizeT
  have h : (2 : Int) ^ 64 = 18446744073709551616 := by norm_num
  rw [h]
  omega

theorem des_permute_loop_eq (s : List Nat) (oldlen : Nat) (tbl : List Int)
    (h : ∀ p ∈ tbl, 1 ≤ p ∧ p ≤ (oldlen : Int)) :
    des_permute_loop s oldlen tbl = some (permuteL tbl s) := by
  induction tbl with
  | nil => rfl
  | cons p tbl ih =>
    have hp := h p (List.mem_cons_self _ _)
    have hle : ¬ toSizeT (p - 1) > oldlen := by
      have := toSizeT_of_nonneg (p - 1) (by omega)
      omega
    have ih2 := ih (fun q hq => h q (List.mem_cons_of_mem _ hq))
    simp only [des_permute_loop, if_neg hle, ih2, permuteL, List.map_cons]

/-- With every entry read lying in `[1, bstr_len(str)]`, `des_permute` returns the
selected characters. -/
theorem des_permute_eq (s : List Nat) (tbl : List Int) (len : Nat)
    (hlen : len ≠ 0) (hs : bstr_len (some s) ≠ 0)
    (h : ∀ p ∈ tbl.take len, 1 ≤ p ∧ p ≤ (bstr_len (some s) : Int)) :
    des_permute (some s) (some tbl) len = some (permuteL (tbl.take len) s) := by
  have hcond : ¬ (bstr_len (some s) = 0 ∨ len = 0) := by
    intro hc
    rcases hc with hc | hc
    · exact hs hc
    · exact hlen hc
  simp only [des_permute, if_neg hcond]
  exact des_permute_loop_eq s _ _ h

theorem length_permuteL (tbl : List Int) (s : List Nat) :
    (permuteL tbl s).length = tbl.length := by
  simp [permuteL]

theorem permuteL_bits (tbl : List Int) (s : List Nat) (hs : Bits s)
    (h : ∀ p ∈ tbl, 1 ≤ p ∧ p ≤ (s.length : Int)) : Bits (permuteL tbl s) := by
  intro c hc
  obtain ⟨p, hp, rfl⟩ := List.mem_map.mp hc
  have hb := h p hp
  have hlt : (p - 1).toNat < s.length := by omega
  rw [List.getD_eq_getElem _ _ hlt]
  exact hs _ (List.getElem_mem _)

/-- Only the characters below the largest entry are read. -/
theorem permuteL_append (tbl : List Int) (s r : List Nat)
    (h : ∀ p ∈ tbl, 1 ≤ p ∧ p ≤ (s.length : Int)) :
    permuteL tbl (s ++ r) = permuteL tbl s := by
  apply List.map_congr_left
  intro p hp
  have hb := h p hp
  exact List.getD_append _ _ _ _ (by omega)

theorem permuteL_getD (tbl : List Int) (s : List Nat) (i : Nat) (hi : i < tbl.length) :
    (permuteL tbl s).getD i 0 = s.getD (tbl.getD i 0 - 1).toNat 0 := by
  have h1 : i < (permuteL tbl s).length := by rw [length_permuteL]; exact hi
  rw [List.getD_eq_getElem _ _ h1, List.getD_eq_getElem tbl _ hi]
  simp [permuteL]

/-- Two tables that undo each other. -/
theorem permuteL_permuteL (t1 t2 : List Int) (s : List Nat) (n : Nat)
    (h1 : t1.length = n) (hs : s.length = n)
    (h : ∀ i < n, (t1.getD i 0 - 1).toNat < t2.length ∧
      (t2.getD (t1.getD i 0 - 1).toNat 0 - 1).toNat = i) :
    permuteL t1 (permuteL t2 s) = s := by
  apply List.ext_getElem
  · rw [length_permuteL, h1, hs]
  · intro i hi1 hi2
    have hin : i < n := by rw [← hs]; exact hi2
    have hit : i < t1.length := by rw [h1]; exact hin
    obtain ⟨ha, hb⟩ := h i hin
    rw [← List.getD_eq_getElem _ 0 hi1, ← List.getD_eq_getElem _ 0 hi2,
      permuteL_getD _ _ _ hit, permuteL_getD _ _ _ ha, hb]

theorem IP_range : ∀ p ∈ IP, 1 ≤ p ∧ p ≤ (64 : Int) := by decide

theorem IP_INV_range : ∀ p ∈ IP_INV, 1 ≤ p ∧ p ≤ (64 : Int) := by decide

theorem PC1_range : ∀ p ∈ PC1, 1 ≤ p ∧ p ≤ (64 : Int) := by decide

theorem PC2_range : ∀ p ∈ PC2, 1 ≤ p ∧ p ≤ (56 : Int) := by decide

theorem EXP_range : ∀ p ∈ EXP, 1 ≤ p ∧ p ≤ (32 : Int) := by decide

theorem P_range : ∀ p ∈ P, 1 ≤ p ∧ p ≤ (32 : Int) := by decide

theorem IP_IP_INV : ∀ i < 64, (IP.getD i 0 - 1).toNat < IP_INV.length ∧
    (IP_INV.getD (IP.getD i 0 - 1).toNat 0 - 1).toNat = i := by decide

theorem IP_INV_IP : ∀ i < 64, (IP_INV.getD i 0 - 1).toNat < IP.length ∧
    (IP.getD (IP_INV.getD i 0 - 1).toNat 0 - 1).toNat = i := by decide

/-! ## Lemmas on `bstr_xor` -/

theorem bstr_xor_loop_eq (a b r : List Nat) (h : a.length = b.length) :
    bstr_xor_loop a.length (a ++ r) b = xorBits a b ++ r := by
  induction a generalizing b with
  | nil =>
    cases r <;> simp [bstr_xor_loop, xorBits]
  | cons x a ih =>
    cases b with
    | nil => simp at h
    | cons y b =>
      have h2 : a.length = b.length := by simpa using h
      rw [List.length_cons, List.cons_append]
      simp only [bstr_xor_loop, xorBits, List.zipWith_cons_cons]
      rw [ih b h2]
      rfl

theorem length_xorBits (a b : List Nat) (h : a.length = b.length) :
    (xorBits a b).length = a.length := by
  simp [xorBits, h]

theorem xorBits_bits (a b : List Nat) (ha : Bits a) (hb : Bits b) : Bits (xorBits a b) := by
  induction a generalizing b with
  | nil => simpa [xorBits] using Bits.nil
  | cons x a ih =>
    cases b with
    | nil => simpa [xorBits] using Bits.nil
    | cons y b =>
      obtain ⟨hx, ha⟩ := Bits.cons_iff.mp ha
      obtain ⟨hy, hb⟩ := Bits.cons_iff.mp hb
      simp only [xorBits, List.zipWith_cons_cons]
      refine Bits.cons_iff.mpr ⟨?_, ih b ha hb⟩
      rcases hx with rfl | rfl <;> rcases hy with rfl | rfl <;> decide

/-- XOR with the same string twice gives the first operand back. -/
theorem xorBits_xorBits (a b : List Nat) (ha : Bits a) (hb : Bits b)
    (h : a.length = b.length) : xorBits (xorBits a b) b = a := by
  induction a generalizing b with
  | nil => simp [xorBits]
  | cons x a ih =>
    cases b with
    | nil => simp at h
    | cons y b =>
      obtain ⟨hx, ha⟩ := Bits.cons_iff.mp ha
      obtain ⟨hy, hb⟩ := Bits.cons_iff.mp hb
      have h2 : a.length = b.length := by simpa using h
      have ih2 := ih b ha hb h2
      simp only [xorBits, List.zipWith_cons_cons] at ih2 ⊢
      rw [ih2]
      congr 1
      rcases hx with rfl | rfl <;> rcases hy with rfl | rfl <;> decide

/-- Effect of `bstr_xor` on a buffer whose string is the bit string `a`, followed by the
bytes `r` (empty, or starting with a NUL). -/
theorem bstr_xor_eq (a b r : List Nat) (hb : Bits b) (hne : a ≠ [])
    (hl : bstr_len (some (a ++ r)) = a.length) (h : a.length = b.length) :
    bstr_xor (a ++ r) b = (true, xorBits a b ++ r) := by
  have hpos : a.length ≠ 0 := fun h0 => hne (List.length_eq_zero.mp h0)
  have hbl : bstr_len (some b) = b.length := bstr_len_bits b hb
  have hcond : ¬ (a.length = 0 ∨ b.length = 0 ∨ a.length ≠ b.length) := by omega
  simp only [bstr_xor, hl, hbl, if_neg hcond]
  rw [bstr_xor_loop_eq a b r h]

/-! ## Lemmas on `bstr_swap` -/

theorem bstr_swap_step_length (half : Nat) (t : List Nat) (i : Nat) :
    (bstr_swap_step half t i).length = t.length := by
  simp [bstr_swap_step]

theorem bstr_swap_step_getElem? (half : Nat) (t : List Nat) (i j : Nat)
    (hh : 0 < half) (hi : i + half < t.length) :
    (bstr_swap_step half t i)[j]? =
      if j = i + half then t[i]? else if j = i then t[i + half]? else t[j]? := by
  have hi2 : i < t.length := by omega
  simp only [bstr_swap_step, List.getElem?_set, List.length_set, List.getD_eq_getElem?_getD]
  by_cases h1 : j = i + half
  · subst h1
    simp [hi, hi2]
  · by_cases h2 : j = i
    · subst h2
      have : ¬ (j + half = j) := by omega
      simp [hi, hi2, this, h1]
    · have e1 : ¬ (i + half = j) := fun h => h1 h.symm
      have e2 : ¬ (i = j) := fun h => h2 h.symm
      simp [e1, e2, h1, h2]

theorem bstr_swap_fold (half : Nat) (s : List Nat) (hh : 0 < half)
    (hs : 2 * half ≤ s.length) (k : Nat) (hk : k ≤ half) :
    ((List.range k).foldl (bstr_swap_step half) s).length = s.length ∧
    ∀ j, ((List.range k).foldl (bstr_swap_step half) s)[j]? =
      if j < k then s[j + half]?
      else if half ≤ j ∧ j < half + k then s[j - half]? else s[j]? := by
  induction k with
  | zero =>
    refine ⟨by simp, fun j => ?_⟩
    have h1 : ¬ (half ≤ j ∧ j < half + 0) := by omega
    rw [List.range_zero, List.foldl_nil, if_neg (Nat.not_lt_zero j), if_neg h1]
  | succ k ih =>
    obtain ⟨hlen, hget⟩ := ih (by omega)
    rw [List.range_succ, List.foldl_append]
    simp only [List.foldl_cons, List.foldl_nil]
    refine ⟨by rw [bstr_swap_step_length, hlen], fun j => ?_⟩
    rw [bstr_swap_step_getElem? half _ k j hh (by rw [hlen]; omega)]
    by_cases h1 : j = k + half
    · subst h1
      have a1 : ¬ (k + half < k + 1) := by omega
      have a2 : half ≤ k + half ∧ k + half < half + (k + 1) := by omega
      have a3 : ¬ (half ≤ k ∧ k < half + k) := by omega
      rw [if_pos rfl, if_neg a1, if_pos a2, hget k, if_neg (Nat.lt_irrefl k), if_neg a3]
      congr 1
      omega
    · by_cases h2 : j = k
      · subst h2
        have a2 : ¬ (j + half < j) := by omega
        have a3 : ¬ (half ≤ j + half ∧ j + half < half + j) := by omega
        rw [if_neg h1, if_pos rfl, if_pos (Nat.lt_succ_self j), hget (j + half), if_neg a2,
          if_neg a3]
      · rw [if_neg h1, if_neg h2, hget j]
        by_cases h3 : j < k
        · have a1 : j < k + 1 := by omega
          rw [if_pos h3, if_pos a1]
        · have a1 : ¬ j < k + 1 := by omega
          rw [if_neg h3, if_neg a1]
          by_cases h4 : half ≤ j ∧ j < half + k
          · have a2 : half ≤ j ∧ j < half + (k + 1) := by omega
            rw [if_pos h4, if_pos a2]
          · have a2 : ¬ (half ≤ j ∧ j < half + (k + 1)) := by omega
            rw [if_neg h4, if_neg a2]

/-- The swap loop exchanges the two halves of the string `a ++ b` and leaves the
bytes `r` after it alone. -/
theorem bstr_swap_loop_eq (a b r : List Nat) (hh : 0 < a.length) (hab : a.length = b.length) :
    (List.range a.length).foldl (bstr_swap_step a.length) (a ++ b ++ r) = b ++ a ++ r := by
  obtain ⟨hlen, hget⟩ := bstr_swap_fold a.length (a ++ b ++ r) hh
    (by simp only [List.length_append]; omega) a.length (Nat.le_refl _)
  apply List.ext_getElem?
  intro j
  rw [hget j]
  by_cases h1 : j < a.length
  · rw [if_pos h1]
    have hjb : j < b.length := by omega
    rw [List.append_assoc, List.getElem?_append_right (by omega), Nat.add_sub_cancel,
      List.getElem?_append_left hjb, List.append_assoc, List.getElem?_append_left hjb]
  · rw [if_neg h1]
    by_cases h2 : a.length ≤ j ∧ j < a.length + a.length
    · rw [if_pos h2]
      have hj1 : j - a.length < a.length := by omega
      rw [List.append_assoc, List.getElem?_append_left hj1, List.append_assoc,
        List.getElem?_append_right (by omega), List.getElem?_append_left (by omega)]
      congr 1
      omega
    · rw [if_neg h2]
      have hj : a.length + b.length ≤ j := by omega
      rw [List.getElem?_append_right (by simp only [List.length_append]; omega),
        List.getElem?_append_right (by simp only [List.length_append]; omega)]
      simp only [List.length_append]
      congr 1
      omega

/-- Effect of `bstr_swap` on a buffer whose string is the bit string `a ++ b` with halves
`a` and `b`. -/
theorem bstr_swap_eq (a b r : List Nat) (hh : 0 < a.length) (hab : a.length = b.length)
    (hl : bstr_len (some (a ++ b ++ r)) = a.length + b.length) :
    bstr_swap (a ++ b ++ r) = (true, b ++ a ++ r) := by
  have hcond : ¬ (a.length + b.length = 0 ∨ (a.length + b.length) % 2 ≠ 0) := by omega
  have hhalf : (a.length + b.length) / 2 = a.length := by omega
  simp only [bstr_swap, hl, if_neg hcond, hhalf]
  rw [bstr_swap_loop_eq a b r hh hab]

/-! ## Lemmas on the rotations -/

theorem drop_both (A B r : List Nat) : (A ++ B ++ r).drop (B.length + A.length) = r := by
  apply List.drop_left'
  rw [List.length_append, Nat.add_comm]

theorem lrot_memcpy (A B r : List Nat) :
    memcpy (memcpy (A ++ B ++ r) 0 ((A ++ B ++ r).drop A.length) B.length) B.length
      ((A ++ B ++ r).take A.length) A.length = B ++ A ++ r := by
  have e1 : (A ++ B ++ r).drop A.length = B ++ r := by
    rw [List.append_assoc]; exact List.drop_left' rfl
  have e2 : (B ++ r).take B.length = B := List.take_left' rfl
  have e3 : (A ++ B ++ r).take A.length = A := by
    rw [List.append_assoc]; exact List.take_left' rfl
  have e4 : (B ++ (A ++ B ++ r).drop B.length).take B.length = B := List.take_left' rfl
  have e5 : (B ++ (A ++ B ++ r).drop B.length).drop (B.length + A.length) = r := by
    rw [List.drop_append, List.drop_drop, drop_both]
  unfold memcpy
  rw [e1, e2, e3, List.take_zero, List.nil_append, Nat.zero_add, e4, e5, List.take_length]

theorem rrot_memcpy (A B r : List Nat) :
    memcpy (memcpy (A ++ B ++ r) B.length (A ++ B ++ r) A.length) 0
      (((A ++ B ++ r).drop A.length).take B.length) B.length = B ++ A ++ r := by
  have e1 : (A ++ B ++ r).drop A.length = B ++ r := by
    rw [List.append_assoc]; exact List.drop_left' rfl
  have e2 : (B ++ r).take B.length = B := List.take_left' rfl
  have e3 : (A ++ B ++ r).take A.length = A := by
    rw [List.append_assoc]; exact List.take_left' rfl
  have e5 : ((A ++ B ++ r).take B.length ++ A ++ r).drop B.length = A ++ r := by
    rw [List.append_assoc]
    apply List.drop_left'
    simp only [List.length_take, List.length_append]
    omega
  unfold memcpy
  rw [e1, e2, e3, drop_both, List.take_zero, List.nil_append, Nat.zero_add, e5,
    List.take_length, List.append_assoc]

/-- Effect of `bstr_lrot` on a buffer whose string is `s`, followed by the bytes `r`: the
string is rotated left by `n`, the rest is untouched. -/
theorem bstr_lrot_eq (s r : List Nat) (n : Nat) (hne : s ≠ [])
    (hl : bstr_len (some (s ++ r)) = s.length) :
    bstr_lrot (s ++ r) n = (true, s.rotate n ++ r) := by
  have hpos : 0 < s.length := List.length_pos.mpr hne
  have h0 : ¬ s.length = 0 := by omega
  by_cases hz : n % s.length = 0
  · simp only [bstr_lrot, hl, if_neg h0, if_pos hz]
    rw [← List.rotate_mod, hz, List.rotate_zero]
  · simp only [bstr_lrot, hl, if_neg h0, if_neg hz]
    have hlt : n % s.length < s.length := Nat.mod_lt _ hpos
    rw [← List.rotate_mod s n, List.rotate_eq_drop_append_take (Nat.le_of_lt hlt)]
    generalize n % s.length = m at hz hlt
    have hA : (s.take m).length = m := by rw [List.length_take]; omega
    have hB : (s.drop m).length = s.length - m := List.length_drop _ _
    have key := lrot_memcpy (s.take m) (s.drop m) r
    rw [List.take_append_drop, hA, hB] at key
    rw [key]

/-- Effect of `bstr_rrot` on a buffer whose string is `s`, followed by the bytes `r`: a
right rotation by `n` is the left rotation by `len - n % len`. -/
theorem bstr_rrot_eq (s r : List Nat) (n : Nat) (hne : s ≠ [])
    (hl : bstr_len (some (s ++ r)) = s.length) :
    bstr_rrot (s ++ r) n = (true, s.rotate (s.length - n % s.length) ++ r) := by
  have hpos : 0 < s.length := List.length_pos.mpr hne
  have h0 : ¬ s.length = 0 := by omega
  by_cases hz : n % s.length = 0
  · simp only [bstr_rrot, hl, if_neg h0, if_pos hz]
    rw [hz, Nat.sub_zero, List.rotate_length]
  · simp only [bstr_rrot, hl, if_neg h0, if_neg hz]
    have hlt : n % s.length < s.length := Nat.mod_lt _ hpos
    rw [List.rotate_eq_drop_append_take (Nat.sub_le _ _)]
    generalize n % s.length = m at hz hlt
    have hA : (s.take (s.length - m)).length = s.length - m := by rw [List.length_take]; omega
    have hB : (s.drop (s.length - m)).length = m := by rw [List.length_drop]; omega
    have key := rrot_memcpy (s.take (s.length - m)) (s.drop (s.length - m)) r
    rw [List.take_append_drop, hA, hB] at key
    rw [key]

theorem Bits.rotate {s : List Nat} (hs : Bits s) (n : Nat) : Bits (s.rotate n) :=
  fun c hc => hs c (List.mem_rotate.mp hc)

/-! ## Lemmas on the key schedule -/

theorem set_at_length (a : List Nat) (x y : Nat) (b : List Nat) :
    (a ++ x :: b).set a.length y = a ++ y :: b := by
  rw [List.set_append_right _ _ (Nat.le_refl _)]
  simp

theorem getD_at_length (a : List Nat) (x : Nat) (b : List Nat) :
    (a ++ x :: b).getD a.length 0 = x := by
  rw [List.getD_append_right _ _ _ _ (Nat.le_refl _)]
  simp

/-- Splitting the key buffer at index 28, working on the first half, restoring
the character and working on the second half: `key_rot_enc` and `key_rot_dec`
with a rotation `rot` that acts as `g` on the string of a buffer. -/
theorem split_rot (rot : List Nat → Bool × List Nat) (g : List Nat → List Nat)
    (hg : ∀ s, (g s).length = s.length)
    (hrot : ∀ s r, s ≠ [] → bstr_len (some (s ++ r)) = s.length → rot (s ++ r) = (true, g s ++ r))
    (k : List Nat) (hk : Bits k) (hlen : k.length = 56) :
    (((rot (k.set 28 0)).2.set 28 (k.getD 28 0)).take 28 ++
      (rot (((rot (k.set 28 0)).2.set 28 (k.getD 28 0)).drop 28)).2) =
      g (k.take 28) ++ g (k.drop 28) := by
  have hC : (k.take 28).length = 28 := by rw [List.length_take]; omega
  have hD : (k.drop 28).length = 28 := by rw [List.length_drop]; omega
  have hCb : Bits (k.take 28) := hk.take 28
  have hDb : Bits (k.drop 28) := hk.drop 28
  have hsplit : k = k.take 28 ++ k.drop 28 := (List.take_append_drop 28 k).symm
  generalize k.take 28 = C at hC hCb hsplit
  generalize k.drop 28 = D at hD hDb hsplit
  subst hsplit
  cases D with
  | nil => simp at hD
  | cons d D =>
    have hCne : C ≠ [] := by intro h; rw [h] at hC; simp at hC
    have e1 : (C ++ d :: D).set 28 0 = C ++ 0 :: D := by
      rw [← hC]; exact set_at_length C d 0 D
    have e2 : (C ++ d :: D).getD 28 0 = d := by
      rw [← hC]; exact getD_at_length C d D
    have e3 : rot (C ++ 0 :: D) = (true, g C ++ 0 :: D) :=
      hrot C (0 :: D) hCne (bstr_len_bits_nul C D hCb)
    have hgC : (g C).length = 28 := by rw [hg, hC]
    have e4 : (g C ++ 0 :: D).set 28 d = g C ++ d :: D := by
      rw [← hgC]; exact set_at_length (g C) 0 d D
    have e5 : (g C ++ d :: D).take 28 = g C := List.take_left' hgC
    have e6 : (g C ++ d :: D).drop 28 = d :: D := List.drop_left' hgC
    have e7 : rot (d :: D) = (true, g (d :: D)) := by
      have h := hrot (d :: D) [] (List.cons_ne_nil _ _)
        (by rw [List.append_nil]; exact bstr_len_bits _ hDb)
      simpa using h
    rw [e1, e2, e3]
    simp only
    rw [e4, e5, e6, e7]

/-- The number of positions `key_rot_enc` and `key_rot_dec` rotate by in round `r`. -/
theorem key_rot_enc_eq (k : List Nat) (r : Int) (hk : Bits k) (hlen : k.length = 56) :
    key_rot_enc k r = rotHalves k (if (r ≥ 3 ∧ r ≤ 8) ∨ (r ≥ 10 ∧ r ≤ 15) then 2 else 1) := by
  unfold key_rot_enc rotHalves
  split
  · exact split_rot (fun s => bstr_lrot s 2) (fun s => s.rotate 2)
      (fun s => List.length_rotate s 2) (fun s r h1 h2 => bstr_lrot_eq s r 2 h1 h2) k hk hlen
  · exact split_rot (fun s => bstr_lrot s 1) (fun s => s.rotate 1)
      (fun s => List.length_rotate s 1) (fun s r h1 h2 => bstr_lrot_eq s r 1 h1 h2) k hk hlen

theorem key_rot_dec_eq (k : List Nat) (r : Int) (hk : Bits k) (hlen : k.length = 56) :
    key_rot_dec k r =
      if r = 1 then k
      else rotHalves k (if (r ≥ 3 ∧ r ≤ 8) ∨ (r ≥ 10 ∧ r ≤ 15) then 26 else 27) := by
  have hC : (k.take 28).length = 28 := by rw [List.length_take]; omega
  have hD : (k.drop 28).length = 28 := by rw [List.length_drop]; omega
  unfold key_rot_dec rotHalves
  split
  · rfl
  · split
    · have h := split_rot (fun s => bstr_rrot s 2) (fun s => s.rotate (s.length - 2 % s.length))
        (fun s => List.length_rotate s _) (fun s r h1 h2 => bstr_rrot_eq s r 2 h1 h2) k hk hlen
      simp only [hC, hD] at h
      exact h
    · have h := split_rot (fun s => bstr_rrot s 1) (fun s => s.rotate (s.length - 1 % s.length))
        (fun s => List.length_rotate s _) (fun s r h1 h2 => bstr_rrot_eq s r 1 h1 h2) k hk hlen
      simp only [hC, hD] at h
      exact h

theorem rotHalves_length (k : List Nat) (n : Nat) (hlen : k.length = 56) :
    (rotHalves k n).length = 56 := by
  simp only [rotHalves, List.length_append, List.length_rotate, List.length_take,
    List.length_drop]
  omega

theorem rotHalves_bits (k : List Nat) (n : Nat) (hk : Bits k) : Bits (rotHalves k n) :=
  Bits.append ((hk.take 28).rotate n) ((hk.drop 28).rotate n)

theorem rotHalves_rotHalves (k : List Nat) (a b : Nat) (hlen : k.length = 56) :
    rotHalves (rotHalves k a) b = rotHalves k (a + b) := by
  have hC : ((k.take 28).rotate a).length = 28 := by
    rw [List.length_rotate, List.length_take]; omega
  unfold rotHalves
  rw [List.take_left' hC, List.drop_left' hC, List.rotate_rotate, List.rotate_rotate]

theorem rotHalves_mod (k : List Nat) (n : Nat) (hlen : k.length = 56) :
    rotHalves k n = rotHalves k (n % 28) := by
  have hC : (k.take 28).length = 28 := by rw [List.length_take]; omega
  have hD : (k.drop 28).length = 28 := by rw [List.length_drop]; omega
  unfold rotHalves
  rw [← List.rotate_mod (k.take 28) n, ← List.rotate_mod (k.drop 28) n, hC, hD]

theorem rotHalves_zero (k : List Nat) : rotHalves k 0 = k := by
  simp [rotHalves]

/-! ## Lemmas on `f_func` -/

theorem sbox_bits_spec (i : Nat) (bin : List Nat) (v : Nat) (hb : Bits bin) :
    Bits (sbox_bits i bin v) ∧ (sbox_bits i bin v).length = bin.length := by
  induction i generalizing bin v with
  | zero => exact ⟨hb, rfl⟩
  | succ i ih =>
    have hset : Bits (bin.set i ((v &&& 1) + 48)) := by
      intro c hc
      rcases List.mem_or_eq_of_mem_set hc with h | h
      · exact hb c h
      · have h1 : v &&& 1 = v % 2 := Nat.and_one_is_mod v
        omega
    simp only [sbox_bits]
    split
    · have h := ih (bin.set i ((v &&& 1) + 48)) (v >>> 1) hset
      exact ⟨h.1, by rw [h.2, List.length_set]⟩
    · exact ⟨hset, List.length_set _ _ _⟩

/-- The 4 characters returned by `sbox_value` are bit characters. -/
theorem sbox_value_spec (b : List Nat) (sbox : Nat) :
    Bits (sbox_value b sbox) ∧ (sbox_value b sbox).length = 4 := by
  have h4 : Bits [48, 48, 48, 48] := by decide
  simp only [sbox_value]
  split
  · exact ⟨h4, rfl⟩
  · exact sbox_bits_spec 4 _ _ h4

theorem f_func_step_eq (e : List Nat) (ri fi i : Nat) :
    f_func_step (e, ri, fi) i = (memcpy e fi (sbox_value (e.drop ri) i) 4, ri + 6, fi + 4) :=
  rfl

theorem memcpy_sbox_spec (e b : List Nat) (fi i : Nat) (he : Bits e) (hlen : e.length = 48)
    (hfi : fi + 4 ≤ 48) :
    Bits (memcpy e fi (sbox_value b i) 4) ∧ (memcpy e fi (sbox_value b i) 4).length = 48 := by
  obtain ⟨hb, hl⟩ := sbox_value_spec b i
  unfold memcpy
  refine ⟨Bits.append (Bits.append (he.take _) (hb.take _)) (he.drop _), ?_⟩
  simp only [List.length_append, List.length_take, List.length_drop, hl, hlen]
  omega

theorem f_func_fold_spec (is : List Nat) (e : List Nat) (ri fi : Nat) (he : Bits e)
    (hlen : e.length = 48) (hfi : fi + 4 * is.length ≤ 48) :
    Bits (is.foldl f_func_step (e, ri, fi)).1 ∧
      (is.foldl f_func_step (e, ri, fi)).1.length = 48 := by
  induction is generalizing e ri fi with
  | nil => exact ⟨he, hlen⟩
  | cons i is ih =>
    rw [List.foldl_cons, f_func_step_eq]
    rw [List.length_cons] at hfi
    obtain ⟨hb, hl⟩ := memcpy_sbox_spec e (e.drop ri) fi i he hlen (by omega)
    exact ih _ _ _ hb hl (by omega)

theorem set_nul (e : List Nat) (n : Nat) (h : n < e.length) :
    e.set n 0 = e.take n ++ 0 :: e.drop (n + 1) := by
  rw [List.set_eq_take_append_cons_drop, if_pos h]

/-- Totality: `f_func` on a 32-bit block and a 48-bit key returns a 32-bit string. -/
theorem f_func_spec (r k48 : List Nat) (hr : Bits r) (hrl : r.length = 32)
    (hk : Bits k48) (hkl : k48.length = 48) :
    ∃ out, f_func r k48 = some out ∧ Bits out ∧ out.length = 32 := by
  have hrlen : bstr_len (some r) = 32 := by rw [bstr_len_bits r hr, hrl]
  have hE : des_permute (some r) (some EXP) 48 = some (permuteL EXP r) :=
    des_permute_eq r EXP 48 (by decide) (by rw [hrlen]; decide)
      (by rw [hrlen]; exact EXP_range)
  have hE0b : Bits (permuteL EXP r) := permuteL_bits EXP r hr (by rw [hrl]; exact EXP_range)
  have hE0l : (permuteL EXP r).length = 48 := length_permuteL EXP r
  have hne : permuteL EXP r ≠ [] := by
    intro h; rw [h] at hE0l; simp at hE0l
  have hx : bstr_xor (permuteL EXP r) k48 = (true, xorBits (permuteL EXP r) k48) := by
    have h := bstr_xor_eq (permuteL EXP r) k48 [] hk hne
      (by rw [List.append_nil]; exact bstr_len_bits _ hE0b) (by rw [hE0l, hkl])
    simpa using h
  have hE1b : Bits (xorBits (permuteL EXP r) k48) := xorBits_bits _ _ hE0b hk
  have hE1l : (xorBits (permuteL EXP r) k48).length = 48 := by
    rw [length_xorBits _ _ (by rw [hE0l, hkl]), hE0l]
  obtain ⟨hE2b, hE2l⟩ := f_func_fold_spec [0, 1, 2, 3, 4, 5, 6, 7] _ 0 0 hE1b hE1l (by simp)
  simp only [f_func, hE, hx]
  generalize ([0, 1, 2, 3, 4, 5, 6, 7].foldl f_func_step
    (xorBits (permuteL EXP r) k48, 0, 0)).1 = e at hE2b hE2l
  rw [set_nul e 32 (by omega)]
  have hAl : (e.take 32).length = 32 := by rw [List.length_take]; omega
  have hAb : Bits (e.take 32) := hE2b.take 32
  have hlen : bstr_len (some (e.take 32 ++ 0 :: e.drop (32 + 1))) = 32 := by
    rw [bstr_len_bits_nul _ _ hAb, hAl]
  have hP : des_permute (some (e.take 32 ++ 0 :: e.drop (32 + 1))) (some P) 32 =
      some (permuteL P (e.take 32)) := by
    rw [des_permute_eq _ P 32 (by decide) (by rw [hlen]; decide)
      (by rw [hlen]; exact P_range)]
    congr 1
    exact permuteL_append P _ _ (by rw [hAl]; exact P_range)
  exact ⟨_, hP, permuteL_bits P _ hAb (by rw [hAl]; exact P_range), length_permuteL P _⟩

theorem fBits_spec (r k48 : List Nat) (hr : Bits r) (hrl : r.length = 32)
    (hk : Bits k48) (hkl : k48.length = 48) :
    f_func r k48 = some (fBits r k48) ∧ Bits (fBits r k48) ∧ (fBits r k48).length = 32 := by
  obtain ⟨out, h1, h2, h3⟩ := f_func_spec r k48 hr hrl hk hkl
  simp only [fBits, h1, Option.getD_some]
  exact ⟨trivial, h2, h3⟩

/-! ## Lemmas on `des` -/

theorem subkey_spec (k : List Nat) (hk : Bits k) (hl : k.length = 56) :
    des_permute (some k) (some PC2) 48 = some (permuteL PC2 k) ∧
      Bits (permuteL PC2 k) ∧ (permuteL PC2 k).length = 48 := by
  have hlen : bstr_len (some k) = 56 := by rw [bstr_len_bits k hk, hl]
  refine ⟨?_, permuteL_bits PC2 k hk (by rw [hl]; exact PC2_range), length_permuteL PC2 k⟩
  exact des_permute_eq k PC2 48 (by decide) (by rw [hlen]; decide) (by rw [hlen]; exact PC2_range)

theorem feistel_spec (ct k48 : List Nat) (hc : Bits ct) (hcl : ct.length = 64)
    (hk : Bits k48) (hkl : k48.length = 48) :
    Bits (feistel ct k48) ∧ (feistel ct k48).length = 64 := by
  have hRl : (ct.drop 32).length = 32 := by rw [List.length_drop]; omega
  have hLl : (ct.take 32).length = 32 := by rw [List.length_take]; omega
  obtain ⟨_, hFb, hFl⟩ := fBits_spec (ct.drop 32) k48 (hc.drop 32) hRl hk hkl
  unfold feistel
  refine ⟨Bits.append (hc.drop 32) (xorBits_bits _ _ (hc.take 32) hFb), ?_⟩
  rw [List.length_append, length_xorBits _ _ (by rw [hLl, hFl]), hRl, hLl]

/-- One pass through the round loop of `des` is one Feistel round with the
subkey selected from the rotated key state. -/
theorem des_round_eq (k_func : List Nat → Int → List Nat) (ct k : List Nat) (i : Int)
    (hc : Bits ct) (hcl : ct.length = 64)
    (hk : Bits (k_func k i)) (hkl : (k_func k i).length = 56) :
    des_round k_func (ct, k) i = (feistel ct (permuteL PC2 (k_func k i)), k_func k i) := by
  obtain ⟨hsub, hsb, hsl⟩ := subkey_spec (k_func k i) hk hkl
  have hRl : (ct.drop 32).length = 32 := by rw [List.length_drop]; omega
  have hLl : (ct.take 32).length = 32 := by rw [List.length_take]; omega
  have hRb : Bits (ct.drop 32) := hc.drop 32
  have hLb : Bits (ct.take 32) := hc.take 32
  obtain ⟨hF, hFb, hFl⟩ := fBits_spec (ct.drop 32) _ hRb hRl hsb hsl
  simp only [des_round, hsub, hF, feistel]
  generalize fBits (ct.drop 32) (permuteL PC2 (k_func k i)) = F at hFb hFl
  have hsplit : ct = ct.take 32 ++ ct.drop 32 := (List.take_append_drop 32 ct).symm
  generalize ct.take 32 = L at hLl hLb hsplit
  generalize ct.drop 32 = R at hRl hRb hsplit
  subst hsplit
  congr 1
  cases R with
  | nil => simp at hRl
  | cons x R =>
    have hLne : L ≠ [] := by intro h; rw [h] at hLl; simp at hLl
    have e1 : (L ++ x :: R).set 32 0 = L ++ 0 :: R := by
      rw [← hLl]; exact set_at_length L x 0 R
    have e2 : (L ++ x :: R).getD 32 0 = x := by
      rw [← hLl]; exact getD_at_length L x R
    have e3 : bstr_xor (L ++ 0 :: R) F = (true, xorBits L F ++ 0 :: R) :=
      bstr_xor_eq L F (0 :: R) hFb hLne (bstr_len_bits_nul L R hLb) (by rw [hLl, hFl])
    have hXl : (xorBits L F).length = 32 := by rw [length_xorBits _ _ (by rw [hLl, hFl]), hLl]
    have e4 : (xorBits L F ++ 0 :: R).set 32 x = xorBits L F ++ x :: R := by
      rw [← hXl]; exact set_at_length _ 0 x R
    have hXb : Bits (xorBits L F) := xorBits_bits L F hLb hFb
    have e5 : bstr_swap (xorBits L F ++ (x :: R) ++ []) = (true, (x :: R) ++ xorBits L F ++ []) :=
      bstr_swap_eq _ _ [] (by omega) (by rw [hXl, hRl])
        (by rw [List.append_nil, bstr_len_bits _ (Bits.append hXb hRb), List.length_append])
    rw [List.append_nil, List.append_nil] at e5
    rw [e1, e2, e3]
    simp only
    rw [e4, e5]

theorem des_fold_eq (k_func : List Nat → Int → List Nat) (hkf : KeepsKey k_func)
    (rs : List Int) (ct k : List Nat) (hc : Bits ct) (hcl : ct.length = 64)
    (hk : Bits k) (hkl : k.length = 56) :
    rs.foldl (des_round k_func) (ct, k) =
      ((subkeys k_func k rs).foldl feistel ct, rs.foldl k_func k) ∧
    Bits ((subkeys k_func k rs).foldl feistel ct) ∧
    ((subkeys k_func k rs).foldl feistel ct).length = 64 := by
  induction rs generalizing ct k with
  | nil => exact ⟨rfl, hc, hcl⟩
  | cons r rs ih =>
    obtain ⟨hk2, hkl2⟩ := hkf k r hk hkl
    obtain ⟨_, hsb, hsl⟩ := subkey_spec _ hk2 hkl2
    obtain ⟨hfb, hfl⟩ := feistel_spec ct _ hc hcl hsb hsl
    rw [List.foldl_cons, des_round_eq k_func ct k r hc hcl hk2 hkl2]
    simp only [subkeys, List.foldl_cons]
    exact ih _ _ hfb hfl hk2 hkl2

/-- On a 64-bit message and a 56-bit key state, `des` succeeds and returns the
block computed by the list operations. -/
theorem des_eq (k_func : List Nat → Int → List Nat) (hkf : KeepsKey k_func)
    (msg k : List Nat) (hm : Bits msg) (hml : msg.length = 64)
    (hk : Bits k) (hkl : k.length = 56) :
    des msg k k_func = some (desBlock msg k k_func) ∧
      Bits (desBlock msg k k_func) ∧ (desBlock msg k k_func).length = 64 := by
  have hlen : bstr_len (some msg) = 64 := by rw [bstr_len_bits msg hm, hml]
  have hIP : des_permute (some msg) (some IP) 64 = some (permuteL IP msg) :=
    des_permute_eq msg IP 64 (by decide) (by rw [hlen]; decide) (by rw [hlen]; exact IP_range)
  have h0b : Bits (permuteL IP msg) := permuteL_bits IP msg hm (by rw [hml]; exact IP_range)
  have h0l : (permuteL IP msg).length = 64 := length_permuteL IP msg
  obtain ⟨hfold, hSb, hSl⟩ := des_fold_eq k_func hkf des_rounds _ k h0b h0l hk hkl
  simp only [des, hIP, hfold, desBlock]
  generalize (subkeys k_func k des_rounds).foldl feistel (permuteL IP msg) = S at hSb hSl
  have hAl : (S.take 32).length = 32 := by rw [List.length_take]; omega
  have hBl : (S.drop 32).length = 32 := by rw [List.length_drop]; omega
  have hsw : bstr_swap S = (true, swapHalves S) := by
    have h := bstr_swap_eq (S.take 32) (S.drop 32) [] (by omega) (by rw [hAl, hBl])
      (by rw [List.append_nil, List.take_append_drop, bstr_len_bits S hSb, hSl, hAl, hBl])
    rw [List.append_nil, List.append_nil, List.take_append_drop] at h
    rw [h, swapHalves, hSl]
  have hWb : Bits (swapHalves S) := Bits.append (hSb.drop _) (hSb.take _)
  have hWl : (swapHalves S).length = 64 := by
    simp only [swapHalves, List.length_append, List.length_take, List.length_drop]
    omega
  have hlen2 : bstr_len (some (swapHalves S)) = 64 := by rw [bstr_len_bits _ hWb, hWl]
  rw [hsw]
  refine ⟨?_, permuteL_bits IP_INV _ hWb (by rw [hWl]; exact IP_INV_range),
    length_permuteL IP_INV _⟩
  exact des_permute_eq _ IP_INV 64 (by decide) (by rw [hlen2]; decide)
    (by rw [hlen2]; exact IP_INV_range)

/-! ## The key schedule of the two directions -/

theorem keepsKey_enc : KeepsKey key_rot_enc := by
  intro k i hk hl
  rw [key_rot_enc_eq k i hk hl]
  exact ⟨rotHalves_bits k _ hk, rotHalves_length k _ hl⟩

theorem keepsKey_dec : KeepsKey key_rot_dec := by
  intro k i hk hl
  rw [key_rot_dec_eq k i hk hl]
  split
  · exact ⟨hk, hl⟩
  · exact ⟨rotHalves_bits k _ hk, rotHalves_length k _ hl⟩

theorem subkeys_congr (f g : List Nat → Int → List Nat) (hf : KeepsKey f)
    (hfg : ∀ k r, Bits k → k.length = 56 → f k r = g k r)
    (k : List Nat) (rs : List Int) (hk : Bits k) (hl : k.length = 56) :
    subkeys f k rs = subkeys g k rs := by
  induction rs generalizing k with
  | nil => rfl
  | cons r rs ih =>
    obtain ⟨h1, h2⟩ := hf k r hk hl
    simp only [subkeys]
    rw [← hfg k r hk hl, ih _ h1 h2]

theorem rotHalves_add_mod (k : List Nat) (a b : Nat) (hl : k.length = 56) :
    rotHalves (rotHalves k a) b = rotHalves k ((a + b) % 28) := by
  rw [rotHalves_rotHalves k a b hl, ← rotHalves_mod k _ hl]

theorem subkeys_enc (k : List Nat) (hk : Bits k) (hl : k.length = 56) :
    subkeys key_rot_enc k des_rounds =
      [1, 2, 4, 6, 8, 10, 12, 14, 15, 17, 19, 21, 23, 25, 27, 0].map
        fun n => permuteL PC2 (rotHalves k n) := by
  rw [subkeys_congr key_rot_enc rotEnc keepsKey_enc key_rot_enc_eq k _ hk hl]
  simp only [des_rounds, subkeys, rotEnc]
  norm_num
  simp only [rotHalves_add_mod k _ _ hl, Nat.reduceAdd, Nat.reduceMod, and_self]

theorem subkeys_dec (k : List Nat) (hk : Bits k) (hl : k.length = 56) :
    subkeys key_rot_dec k des_rounds =
      [0, 27, 25, 23, 21, 19, 17, 15, 14, 12, 10, 8, 6, 4, 2, 1].map
        fun n => permuteL PC2 (rotHalves k n) := by
  rw [subkeys_congr key_rot_dec rotDec keepsKey_dec key_rot_dec_eq k _ hk hl]
  simp only [des_rounds, subkeys, rotDec]
  norm_num
  simp only [rotHalves_add_mod k _ _ hl, Nat.reduceAdd, Nat.reduceMod, rotHalves_zero, and_self]

/-- Decryption uses the subkeys of encryption in the reverse order. -/
theorem subkeys_dec_reverse (k : List Nat) (hk : Bits k) (hl : k.length = 56) :
    subkeys key_rot_dec k des_rounds = (subkeys key_rot_enc k des_rounds).reverse := by
  rw [subkeys_enc k hk hl, subkeys_dec k hk hl, ← List.map_reverse]
  rfl

theorem subkeys_valid (k_func : List Nat → Int → List Nat) (hkf : KeepsKey k_func)
    (k : List Nat) (rs : List Int) (hk : Bits k) (hl : k.length = 56) :
    ∀ k48 ∈ subkeys k_func k rs, Bits k48 ∧ k48.length = 48 := by
  induction rs generalizing k with
  | nil => intro k48 h; cases h
  | cons r rs ih =>
    obtain ⟨h1, h2⟩ := hkf k r hk hl
    obtain ⟨_, hsb, hsl⟩ := subkey_spec _ h1 h2
    intro k48 h
    simp only [subkeys, List.mem_cons] at h
    rcases h with rfl | h
    · exact ⟨hsb, hsl⟩
    · exact ih _ h1 h2 k48 h

/-! ## The Feistel network is undone by the reversed subkeys -/

theorem swapHalves_eq (s : List Nat) (hl : s.length = 64) :
    swapHalves s = s.drop 32 ++ s.take 32 := by
  rw [swapHalves, hl]

theorem swapHalves_spec (s : List Nat) (hs : Bits s) (hl : s.length = 64) :
    Bits (swapHalves s) ∧ (swapHalves s).length = 64 := by
  rw [swapHalves_eq s hl]
  refine ⟨Bits.append (hs.drop _) (hs.take _), ?_⟩
  simp only [List.length_append, List.length_take, List.length_drop]
  omega

theorem swapHalves_swapHalves (s : List Nat) (hl : s.length = 64) :
    swapHalves (swapHalves s) = s := by
  have h1 : (s.drop 32).length = 32 := by rw [List.length_drop]; omega
  have h2 : (swapHalves s).length = 64 := by
    rw [swapHalves_eq s hl]
    simp only [List.length_append, List.length_take, List.length_drop]
    omega
  rw [swapHalves_eq _ h2, swapHalves_eq s hl, List.drop_left' h1, List.take_left' h1,
    List.take_append_drop]

/-- A round applied to the swapped result of the same round gives the swapped
input. -/
theorem feistel_swap_feistel (ct k48 : List Nat) (hc : Bits ct) (hcl : ct.length = 64)
    (hk : Bits k48) (hkl : k48.length = 48) :
    feistel (swapHalves (feistel ct k48)) k48 = swapHalves ct := by
  have hRl : (ct.drop 32).length = 32 := by rw [List.length_drop]; omega
  have hLl : (ct.take 32).length = 32 := by rw [List.length_take]; omega
  obtain ⟨_, hFb, hFl⟩ := fBits_spec (ct.drop 32) k48 (hc.drop 32) hRl hk hkl
  obtain ⟨_, hfl⟩ := feistel_spec ct k48 hc hcl hk hkl
  have hXl : (xorBits (ct.take 32) (fBits (ct.drop 32) k48)).length = 32 := by
    rw [length_xorBits _ _ (by rw [hLl, hFl]), hLl]
  rw [swapHalves_eq _ hfl, swapHalves_eq ct hcl]
  unfold feistel
  rw [List.drop_left' hRl, List.take_left' hRl, List.drop_left' hXl, List.take_left' hXl,
    xorBits_xorBits _ _ (hc.take 32) hFb (by rw [hLl, hFl])]

theorem feistel_fold_spec (ks : List (List Nat)) (ct : List Nat)
    (hks : ∀ k48 ∈ ks, Bits k48 ∧ k48.length = 48) (hc : Bits ct) (hcl : ct.length = 64) :
    Bits (ks.foldl feistel ct) ∧ (ks.foldl feistel ct).length = 64 := by
  induction ks generalizing ct with
  | nil => exact ⟨hc, hcl⟩
  | cons k ks ih =>
    obtain ⟨hk, hkl⟩ := hks k (List.mem_cons_self _ _)
    obtain ⟨h1, h2⟩ := feistel_spec ct k hc hcl hk hkl
    exact ih _ (fun q hq => hks q (List.mem_cons_of_mem _ hq)) h1 h2

theorem feistel_fold_reverse (ks : List (List Nat)) (ct : List Nat)
    (hks : ∀ k48 ∈ ks, Bits k48 ∧ k48.length = 48) (hc : Bits ct) (hcl : ct.length = 64) :
    ks.reverse.foldl feistel (swapHalves (ks.foldl feistel ct)) = swapHalves ct := by
  induction ks generalizing ct with
  | nil => rfl
  | cons k ks ih =>
    obtain ⟨hk, hkl⟩ := hks k (List.mem_cons_self _ _)
    obtain ⟨h1, h2⟩ := feistel_spec ct k hc hcl hk hkl
    rw [List.reverse_cons, List.foldl_append, List.foldl_cons, List.foldl_cons, List.foldl_nil,
      ih _ (fun q hq => hks q (List.mem_cons_of_mem _ hq)) h1 h2]
    exact feistel_swap_feistel ct k hc hcl hk hkl

/-- The block computation of decryption undoes the one of encryption. -/
theorem desBlock_dec_enc (msg k : List Nat) (hm : Bits msg) (hml : msg.length = 64)
    (hk : Bits k) (hkl : k.length = 56) :
    desBlock (desBlock msg k key_rot_enc) k key_rot_dec = msg := by
  have h0b : Bits (permuteL IP msg) := permuteL_bits IP msg hm (by rw [hml]; exact IP_range)
  have h0l : (permuteL IP msg).length = 64 := length_permuteL IP msg
  have hks := subkeys_valid key_rot_enc keepsKey_enc k des_rounds hk hkl
  obtain ⟨hSb, hSl⟩ := feistel_fold_spec _ _ hks h0b h0l
  obtain ⟨hWb, hWl⟩ := swapHalves_spec _ hSb hSl
  unfold desBlock
  rw [permuteL_permuteL IP IP_INV _ 64 rfl hWl IP_IP_INV, subkeys_dec_reverse k hk hkl,
    feistel_fold_reverse _ _ hks h0b h0l, swapHalves_swapHalves _ h0l,
    permuteL_permuteL IP_INV IP msg 64 rfl hml IP_INV_IP]

/-! ## Lemmas on `key_init` and `bstr_pad` -/

theorem key64_spec (k : List Nat) (hk : Bits k) : Bits (key64 k) ∧ (key64 k).length = 64 := by
  have hr : Bits (List.replicate (64 - k.length) 48) := by
    intro c hc
    exact Or.inl (List.eq_of_mem_replicate hc)
  refine ⟨(Bits.append hk hr).take 64, ?_⟩
  simp only [key64, List.length_take, List.length_append, List.length_replicate]
  omega

/-- Result of `bstr_pad` on a valid bit string: exactly `n` characters, the string cut or
extended with `'0'`. -/
theorem bstr_pad_eq (s : List Nat) (n : Nat) (hs : BitStr s) (hn : n ≠ 0) :
    bstr_pad (some s) n = some ((s ++ List.replicate (n - s.length) 48).take n) := by
  obtain ⟨hne, hb⟩ := hs
  have hpos : 0 < s.length := List.length_pos.mpr hne
  have hcond : ¬ (s.length = 0 ∨ n = 0) := by omega
  simp only [bstr_pad, bstr_len_bits s hb, if_neg hcond]
  split
  · rename_i hle
    simp only [str_clone, if_neg hn]
    rw [List.take_append_of_le_length hle]
  · rename_i hlt
    rw [List.take_length]
    congr 1
    symm
    apply List.take_of_length_le
    simp only [List.length_append, List.length_replicate]
    omega

/-- Result of `key_init` on a valid key: PC-1 applied to the key brought to 64 bits. -/
theorem key_init_eq (k : List Nat) (hk : BitStr k) :
    key_init (some k) = some (permuteL PC1 (key64 k)) ∧
      Bits (permuteL PC1 (key64 k)) ∧ (permuteL PC1 (key64 k)).length = 56 := by
  obtain ⟨h64b, h64l⟩ := key64_spec k hk.2
  refine ⟨?_, permuteL_bits PC1 _ h64b (by rw [h64l]; exact PC1_range), length_permuteL PC1 _⟩
  obtain ⟨hne, hb⟩ := hk
  have hpos : 0 < k.length := List.length_pos.mpr hne
  have h0 : ¬ k.length = 0 := by omega
  simp only [key_init, bstr_len_bits k hb, if_neg h0]
  split
  · rw [bstr_pad_eq k 64 ⟨hne, hb⟩ (by decide)]
    have hlen : bstr_len (some (key64 k)) = 64 := by rw [bstr_len_bits _ h64b, h64l]
    exact des_permute_eq (key64 k) PC1 56 (by decide) (by rw [hlen]; decide)
      (by rw [hlen]; exact PC1_range)
  · rename_i hge
    have hlen : bstr_len (some k) = k.length := bstr_len_bits k hb
    have hr : ∀ p ∈ PC1, 1 ≤ p ∧ p ≤ (k.length : Int) := by
      intro p hp
      have := PC1_range p hp
      omega
    rw [des_permute_eq k PC1 56 (by decide) (by rw [hlen]; omega) (by rw [hlen]; exact hr)]
    congr 1
    have hk64 : key64 k = k.take 64 := by
      have hz : 64 - k.length = 0 := by omega
      simp [key64, hz]
    have hP : PC1.take 56 = PC1 := rfl
    rw [hP, hk64]
    conv_lhs => rw [← List.take_append_drop 64 k]
    exact permuteL_append PC1 _ _ (by rw [List.length_take]; intro p hp; have := PC1_range p hp; omega)

/-! ## `des_enc` and `des_dec` on valid inputs -/

theorem des_enc_eq (m k : List Nat) (hm : Bits m) (hml : m.length = 64) (hk : BitStr k) :
    des_enc (some m) (some k) = some (desBlock m (permuteL PC1 (key64 k)) key_rot_enc) ∧
      Bits (desBlock m (permuteL PC1 (key64 k)) key_rot_enc) ∧
      (desBlock m (permuteL PC1 (key64 k)) key_rot_enc).length = 64 := by
  obtain ⟨hki, hkb, hkl⟩ := key_init_eq k hk
  obtain ⟨hd, hdb, hdl⟩ := des_eq key_rot_enc keepsKey_enc m _ hm hml hkb hkl
  have hlen : bstr_len (some m) = 64 := by rw [bstr_len_bits m hm, hml]
  have h64 : ¬ ((64 : Nat) ≠ 64) := by simp
  refine ⟨?_, hdb, hdl⟩
  unfold des_enc
  rw [hlen, hki]
  dsimp only
  rw [if_neg h64]
  exact hd

theorem des_dec_eq (m k : List Nat) (hm : Bits m) (hml : m.length = 64) (hk : BitStr k) :
    des_dec (some m) (some k) = some (desBlock m (permuteL PC1 (key64 k)) key_rot_dec) ∧
      Bits (desBlock m (permuteL PC1 (key64 k)) key_rot_dec) ∧
      (desBlock m (permuteL PC1 (key64 k)) key_rot_dec).length = 64 := by
  obtain ⟨hki, hkb, hkl⟩ := key_init_eq k hk
  obtain ⟨hd, hdb, hdl⟩ := des_eq key_rot_dec keepsKey_dec m _ hm hml hkb hkl
  have hlen : bstr_len (some m) = 64 := by rw [bstr_len_bits m hm, hml]
  have h64 : ¬ ((64 : Nat) ≠ 64) := by simp
  refine ⟨?_, hdb, hdl⟩
  unfold des_dec
  rw [hlen, hki]
  dsimp only
  rw [if_neg h64]
  exact hd

/-! ## The claims -/

/-- C1: for every valid bit string `M` of length 64 and every valid key `K` of
length 1..64, `des_enc(M, K)` succeeds with some `C`, and `des_dec(C, K)`
succeeds and returns exactly `M`. -/
theorem des_dec_enc_roundtrip (M K : List Nat) (hM : BitStr M) (hMl : M.length = 64)
    (hK : BitStr K) (_hKl : 1 ≤ K.length ∧ K.length ≤ 64) :
    ∃ C, des_enc (some M) (some K) = some C ∧ des_dec (some C) (some K) = some M := by
  obtain ⟨_, hkb, hkl⟩ := key_init_eq K hK
  obtain ⟨he, heb, hel⟩ := des_enc_eq M K hM.2 hMl hK
  obtain ⟨hd, _, _⟩ := des_dec_eq _ K heb hel hK
  refine ⟨_, he, ?_⟩
  rw [hd, desBlock_dec_enc M _ hM.2 hMl hkb hkl]

/-- Witness of C1 at the block `0x0123456789ABCDEF` and the key `0x133457799BBCDFF1`. -/
theorem des_dec_enc_roundtrip_witness :
    (BitStr plain2 ∧ plain2.length = 64 ∧ BitStr key2 ∧ 1 ≤ key2.length ∧ key2.length ≤ 64) ∧
    ∃ C, des_enc (some plain2) (some key2) = some C ∧
      des_dec (some C) (some key2) = some plain2 :=
  ⟨by decide, des_dec_enc_roundtrip plain2 key2 (by decide) (by decide) (by decide) (by decide)⟩


set_option maxRecDepth 100000 in
/-- C2: known-answer test 2: with the key `0x133457799BBCDFF1` and the plaintext
`0x0123456789ABCDEF`, written as 64-character bit strings most significant bit
first, `des_enc` returns the bit string of `0x85E813540F0AB405`. -/
theorem des_enc_kat2 : des_enc (some plain2) (some key2) = some cipher2 := by
  decide

set_option maxRecDepth 100000 in
/-- C3: known-answer test 1: with the all-zero 64-bit key and the all-zero 64-bit
plaintext, `des_enc` returns the bit string of `0x8CA64DE9C1B123A7`. -/
theorem des_enc_kat1 : des_enc (some zero64) (some zero64) = some cipher1 := by
  decide

set_option maxRecDepth 100000 in
/-- C4: known-answer test 3: with the key `0x0E329232EA6D0D73` and the plaintext
`0x8787878787878787`, `des_enc` returns the bit string of 64 characters `'0'`. -/
theorem des_enc_kat3 :
    des_enc (some plain3) (some key3) = some zero64 ∧ zero64 = List.replicate 64 48 := by
  decide

/-- C5: for `des_enc` and `des_dec` alike and all C strings `msg` and `key`, the
result is nil exactly when `msg` is not a valid bit string of length 64 or `key`
is null, empty or not a bit string; in every other case the result is a string
of exactly 64 characters, each `'0'` or `'1'`. -/
theorem des_enc_dec_nil_iff (msg key : Option (List Nat)) (hm : CStr msg) (hk : CStr key) :
    ((des_enc msg key = none ↔ ¬ (ValidBits msg ∧ slen msg = 64) ∨ ¬ ValidBits key) ∧
      ((ValidBits msg ∧ slen msg = 64) ∧ ValidBits key →
        ∃ out, des_enc msg key = some out ∧ out.length = 64 ∧ Bits out)) ∧
    ((des_dec msg key = none ↔ ¬ (ValidBits msg ∧ slen msg = 64) ∨ ¬ ValidBits key) ∧
      ((ValidBits msg ∧ slen msg = 64) ∧ ValidBits key →
        ∃ out, des_dec msg key = some out ∧ out.length = 64 ∧ Bits out)) := by
  by_cases hv : (ValidBits msg ∧ slen msg = 64) ∧ ValidBits key
  · obtain ⟨⟨hmv, hml⟩, hkv⟩ := hv
    cases msg with
    | none => exact absurd hmv (by simp [ValidBits])
    | some m =>
      cases key with
      | none => exact absurd hkv (by simp [ValidBits])
      | some k =>
        obtain ⟨he, heb, hel⟩ := des_enc_eq m k hmv.2 hml hkv
        obtain ⟨hd, hdb, hdl⟩ := des_dec_eq m k hmv.2 hml hkv
        have hnot : ¬ (¬ (ValidBits (some m) ∧ slen (some m) = 64) ∨ ¬ ValidBits (some k)) := by
          intro h
          rcases h with h | h
          · exact h ⟨hmv, hml⟩
          · exact h hkv
        refine ⟨⟨?_, fun _ => ⟨_, he, hel, heb⟩⟩, ⟨?_, fun _ => ⟨_, hd, hdl, hdb⟩⟩⟩
        · rw [he]; simp only [reduceCtorEq, false_iff]; exact hnot
        · rw [hd]; simp only [reduceCtorEq, false_iff]; exact hnot
  · have hor : ¬ (ValidBits msg ∧ slen msg = 64) ∨ ¬ ValidBits key := by
      by_cases h1 : ValidBits msg ∧ slen msg = 64
      · exact Or.inr (fun h2 => hv ⟨h1, h2⟩)
      · exact Or.inl h1
    have hnone : des_enc msg key = none ∧ des_dec msg key = none := by
      rcases hor with h | h
      · have hlen : bstr_len msg ≠ 64 := by
          rw [bstr_len_eq msg hm]
          split
          · rename_i h1
            exact fun h2 => h ⟨h1, h2⟩
          · decide
        constructor
        · unfold des_enc; dsimp only; rw [if_pos hlen]
        · unfold des_dec; dsimp only; rw [if_pos hlen]
      · have hlen : bstr_len key = 0 := by
          rw [bstr_len_eq key hk, if_neg h]
        have hki : key_init key = none := by
          unfold key_init; dsimp only; rw [if_pos hlen]
        constructor
        · unfold des_enc; dsimp only; rw [hki]; split <;> simp
        · unfold des_dec; dsimp only; rw [hki]; split <;> simp
    refine ⟨⟨?_, fun h => absurd h hv⟩, ⟨?_, fun h => absurd h hv⟩⟩
    · exact ⟨fun _ => hor, fun _ => hnone.1⟩
    · exact ⟨fun _ => hor, fun _ => hnone.2⟩

/-- Witness of C5 at the block `0x0123456789ABCDEF` and the key `0x133457799BBCDFF1`. -/
theorem des_enc_dec_nil_iff_witness :
    (CStr (some plain2) ∧ CStr (some key2)) ∧
    ((des_enc (some plain2) (some key2) = none ↔
        ¬ (ValidBits (some plain2) ∧ slen (some plain2) = 64) ∨ ¬ ValidBits (some key2)) ∧
      ((ValidBits (some plain2) ∧ slen (some plain2) = 64) ∧ ValidBits (some key2) →
        ∃ out, des_enc (some plain2) (some key2) = some out ∧ out.length = 64 ∧ Bits out)) ∧
    ((des_dec (some plain2) (some key2) = none ↔
        ¬ (ValidBits (some plain2) ∧ slen (some plain2) = 64) ∨ ¬ ValidBits (some key2)) ∧
      ((ValidBits (some plain2) ∧ slen (some plain2) = 64) ∧ ValidBits (some key2) →
        ∃ out, des_dec (some plain2) (some key2) = some out ∧ out.length = 64 ∧ Bits out)) :=
  ⟨by decide, des_enc_dec_nil_iff (some plain2) (some key2) (by decide) (by decide)⟩


/-- C6: key normalisation: for every valid 64-bit message `M` and every valid key
`K`, a key shorter than 64 bits encrypts and decrypts as the key followed by
`64 - len(K)` characters `'0'`, and a key longer than 64 bits as its first 64
bits; both sides succeed with the same block. -/
theorem des_key_normalisation (M K : List Nat) (hM : BitStr M) (hMl : M.length = 64)
    (hK : BitStr K) :
    (K.length < 64 →
      (∃ C, des_enc (some M) (some K) = some C ∧
        des_enc (some M) (some (K ++ List.replicate (64 - K.length) 48)) = some C) ∧
      (∃ D, des_dec (some M) (some K) = some D ∧
        des_dec (some M) (some (K ++ List.replicate (64 - K.length) 48)) = some D)) ∧
    (K.length > 64 →
      (∃ C, des_enc (some M) (some K) = some C ∧
        des_enc (some M) (some (K.take 64)) = some C) ∧
      (∃ D, des_dec (some M) (some K) = some D ∧
        des_dec (some M) (some (K.take 64)) = some D)) := by
  obtain ⟨hne, hb⟩ := hK
  have hpos : 0 < K.length := List.length_pos.mpr hne
  obtain ⟨he, _, _⟩ := des_enc_eq M K hM.2 hMl ⟨hne, hb⟩
  obtain ⟨hd, _, _⟩ := des_dec_eq M K hM.2 hMl ⟨hne, hb⟩
  constructor
  · intro hlt
    have hr : Bits (List.replicate (64 - K.length) 48) := by
      intro c hc
      exact Or.inl (List.eq_of_mem_replicate hc)
    have hK2 : BitStr (K ++ List.replicate (64 - K.length) 48) :=
      ⟨by simp [hne], Bits.append hb hr⟩
    have hk64 : key64 (K ++ List.replicate (64 - K.length) 48) = key64 K := by
      have hl : (K ++ List.replicate (64 - K.length) 48).length = 64 := by
        simp only [List.length_append, List.length_replicate]
        omega
      simp only [key64, hl, Nat.sub_self, List.replicate_zero, List.append_nil]
    obtain ⟨he2, _, _⟩ := des_enc_eq M _ hM.2 hMl hK2
    obtain ⟨hd2, _, _⟩ := des_dec_eq M _ hM.2 hMl hK2
    rw [hk64] at he2 hd2
    exact ⟨⟨_, he, he2⟩, ⟨_, hd, hd2⟩⟩
  · intro hgt
    have hK2 : BitStr (K.take 64) := by
      refine ⟨?_, hb.take 64⟩
      intro h
      have hl : (K.take 64).length = 64 := by rw [List.length_take]; omega
      rw [h] at hl
      simp at hl
    have hk64 : key64 (K.take 64) = key64 K := by
      have hl : (K.take 64).length = 64 := by rw [List.length_take]; omega
      have hz : 64 - K.length = 0 := by omega
      simp only [key64, hl, hz, Nat.sub_self, List.replicate_zero, List.append_nil,
        List.take_take, Nat.min_self]
    obtain ⟨he2, _, _⟩ := des_enc_eq M _ hM.2 hMl hK2
    obtain ⟨hd2, _, _⟩ := des_dec_eq M _ hM.2 hMl hK2
    rw [hk64] at he2 hd2
    exact ⟨⟨_, he, he2⟩, ⟨_, hd, hd2⟩⟩

/-- Witness of C6 at the block `0x0123456789ABCDEF` and the 3-bit key `101`. -/
theorem des_key_normalisation_witness :
    (BitStr plain2 ∧ plain2.length = 64 ∧ BitStr [49, 48, 49]) ∧
    (([49, 48, 49] : List Nat).length < 64 →
      (∃ C, des_enc (some plain2) (some [49, 48, 49]) = some C ∧
        des_enc (some plain2)
          (some ([49, 48, 49] ++ List.replicate (64 - ([49, 48, 49] : List Nat).length) 48)) =
            some C) ∧
      (∃ D, des_dec (some plain2) (some [49, 48, 49]) = some D ∧
        des_dec (some plain2)
          (some ([49, 48, 49] ++ List.replicate (64 - ([49, 48, 49] : List Nat).length) 48)) =
            some D)) ∧
    (([49, 48, 49] : List Nat).length > 64 →
      (∃ C, des_enc (some plain2) (some [49, 48, 49]) = some C ∧
        des_enc (some plain2) (some (([49, 48, 49] : List Nat).take 64)) = some C) ∧
      (∃ D, des_dec (some plain2) (some [49, 48, 49]) = some D ∧
        des_dec (some plain2) (some (([49, 48, 49] : List Nat).take 64)) = some D)) :=
  ⟨by decide, des_key_normalisation plain2 [49, 48, 49] (by decide) (by decide) (by decide)⟩

/-- C7: for every valid non-empty bit string `s`, every `m > 0` and every table
of `m` entries all lying in `[1, len(s)]`, `des_permute(s, table, m)` succeeds and
returns a bit string of length exactly `m` whose `i`-th character is
`s[table[i] - 1]` for every `i` in `[0, m)`. -/
theorem des_permute_in_range (s : List Nat) (tbl : List Int) (m : Nat) (hs : BitStr s)
    (hm : 0 < m) (hlen : tbl.length = m) (h : ∀ p ∈ tbl, 1 ≤ p ∧ p ≤ (s.length : Int)) :
    ∃ out, des_permute (some s) (some tbl) m = some out ∧ out.length = m ∧ Bits out ∧
      ∀ i, i < m → (tbl.getD i 0 - 1).toNat < s.length ∧
        out[i]? = s[(tbl.getD i 0 - 1).toNat]? ∧ out[i]? ≠ none := by
  obtain ⟨hne, hb⟩ := hs
  have hpos : 0 < s.length := List.length_pos.mpr hne
  have hl : bstr_len (some s) = s.length := bstr_len_bits s hb
  have ht : tbl.take m = tbl := by rw [← hlen]; exact List.take_length _
  have hp : des_permute (some s) (some tbl) m = some (permuteL tbl s) := by
    have h1 := des_permute_eq s tbl m (by omega) (by rw [hl]; omega)
      (by rw [hl, ht]; exact h)
    rw [ht] at h1
    exact h1
  refine ⟨_, hp, by rw [length_permuteL, hlen], permuteL_bits tbl s hb h, ?_⟩
  intro i hi
  have hit : i < tbl.length := by rw [hlen]; exact hi
  have hio : i < (permuteL tbl s).length := by rw [length_permuteL]; exact hit
  have hr := h _ (List.getElem_mem hit)
  rw [← List.getD_eq_getElem tbl 0 hit] at hr
  have hidx : (tbl.getD i 0 - 1).toNat < s.length := by omega
  have hget := permuteL_getD tbl s i hit
  rw [List.getD_eq_getElem _ 0 hio, List.getD_eq_getElem _ 0 hidx] at hget
  refine ⟨hidx, ?_, ?_⟩
  · rw [List.getElem?_eq_getElem hio, List.getElem?_eq_getElem hidx, hget]
  · rw [List.getElem?_eq_getElem hio]
    simp

/-- Witness of C7: the string `011` and the table `3, 1, 3, 2`. -/
theorem des_permute_in_range_witness :
    (BitStr [48, 49, 49] ∧ 0 < 4 ∧ ([3, 1, 3, 2] : List Int).length = 4 ∧
      ∀ p ∈ ([3, 1, 3, 2] : List Int), 1 ≤ p ∧ p ≤ (([48, 49, 49] : List Nat).length : Int)) ∧
    ∃ out, des_permute (some [48, 49, 49]) (some [3, 1, 3, 2]) 4 = some out ∧ out.length = 4 ∧
      Bits out ∧
      ∀ i, i < 4 → (([3, 1, 3, 2] : List Int).getD i 0 - 1).toNat <
          ([48, 49, 49] : List Nat).length ∧
        out[i]? = ([48, 49, 49] : List Nat)[(([3, 1, 3, 2] : List Int).getD i 0 - 1).toNat]? ∧
        out[i]? ≠ none :=
  ⟨by decide, des_permute_in_range [48, 49, 49] [3, 1, 3, 2] 4 (by decide) (by decide)
    (by decide) (by decide)⟩

/-- C8 is violated by the code: on the string `01` and the one-entry table `3`
(an entry equal to `len(s) + 1`), `des_permute` does not return nil; the test
`(p[i] - 1) > oldlen` lets the entry pass and the terminating NUL is copied. -/
theorem des_permute_accepts_len_plus_one :
    BitStr [48, 49] ∧ (3 : Int) > (([48, 49] : List Nat).length : Int) ∧
      des_permute (some [48, 49]) (some [3]) 1 = some [0] ∧
      des_permute (some [48, 49]) (some [3]) 1 ≠ none := by
  decide


/-- C9: the call `bstr_pad(s, n)` returns nil when `s` is not a valid non-empty bit string
or `n = 0`; otherwise, when `n <= len(s)` it returns exactly the first `n` bits of
`s`, and when `n > len(s)` it returns `s` followed by `n - len(s)` characters
`'0'`. -/
theorem bstr_pad_spec (s : Option (List Nat)) (n : Nat) (hc : CStr s) :
    (¬ ValidBits s ∨ n = 0 → bstr_pad s n = none) ∧
    (∀ b, s = some b → BitStr b → n ≠ 0 →
      (n ≤ b.length → bstr_pad s n = some (b.take n)) ∧
      (n > b.length → bstr_pad s n = some (b ++ List.replicate (n - b.length) 48))) := by
  constructor
  · intro h
    have hcond : bstr_len s = 0 ∨ n = 0 := by
      rcases h with h | h
      · left
        rw [bstr_len_eq s hc, if_neg h]
      · exact Or.inr h
    unfold bstr_pad
    dsimp only
    rw [if_pos hcond]
  · intro b hsb hb hn
    subst hsb
    rw [bstr_pad_eq b n hb hn]
    constructor
    · intro hle
      rw [List.take_append_of_le_length hle]
    · intro hgt
      congr 1
      apply List.take_of_length_le
      simp only [List.length_append, List.length_replicate]
      omega

/-- Witness of C9: the string `11` padded to 5 characters. -/
theorem bstr_pad_spec_witness :
    CStr (some [49, 49]) ∧
    ((¬ ValidBits (some [49, 49]) ∨ 5 = 0 → bstr_pad (some [49, 49]) 5 = none) ∧
    (∀ b, some [49, 49] = some b → BitStr b → 5 ≠ 0 →
      (5 ≤ b.length → bstr_pad (some [49, 49]) 5 = some (b.take 5)) ∧
      (5 > b.length →
        bstr_pad (some [49, 49]) 5 = some (b ++ List.replicate (5 - b.length) 48)))) :=
  ⟨by decide, bstr_pad_spec (some [49, 49]) 5 (by decide)⟩

/-- C10 as stated fails: for the valid string `11` and `n = 1` the result of
`bstr_pad` does not have the length `max(n, len(s))` = 2; it is `1`, of length 1. -/
theorem bstr_pad_length_counterexample :
    BitStr [49, 49] ∧ 0 < 1 ∧
    ¬ ∃ out, bstr_pad (some [49, 49]) 1 = some out ∧
      out.length = max 1 (if 1 ≤ ([49, 49] : List Nat).length
        then ([49, 49] : List Nat).length else 1) := by
  refine ⟨by decide, by decide, ?_⟩
  rintro ⟨out, h1, h2⟩
  have h3 : bstr_pad (some [49, 49]) 1 = some [49] := by decide
  rw [h3] at h1
  cases h1
  revert h2
  decide

/-- C10 amended: for every valid non-empty bit string `s` and every `n > 0`,
`bstr_pad(s, n)` has length exactly `n` (the string is cut when `n < len(s)`), and
every character of the result at an index `>= len(s)` is `'0'`. -/
theorem bstr_pad_length (s : List Nat) (n : Nat) (hs : BitStr s) (hn : 0 < n) :
    ∃ out, bstr_pad (some s) n = some out ∧ out.length = n ∧
      ∀ i, s.length ≤ i → i < out.length → out[i]? = some 48 := by
  refine ⟨_, bstr_pad_eq s n hs (by omega), ?_, ?_⟩
  · simp only [List.length_take, List.length_append, List.length_replicate]
    omega
  · intro i h1 h2
    have h3 : i < n := by
      simp only [List.length_take, List.length_append, List.length_replicate] at h2
      omega
    rw [List.getElem?_take_of_lt h3, List.getElem?_append_right h1,
      List.getElem?_replicate, if_pos (by omega)]

/-- Witness of C10 amended: the string `11` padded to 5 characters. -/
theorem bstr_pad_length_witness :
    (BitStr [49, 49] ∧ 0 < 5) ∧
    ∃ out, bstr_pad (some [49, 49]) 5 = some out ∧ out.length = 5 ∧
      ∀ i, ([49, 49] : List Nat).length ≤ i → i < out.length → out[i]? = some 48 :=
  ⟨by decide, bstr_pad_length [49, 49] 5 (by decide) (by decide)⟩


/-! ## The rotations as index maps -/

theorem bstr_lrot_bits (s : List Nat) (n : Nat) (hs : BitStr s) :
    bstr_lrot s n = (true, s.rotate n) := by
  have h := bstr_lrot_eq s [] n hs.1 (by rw [List.append_nil]; exact bstr_len_bits s hs.2)
  simpa using h

theorem bstr_rrot_bits (s : List Nat) (n : Nat) (hs : BitStr s) :
    bstr_rrot s n = (true, s.rotate (s.length - n % s.length)) := by
  have h := bstr_rrot_eq s [] n hs.1 (by rw [List.append_nil]; exact bstr_len_bits s hs.2)
  simpa using h

theorem bitStr_rotate {s : List Nat} (hs : BitStr s) (n : Nat) : BitStr (s.rotate n) := by
  refine ⟨?_, hs.2.rotate n⟩
  intro h
  have hl := List.length_rotate s n
  rw [h] at hl
  exact hs.1 (List.length_eq_zero.mp hl.symm)

theorem rotate_undo (s : List Nat) (a b : Nat) (h : (a + b) % s.length = 0) :
    (s.rotate a).rotate b = s := by
  rw [List.rotate_rotate, ← List.rotate_mod, h, List.rotate_zero]

theorem mod_cancel_left (len n : Nat) (hpos : 0 < len) :
    (n + (len - n % len)) % len = 0 := by
  have hlt : n % len < len := Nat.mod_lt _ hpos
  have h1 : n + (len - n % len) = len * (n / len) + len := by
    have := Nat.div_add_mod n len
    omega
  rw [h1, Nat.add_mod_right, Nat.mul_mod_right]

theorem mod_cancel_right (len n : Nat) (hpos : 0 < len) :
    ((len - n % len) + n) % len = 0 := by
  rw [Nat.add_comm]
  exact mod_cancel_left len n hpos

/-- C11: for every valid non-empty bit string `s` and every 32-bit unsigned `n`,
`bstr_lrot(s, n)` followed by `bstr_rrot(s, n)` leaves `s` equal to its original
value, and `bstr_rrot(s, n)` followed by `bstr_lrot(s, n)` does too; both calls
return true and the length is unchanged. -/
theorem bstr_lrot_rrot_inverse (s : List Nat) (n : Nat) (hs : BitStr s) (_hn : n < 2 ^ 32) :
    ((bstr_lrot s n).1 = true ∧ (bstr_lrot s n).2.length = s.length ∧
      bstr_rrot (bstr_lrot s n).2 n = (true, s)) ∧
    ((bstr_rrot s n).1 = true ∧ (bstr_rrot s n).2.length = s.length ∧
      bstr_lrot (bstr_rrot s n).2 n = (true, s)) := by
  have hpos : 0 < s.length := List.length_pos.mpr hs.1
  constructor
  · rw [bstr_lrot_bits s n hs]
    refine ⟨rfl, List.length_rotate s n, ?_⟩
    rw [bstr_rrot_bits _ n (bitStr_rotate hs n), List.length_rotate,
      rotate_undo s _ _ (mod_cancel_left s.length n hpos)]
  · rw [bstr_rrot_bits s n hs]
    refine ⟨rfl, List.length_rotate s _, ?_⟩
    rw [bstr_lrot_bits _ n (bitStr_rotate hs _),
      rotate_undo s _ _ (mod_cancel_right s.length n hpos)]

/-- Witness of C11: the string `0111` rotated by 6. -/
theorem bstr_lrot_rrot_inverse_witness :
    (BitStr [48, 49, 49, 49] ∧ 6 < 2 ^ 32) ∧
    (((bstr_lrot [48, 49, 49, 49] 6).1 = true ∧
      (bstr_lrot [48, 49, 49, 49] 6).2.length = ([48, 49, 49, 49] : List Nat).length ∧
      bstr_rrot (bstr_lrot [48, 49, 49, 49] 6).2 6 = (true, [48, 49, 49, 49])) ∧
    ((bstr_rrot [48, 49, 49, 49] 6).1 = true ∧
      (bstr_rrot [48, 49, 49, 49] 6).2.length = ([48, 49, 49, 49] : List Nat).length ∧
      bstr_lrot (bstr_rrot [48, 49, 49, 49] 6).2 6 = (true, [48, 49, 49, 49]))) :=
  ⟨by decide, bstr_lrot_rrot_inverse [48, 49, 49, 49] 6 (by decide) (by decide)⟩

/-- C12 as stated fails: for the valid string `011` and `k = 1431655766` the count
`k * len(s) = 4294967298` reaches the 32-bit parameter as `2`, and `bstr_lrot`
turns the string into `101`. -/
theorem bstr_lrot_multiple_counterexample :
    BitStr [48, 49, 49] ∧
    bstr_lrot [48, 49, 49] ((1431655766 * ([48, 49, 49] : List Nat).length) % 2 ^ 32) =
      (true, [49, 48, 49]) ∧
    bstr_lrot [48, 49, 49] ((1431655766 * ([48, 49, 49] : List Nat).length) % 2 ^ 32) ≠
      (true, [48, 49, 49]) := by
  decide

/-- C12 amended: for every valid non-empty bit string `s` and every `k >= 0` whose
count `k * len(s)` fits the 32-bit unsigned parameter, `bstr_lrot` called with
that count returns true and leaves `s` unchanged. -/
theorem bstr_lrot_multiple (s : List Nat) (k : Nat) (hs : BitStr s)
    (hk : k * s.length < 2 ^ 32) :
    bstr_lrot s ((k * s.length) % 2 ^ 32) = (true, s) := by
  rw [Nat.mod_eq_of_lt hk, bstr_lrot_bits s _ hs, ← List.rotate_mod, Nat.mul_mod_left,
    List.rotate_zero]

/-- Witness of C12 amended: the string `011` and `k = 5`. -/
theorem bstr_lrot_multiple_witness :
    (BitStr [48, 49, 49] ∧ 5 * ([48, 49, 49] : List Nat).length < 2 ^ 32) ∧
    bstr_lrot [48, 49, 49] ((5 * ([48, 49, 49] : List Nat).length) % 2 ^ 32) =
      (true, [48, 49, 49]) :=
  ⟨by decide, bstr_lrot_multiple [48, 49, 49] 5 (by decide) (by decide)⟩

theorem rotate_index (s : List Nat) (a i j : Nat) (hj : j < s.length)
    (h : (j + a) % s.length = i) : (s.rotate a)[j]? = s[i]? := by
  rw [List.getElem?_rotate hj, h]

/-- C13: for every valid bit string `s` of length `len > 0` and every `n`, after
`bstr_lrot(s, n)` the bit that was at index `i` of the input is at index
`(i + len - n') mod len` of the result, where `n' = n mod len`, for every `i` in
`[0, len)`; the length is unchanged. -/
theorem bstr_lrot_index (s : List Nat) (n : Nat) (hs : BitStr s) :
    (bstr_lrot s n).1 = true ∧ (bstr_lrot s n).2.length = s.length ∧
    ∀ i, i < s.length →
      (bstr_lrot s n).2[(i + s.length - n % s.length) % s.length]? = s[i]? ∧ s[i]? ≠ none := by
  have hpos : 0 < s.length := List.length_pos.mpr hs.1
  rw [bstr_lrot_bits s n hs]
  refine ⟨rfl, List.length_rotate s n, fun i hi => ⟨?_, ?_⟩⟩
  · apply rotate_index s n i _ (Nat.mod_lt _ hpos)
    have hlt : n % s.length < s.length := Nat.mod_lt _ hpos
    have h1 : i + s.length - n % s.length + n = i + (s.length * (n / s.length) + s.length) := by
      have := Nat.div_add_mod n s.length
      omega
    rw [Nat.mod_add_mod, h1, ← Nat.add_assoc, Nat.add_mod_right, Nat.add_mul_mod_self_left,
      Nat.mod_eq_of_lt hi]
  · rw [List.getElem?_eq_getElem hi]
    simp

/-- Witness of C13: the string `0111` rotated left by 6. -/
theorem bstr_lrot_index_witness :
    BitStr [48, 49, 49, 49] ∧
    ((bstr_lrot [48, 49, 49, 49] 6).1 = true ∧
    (bstr_lrot [48, 49, 49, 49] 6).2.length = ([48, 49, 49, 49] : List Nat).length ∧
    ∀ i, i < ([48, 49, 49, 49] : List Nat).length →
      (bstr_lrot [48, 49, 49, 49] 6).2[(i + ([48, 49, 49, 49] : List Nat).length -
        6 % ([48, 49, 49, 49] : List Nat).length) % ([48, 49, 49, 49] : List Nat).length]? =
          ([48, 49, 49, 49] : List Nat)[i]? ∧ ([48, 49, 49, 49] : List Nat)[i]? ≠ none) :=
  ⟨by decide, bstr_lrot_index [48, 49, 49, 49] 6 (by decide)⟩

/-- C14 as stated fails: after `bstr_rrot` of the valid string `100` by 1 the
result is `010`; the bit `1` that was at index 0 is not at index
`(0 - 1 + 3) mod 3 = 2`. -/
theorem bstr_rrot_index_counterexample :
    BitStr [49, 48, 48] ∧ bstr_rrot [49, 48, 48] 1 = (true, [48, 49, 48]) ∧
    (bstr_rrot [49, 48, 48] 1).2[(0 + ([49, 48, 48] : List Nat).length -
      1 % ([49, 48, 48] : List Nat).length) % ([49, 48, 48] : List Nat).length]? ≠
        ([49, 48, 48] : List Nat)[0]? := by
  decide

/-- C14 amended: for every valid bit string `s` of length `len > 0` and every `n`,
after `bstr_rrot(s, n)` the bit that was at index `i` of the input is at index
`(i + n') mod len` of the result, where `n' = n mod len`, for every `i` in
`[0, len)`; the call returns true and the length is unchanged. -/
theorem bstr_rrot_index (s : List Nat) (n : Nat) (hs : BitStr s) :
    (bstr_rrot s n).1 = true ∧ (bstr_rrot s n).2.length = s.length ∧
    ∀ i, i < s.length →
      (bstr_rrot s n).2[(i + n % s.length) % s.length]? = s[i]? ∧ s[i]? ≠ none := by
  have hpos : 0 < s.length := List.length_pos.mpr hs.1
  rw [bstr_rrot_bits s n hs]
  refine ⟨rfl, List.length_rotate s _, fun i hi => ⟨?_, ?_⟩⟩
  · apply rotate_index s _ i _ (Nat.mod_lt _ hpos)
    have hlt : n % s.length < s.length := Nat.mod_lt _ hpos
    have h1 : i + n % s.length + (s.length - n % s.length) = i + s.length := by omega
    rw [Nat.mod_add_mod, h1, Nat.add_mod_right, Nat.mod_eq_of_lt hi]
  · rw [List.getElem?_eq_getElem hi]
    simp

/-- Witness of C14 amended: the string `100` rotated right by 1. -/
theorem bstr_rrot_index_witness :
    BitStr [49, 48, 48] ∧
    ((bstr_rrot [49, 48, 48] 1).1 = true ∧
    (bstr_rrot [49, 48, 48] 1).2.length = ([49, 48, 48] : List Nat).length ∧
    ∀ i, i < ([49, 48, 48] : List Nat).length →
      (bstr_rrot [49, 48, 48] 1).2[(i + 1 % ([49, 48, 48] : List Nat).length) %
        ([49, 48, 48] : List Nat).length]? = ([49, 48, 48] : List Nat)[i]? ∧
        ([49, 48, 48] : List Nat)[i]? ≠ none) :=
  ⟨by decide, bstr_rrot_index [49, 48, 48] 1 (by decide)⟩


/-! ## `bstr_xor` and `bstr_swap` on every string -/

theorem bstr_len_list (s : List Nat) (h0 : 0 ∉ s) :
    bstr_len (some s) = if BitStr s then s.length else 0 := by
  have h := bstr_len_eq (some s) h0
  simpa [ValidBits, slen] using h

theorem xorBits_getElem? (a b : List Nat) (ha : Bits a) (hb : Bits b)
    (h : a.length = b.length) (i : Nat) (hi : i < a.length) :
    ((xorBits a b)[i]? = some 49 ∨ (xorBits a b)[i]? = some 48) ∧
    ((xorBits a b)[i]? = some 49 ↔ ¬ (a[i]? = some 49 ↔ b[i]? = some 49)) := by
  induction a generalizing b i with
  | nil => simp at hi
  | cons x a ih =>
    cases b with
    | nil => simp at h
    | cons y b =>
      obtain ⟨hx, ha⟩ := Bits.cons_iff.mp ha
      obtain ⟨hy, hb⟩ := Bits.cons_iff.mp hb
      have h2 : a.length = b.length := by simpa using h
      cases i with
      | zero =>
        simp only [xorBits, List.zipWith_cons_cons, List.getElem?_cons_zero, Option.some.injEq]
        rcases hx with rfl | rfl <;> rcases hy with rfl | rfl <;> decide
      | succ i =>
        have hi2 : i < a.length := by simpa using hi
        have := ih b ha hb h2 i hi2
        simpa only [xorBits, List.zipWith_cons_cons, List.getElem?_cons_succ] using this

/-- Effect of `bstr_xor` on two separate buffers (the way `des` and `f_func` call
it): false and `a` as on entry when `a` or `b` is not a valid non-empty bit string
or their lengths differ; otherwise true, and `a[i]` becomes the XOR of the
original `a[i]` and `b[i]` for every `i`, with the length of `a` unchanged. -/
theorem bstr_xor_separate_spec (a b : List Nat) (ha0 : 0 ∉ a) (hb0 : 0 ∉ b) :
    (¬ BitStr a ∨ ¬ BitStr b ∨ a.length ≠ b.length → bstr_xor a b = (false, a)) ∧
    (BitStr a → BitStr b → a.length = b.length →
      (bstr_xor a b).1 = true ∧ (bstr_xor a b).2.length = a.length ∧
      ∀ i, i < a.length →
        ((bstr_xor a b).2[i]? = some 49 ∨ (bstr_xor a b).2[i]? = some 48) ∧
        ((bstr_xor a b).2[i]? = some 49 ↔ ¬ (a[i]? = some 49 ↔ b[i]? = some 49))) := by
  constructor
  · intro h
    have hcond : bstr_len (some a) = 0 ∨ bstr_len (some b) = 0 ∨
        bstr_len (some a) ≠ bstr_len (some b) := by
      rw [bstr_len_list a ha0, bstr_len_list b hb0]
      by_cases hA : BitStr a
      · by_cases hB : BitStr b
        · rw [if_pos hA, if_pos hB]
          rcases h with h | h | h
          · exact absurd hA h
          · exact absurd hB h
          · exact Or.inr (Or.inr h)
        · rw [if_neg hB]
          exact Or.inr (Or.inl rfl)
      · rw [if_neg hA]
        exact Or.inl rfl
    unfold bstr_xor
    dsimp only
    rw [if_pos hcond]
  · intro hA hB hl
    have h := bstr_xor_eq a b [] hB.2 hA.1
      (by rw [List.append_nil]; exact bstr_len_bits a hA.2) hl
    rw [List.append_nil, List.append_nil] at h
    rw [h]
    exact ⟨rfl, length_xorBits a b hl, fun i hi => xorBits_getElem? a b hA.2 hB.2 hl i hi⟩

/-- Example on separate buffers: `0011 XOR 0101`. -/
theorem bstr_xor_separate_example :
    ((0 : Nat) ∉ [48, 48, 49, 49] ∧ (0 : Nat) ∉ [48, 49, 48, 49]) ∧
    bstr_xor [48, 48, 49, 49] [48, 49, 48, 49] = (true, [48, 49, 49, 48]) ∧
    ((¬ BitStr [48, 48, 49, 49] ∨ ¬ BitStr [48, 49, 48, 49] ∨
        ([48, 48, 49, 49] : List Nat).length ≠ ([48, 49, 48, 49] : List Nat).length →
      bstr_xor [48, 48, 49, 49] [48, 49, 48, 49] = (false, [48, 48, 49, 49])) ∧
    (BitStr [48, 48, 49, 49] → BitStr [48, 49, 48, 49] →
      ([48, 48, 49, 49] : List Nat).length = ([48, 49, 48, 49] : List Nat).length →
      (bstr_xor [48, 48, 49, 49] [48, 49, 48, 49]).1 = true ∧
      (bstr_xor [48, 48, 49, 49] [48, 49, 48, 49]).2.length =
        ([48, 48, 49, 49] : List Nat).length ∧
      ∀ i, i < ([48, 48, 49, 49] : List Nat).length →
        ((bstr_xor [48, 48, 49, 49] [48, 49, 48, 49]).2[i]? = some 49 ∨
          (bstr_xor [48, 48, 49, 49] [48, 49, 48, 49]).2[i]? = some 48) ∧
        ((bstr_xor [48, 48, 49, 49] [48, 49, 48, 49]).2[i]? = some 49 ↔
          ¬ (([48, 48, 49, 49] : List Nat)[i]? = some 49 ↔
            ([48, 49, 48, 49] : List Nat)[i]? = some 49)))) :=
  ⟨by decide, by decide,
    bstr_xor_separate_spec [48, 48, 49, 49] [48, 49, 48, 49] (by decide) (by decide)⟩

/-- C16: for every string `s`, `bstr_swap(s)` returns false and leaves `s` exactly
as on entry when `s` is not a valid bit string of positive even length (in
particular for every odd length); otherwise it returns true and the result is
the last `len/2` bits of the input followed by its first `len/2` bits. -/
theorem bstr_swap_spec (s : List Nat) (h0 : 0 ∉ s) :
    (¬ (BitStr s ∧ s.length % 2 = 0) → bstr_swap s = (false, s)) ∧
    (BitStr s ∧ s.length % 2 = 0 →
      bstr_swap s = (true, s.drop (s.length / 2) ++ s.take (s.length / 2))) := by
  constructor
  · intro h
    have hcond : bstr_len (some s) = 0 ∨ bstr_len (some s) % 2 ≠ 0 := by
      rw [bstr_len_list s h0]
      by_cases hS : BitStr s
      · rw [if_pos hS]
        exact Or.inr (fun he => h ⟨hS, he⟩)
      · rw [if_neg hS]
        exact Or.inl rfl
    unfold bstr_swap
    dsimp only
    rw [if_pos hcond]
  · rintro ⟨hS, he⟩
    have hpos : 0 < s.length := List.length_pos.mpr hS.1
    have hA : (s.take (s.length / 2)).length = s.length / 2 := by
      rw [List.length_take]; omega
    have hB : (s.drop (s.length / 2)).length = s.length / 2 := by
      rw [List.length_drop]; omega
    have h := bstr_swap_eq (s.take (s.length / 2)) (s.drop (s.length / 2)) [] (by omega)
      (by rw [hA, hB])
      (by rw [List.append_nil, List.take_append_drop, bstr_len_bits s hS.2, hA, hB]; omega)
    rw [List.append_nil, List.append_nil, List.take_append_drop] at h
    exact h

/-- Witness of C16: the string `0111` is swapped to `1101`. -/
theorem bstr_swap_spec_witness :
    (0 : Nat) ∉ [48, 49, 49, 49] ∧ bstr_swap [48, 49, 49, 49] = (true, [49, 49, 48, 49]) ∧
    ((¬ (BitStr [48, 49, 49, 49] ∧ ([48, 49, 49, 49] : List Nat).length % 2 = 0) →
      bstr_swap [48, 49, 49, 49] = (false, [48, 49, 49, 49])) ∧
    (BitStr [48, 49, 49, 49] ∧ ([48, 49, 49, 49] : List Nat).length % 2 = 0 →
      bstr_swap [48, 49, 49, 49] =
        (true, ([48, 49, 49, 49] : List Nat).drop (([48, 49, 49, 49] : List Nat).length / 2) ++
          ([48, 49, 49, 49] : List Nat).take (([48, 49, 49, 49] : List Nat).length / 2)))) :=
  ⟨by decide, by decide, bstr_swap_spec [48, 49, 49, 49] (by decide)⟩


/-! ## `bstr_flip` -/

/-- C17 is violated by the code: on the string `0a`, which is not a bit string,
`bstr_flip` returns false after it has already overwritten the first character;
the string after the call is `1a`. -/
theorem bstr_flip_partial_mutation :
    (0 : Nat) ∉ [48, 97] ∧ bstr_flip [48, 97] = (false, [49, 97]) ∧
      (bstr_flip [48, 97]).2 ≠ [48, 97] := by
  decide

/-! ## Bytes and groups of 8 characters -/

set_option maxRecDepth 100000 in
theorem to_bstr_eq : ∀ c, c < 256 → to_bstr c = bits8 c := by
  decide

set_option maxRecDepth 100000 in
theorem to_char_bits8 : ∀ c, c < 256 → to_char (bits8 c) = c := by
  decide

theorem to_char_loop_append (n : Nat) (g r : List Nat) (c pow : Nat) (hn : n ≤ g.length) :
    to_char_loop n (g ++ r) c pow = to_char_loop n g c pow := by
  induction n generalizing c pow with
  | zero => rfl
  | succ n ih =>
    simp only [to_char_loop]
    rw [List.getD_append g r 0 n (by omega), ih _ _ (by omega)]

/-- Only the first 8 characters are read by `to_char`. -/
theorem to_char_append (g r : List Nat) (hg : g.length = 8) :
    to_char (g ++ r) = to_char g := by
  unfold to_char
  exact to_char_loop_append 8 g r 0 1 (by omega)

theorem bits8_length (c : Nat) : (bits8 c).length = 8 := rfl

theorem bits8_bits (c : Nat) : Bits (bits8 c) := by
  intro x hx
  simp only [bits8, List.mem_cons, List.mem_singleton, List.not_mem_nil, or_false] at hx
  omega

/-- A group of 8 bit characters is the image of the byte `to_char` reads from it;
the byte is 0 only for the group `00000000`. -/
theorem bits8_to_char (g : List Nat) (hg : Bits g) (hl : g.length = 8) :
    bits8 (to_char g) = g ∧ to_char g < 256 ∧
      (to_char g = 0 → g = List.replicate 8 48) := by
  match g, hl with
  | [a, b, c, d, e, f, x, y], _ =>
    simp only [Bits, List.mem_cons, List.mem_singleton, List.not_mem_nil, or_false,
      forall_eq_or_imp, forall_eq] at hg
    obtain ⟨ha, hb, hc, hd, he, hf, hx, hy⟩ := hg
    rcases ha with rfl | rfl <;> rcases hb with rfl | rfl <;> rcases hc with rfl | rfl <;>
      rcases hd with rfl | rfl <;> rcases he with rfl | rfl <;> rcases hf with rfl | rfl <;>
      rcases hx with rfl | rfl <;> rcases hy with rfl | rfl <;> decide


theorem to_bstr_mod (c : Nat) : to_bstr c = bits8 (c % 256) := by
  have h := to_bstr_eq (c % 256) (Nat.mod_lt _ (by decide))
  unfold to_bstr at h ⊢
  rw [Nat.mod_mod] at h
  exact h

theorem strlen_eq (b : List Nat) (h0 : 0 ∉ b) : strlen b = b.length := by
  induction b with
  | nil => rfl
  | cons c b ih =>
    have hc : c ≠ 0 := fun h => h0 (by simp [h])
    have hb : 0 ∉ b := fun h => h0 (List.mem_cons_of_mem _ h)
    simp only [strlen, if_neg hc, ih hb, List.length_cons]

theorem flatMap8_length (f : Nat → List Nat) (hf : ∀ x, (f x).length = 8) (l : List Nat) :
    (l.flatMap f).length = 8 * l.length := by
  induction l with
  | nil => rfl
  | cons x l ih =>
    rw [List.flatMap_cons, List.length_append, hf, ih, List.length_cons]
    omega

theorem flatMap8_drop (f : Nat → List Nat) (hf : ∀ x, (f x).length = 8) (l : List Nat)
    (i : Nat) : (l.flatMap f).drop (8 * i) = (l.drop i).flatMap f := by
  induction l generalizing i with
  | nil => simp
  | cons x l ih =>
    cases i with
    | zero => simp
    | succ i =>
      have h8 : 8 * (i + 1) = (f x).length + 8 * i := by rw [hf]; omega
      rw [List.flatMap_cons, h8, List.drop_append, ih, List.drop_succ_cons]

/-- The filling loop of `bstr_new` writes the groups one after the other. -/
theorem bstr_new_fold (f : Nat → List Nat) (hf : ∀ x, (f x).length = 8) (n k : Nat)
    (hk : k ≤ n) :
    (List.range k).foldl (fun bits j => memcpy bits (8 * j) (f j) 8)
        (List.replicate (8 * n) 0) =
      (List.range k).flatMap f ++ List.replicate (8 * (n - k)) 0 := by
  induction k with
  | zero => simp
  | succ k ih =>
    have hX : ((List.range k).flatMap f).length = 8 * k := by
      rw [flatMap8_length f hf, List.length_range]
    rw [List.range_succ, List.foldl_append, ih (by omega), List.flatMap_append,
      List.flatMap_singleton]
    simp only [List.foldl_cons, List.foldl_nil, memcpy]
    have e1 : ((List.range k).flatMap f ++ List.replicate (8 * (n - k)) 0).take (8 * k) =
        (List.range k).flatMap f := List.take_left' hX
    have e2 : (f k).take 8 = f k := by rw [← hf k]; exact List.take_length _
    have e3 : ((List.range k).flatMap f ++ List.replicate (8 * (n - k)) 0).drop (8 * k + 8) =
        List.replicate (8 * (n - (k + 1))) 0 := by
      rw [← hX, List.drop_append, List.drop_replicate]
      congr 1
      omega
    rw [e1, e2, e3]

theorem range_map_getD (b : List Nat) : (List.range b.length).map (fun j => b.getD j 0) = b := by
  apply List.ext_getElem
  · simp
  · intro i h1 h2
    rw [List.getElem_map, List.getElem_range, List.getD_eq_getElem b 0 h2]

/-- The result of `bstr_new` on a non-empty C string of bytes: the groups of 8
characters of its bytes. -/
theorem bstr_new_eq (b : List Nat) (hne : b ≠ []) (h0 : 0 ∉ b) (hb : ∀ c ∈ b, c < 256) :
    bstr_new (some b) = some (b.flatMap bits8) := by
  have hfirst : ¬ b.getD 0 0 = 0 := by
    cases b with
    | nil => exact absurd rfl hne
    | cons c b =>
      intro h
      exact h0 (by simp at h; simp [h])
  have hlen : ∀ x, (to_bstr x).length = 8 := fun x => by rw [to_bstr_mod]; rfl
  have hfold := bstr_new_fold (fun j => to_bstr (b.getD j 0)) (fun j => hlen _) b.length
    b.length (Nat.le_refl _)
  simp only [bstr_new, if_neg hfirst, strlen_eq b h0]
  rw [hfold, Nat.sub_self, Nat.mul_zero, List.replicate_zero, List.append_nil]
  congr 1
  have h1 : (List.range b.length).flatMap (fun j => to_bstr (b.getD j 0)) =
      ((List.range b.length).map (fun j => b.getD j 0)).flatMap to_bstr := by
    rw [List.flatMap_map]
  rw [h1, range_map_getD]
  apply List.flatMap_congr
  intro c hc
  exact to_bstr_eq c (hb c hc)

theorem flatMap_bits8_bits (b : List Nat) : Bits (b.flatMap bits8) := by
  intro x hx
  obtain ⟨c, _, hxc⟩ := List.mem_flatMap.mp hx
  exact bits8_bits c x hxc

/-- The result of `bstr_original` on a bit string of `8 * m` characters. -/
theorem bstr_original_eq (s : List Nat) (m : Nat) (hs : Bits s) (hl : s.length = 8 * m)
    (hm : 0 < m) :
    bstr_original (some s) = some ((List.range m).map fun i => to_char (s.drop (i * 8))) := by
  have hcond : ¬ (8 * m = 0 ∨ 8 * m % 8 ≠ 0) := by omega
  have hdiv : 8 * m / 8 = m := by omega
  simp only [bstr_original, bstr_len_bits s hs, hl, if_neg hcond, hdiv]

/-- Reading the bytes back from the groups of a byte list gives the list. -/
theorem to_char_flatMap_bits8 (b : List Nat) (hb : ∀ c ∈ b, c < 256) :
    (List.range b.length).map (fun i => to_char ((b.flatMap bits8).drop (i * 8))) = b := by
  apply List.ext_getElem
  · simp
  · intro i h1 h2
    rw [List.getElem_map, List.getElem_range, Nat.mul_comm,
      flatMap8_drop bits8 bits8_length b i, List.drop_eq_getElem_cons h2, List.flatMap_cons,
      to_char_append _ _ (bits8_length _), to_char_bits8 _ (hb _ (List.getElem_mem h2))]

/-- Cutting a string of `8 * m` characters into its groups and joining them. -/
theorem groups_join (m : Nat) (s : List Nat) (hl : s.length = 8 * m) :
    (List.range m).flatMap (fun i => (s.drop (i * 8)).take 8) = s := by
  induction m generalizing s with
  | zero =>
    have : s = [] := List.length_eq_zero.mp (by omega)
    simp [this]
  | succ m ih =>
    have h2 : (s.drop 8).length = 8 * m := by rw [List.length_drop]; omega
    have ih2 := ih (s.drop 8) h2
    rw [List.range_succ_eq_map, List.flatMap_cons, List.flatMap_map]
    simp only [Nat.succ_eq_add_one, Nat.zero_mul, List.drop_zero]
    have h3 : (List.range m).flatMap (fun i => (s.drop ((i + 1) * 8)).take 8) =
        (List.range m).flatMap (fun i => ((s.drop 8).drop (i * 8)).take 8) := by
      apply List.flatMap_congr
      intro i _
      rw [List.drop_drop]
      congr 2
      omega
    rw [h3, ih2, List.take_append_drop]


theorem bits8_getElem? (c k : Nat) (hk : k < 8) :
    (bits8 c)[k]? = some (48 + c / 2 ^ (7 - k) % 2) := by
  interval_cases k <;> simp [bits8]

theorem flatMap_bits8_getElem? (b : List Nat) (j k : Nat) (hj : j < b.length) (hk : k < 8) :
    (b.flatMap bits8)[8 * j + k]? = some (48 + b[j] / 2 ^ (7 - k) % 2) := by
  have h1 : (b.flatMap bits8)[8 * j + k]? = ((b.flatMap bits8).drop (8 * j))[k]? := by
    rw [List.getElem?_drop]
  rw [h1, flatMap8_drop bits8 bits8_length b j, List.drop_eq_getElem_cons hj,
    List.flatMap_cons, List.getElem?_append_left (by rw [bits8_length]; exact hk),
    bits8_getElem? _ k hk]

/-- The group `i` of a bit string of `8 * m` characters, as `bstr_original` reads
it. -/
theorem group_to_char (s : List Nat) (m i : Nat) (hs : Bits s) (hl : s.length = 8 * m)
    (hi : i < m) :
    bits8 (to_char (s.drop (i * 8))) = (s.drop (i * 8)).take 8 ∧
      to_char (s.drop (i * 8)) < 256 ∧
      (to_char (s.drop (i * 8)) = 0 → (s.drop (i * 8)).take 8 = List.replicate 8 48) := by
  have hg : ((s.drop (i * 8)).take 8).length = 8 := by
    rw [List.length_take, List.length_drop]; omega
  have hgb : Bits ((s.drop (i * 8)).take 8) := (hs.drop _).take _
  have hsplit : to_char (s.drop (i * 8)) = to_char ((s.drop (i * 8)).take 8) := by
    conv_lhs => rw [← List.take_append_drop 8 (s.drop (i * 8))]
    exact to_char_append _ _ hg
  rw [hsplit]
  exact bits8_to_char _ hgb hg

/-- C18 as stated fails: for the valid bit string `00000000`, whose only 8-bit group
is all-zero, `bstr_original` returns a buffer holding the byte 0 (the empty
string) and `bstr_new` of it returns nil. -/
theorem bstr_new_original_counterexample :
    BitStr (List.replicate 8 48) ∧ (List.replicate 8 48 : List Nat).length % 8 = 0 ∧
      bstr_original (some (List.replicate 8 48)) = some [0] ∧
      bstr_new (bstr_original (some (List.replicate 8 48))) = none := by
  decide

/-- C18 amended: for every valid bit string `s` whose length is a positive multiple
of 8 and in which no 8-bit group is all-zero, `bstr_original(s)` succeeds and
`bstr_new(bstr_original(s))` succeeds and equals `s`. -/
theorem bstr_new_original (s : List Nat) (hs : BitStr s) (hl : s.length % 8 = 0)
    (hz : ∀ i, i < s.length / 8 → (s.drop (i * 8)).take 8 ≠ List.replicate 8 48) :
    ∃ b, bstr_original (some s) = some b ∧ bstr_new (some b) = some s := by
  have hpos : 0 < s.length := List.length_pos.mpr hs.1
  have hlen : s.length = 8 * (s.length / 8) := by omega
  have hm : 0 < s.length / 8 := by omega
  generalize s.length / 8 = m at hlen hm hz
  refine ⟨_, bstr_original_eq s m hs.2 hlen hm, ?_⟩
  have hne : ((List.range m).map fun i => to_char (s.drop (i * 8))) ≠ [] := by
    intro h
    have := congrArg List.length h
    simp at this
    omega
  have h0 : 0 ∉ ((List.range m).map fun i => to_char (s.drop (i * 8))) := by
    intro h
    obtain ⟨i, hi, hv⟩ := List.mem_map.mp h
    have him : i < m := List.mem_range.mp hi
    exact hz i him ((group_to_char s m i hs.2 hlen him).2.2 hv)
  have hb : ∀ c ∈ ((List.range m).map fun i => to_char (s.drop (i * 8))), c < 256 := by
    intro c h
    obtain ⟨i, hi, rfl⟩ := List.mem_map.mp h
    exact (group_to_char s m i hs.2 hlen (List.mem_range.mp hi)).2.1
  rw [bstr_new_eq _ hne h0 hb, List.flatMap_map]
  congr 1
  have h1 : (List.range m).flatMap (fun i => bits8 (to_char (s.drop (i * 8)))) =
      (List.range m).flatMap (fun i => (s.drop (i * 8)).take 8) := by
    apply List.flatMap_congr
    intro i hi
    exact (group_to_char s m i hs.2 hlen (List.mem_range.mp hi)).1
  rw [h1, groups_join m s hlen]

/-- Witness of C18 amended: the 16-bit string of the bytes `0x41 0xC8`. -/
theorem bstr_new_original_witness :
    (BitStr (bits8 65 ++ bits8 200) ∧ (bits8 65 ++ bits8 200).length % 8 = 0 ∧
      ∀ i, i < (bits8 65 ++ bits8 200).length / 8 →
        ((bits8 65 ++ bits8 200).drop (i * 8)).take 8 ≠ List.replicate 8 48) ∧
    ∃ b, bstr_original (some (bits8 65 ++ bits8 200)) = some b ∧
      bstr_new (some b) = some (bits8 65 ++ bits8 200) :=
  ⟨by decide, bstr_new_original (bits8 65 ++ bits8 200) (by decide) (by decide) (by decide)⟩

/-- C19 as stated fails: for the empty byte sequence `bstr_new` returns nil. -/
theorem bstr_original_new_counterexample :
    bstr_new (some []) = none ∧ bstr_original (bstr_new (some [])) ≠ some [] := by
  decide

/-- C19 amended: for every non-empty byte sequence `b` (a C string: no zero
byte), `bstr_new(b)` succeeds and `bstr_original(bstr_new(b))` succeeds and equals
`b`. -/
theorem bstr_original_new (b : List Nat) (hne : b ≠ []) (h0 : 0 ∉ b)
    (hb : ∀ c ∈ b, c < 256) :
    ∃ s, bstr_new (some b) = some s ∧ bstr_original (some s) = some b := by
  have hpos : 0 < b.length := List.length_pos.mpr hne
  refine ⟨_, bstr_new_eq b hne h0 hb, ?_⟩
  rw [bstr_original_eq (b.flatMap bits8) b.length (flatMap_bits8_bits b)
    (flatMap8_length bits8 bits8_length b) hpos, to_char_flatMap_bits8 b hb]

/-- Witness of C19 amended: the bytes `0x41 0xC8 0x01`. -/
theorem bstr_original_new_witness :
    ([65, 200, 1] ≠ ([] : List Nat) ∧ (0 : Nat) ∉ [65, 200, 1] ∧
      ∀ c ∈ ([65, 200, 1] : List Nat), c < 256) ∧
    ∃ s, bstr_new (some [65, 200, 1]) = some s ∧ bstr_original (some s) = some [65, 200, 1] :=
  ⟨by decide, bstr_original_new [65, 200, 1] (by decide) (by decide) (by decide)⟩

/-- C20 as stated fails: for the non-empty byte sequence `0x41 0x00 0x42` the zero
byte ends the C string, `bstr_new` returns the 8 characters of `0x41` only, and
the result does not have the length `8 * 3`. -/
theorem bstr_new_spec_counterexample :
    ([65, 0, 66] : List Nat) ≠ [] ∧ (∀ c ∈ ([65, 0, 66] : List Nat), c < 256) ∧
    bstr_new (some [65, 0, 66]) = some [48, 49, 48, 48, 48, 48, 48, 49] ∧
    ¬ ∃ out, bstr_new (some [65, 0, 66]) = some out ∧
      out.length = 8 * ([65, 0, 66] : List Nat).length := by
  refine ⟨by decide, by decide, by decide, ?_⟩
  rintro ⟨out, h1, h2⟩
  have h3 : bstr_new (some [65, 0, 66]) = some [48, 49, 48, 48, 48, 48, 48, 49] := by decide
  rw [h3] at h1
  cases h1
  revert h2
  decide

/-- C20 amended: for every non-empty byte sequence `src` that holds no zero byte,
`bstr_new(src)` is a valid bit string of length exactly `8 * |src|` in which, for
every byte index `j` and every `k` in `[0, 8)`, the character at index `8j + k` is
`'1'` exactly when bit `7 - k` of the unsigned value of byte `j` is set, and `'0'`
otherwise; on empty or null input it returns nil. -/
theorem bstr_new_spec (src : List Nat) (h0 : 0 ∉ src) (hb : ∀ c ∈ src, c < 256) :
    (src ≠ [] →
      ∃ out, bstr_new (some src) = some out ∧ BitStr out ∧ out.length = 8 * src.length ∧
        ∀ j k, j < src.length → k < 8 →
          ∃ byte, src[j]? = some byte ∧
            (out[8 * j + k]? = some 49 ∨ out[8 * j + k]? = some 48) ∧
            (out[8 * j + k]? = some 49 ↔ byte / 2 ^ (7 - k) % 2 = 1)) ∧
    bstr_new (some []) = none ∧ bstr_new none = none := by
  refine ⟨fun hne => ?_, by decide, rfl⟩
  have hpos : 0 < src.length := List.length_pos.mpr hne
  have hl : (src.flatMap bits8).length = 8 * src.length :=
    flatMap8_length bits8 bits8_length src
  refine ⟨_, bstr_new_eq src hne h0 hb, ⟨?_, flatMap_bits8_bits src⟩, hl, ?_⟩
  · intro h
    have h2 := congrArg List.length h
    rw [hl, List.length_nil] at h2
    omega
  · intro j k hj hk
    refine ⟨src[j], List.getElem?_eq_getElem hj, ?_⟩
    rw [flatMap_bits8_getElem? src j k hj hk]
    have hr : src[j] / 2 ^ (7 - k) % 2 < 2 := Nat.mod_lt _ (by decide)
    simp only [Option.some.injEq]
    omega

/-- Witness of C20 amended: the bytes `0x41 0xC8`. -/
theorem bstr_new_spec_witness :
    ((0 : Nat) ∉ [65, 200] ∧ ∀ c ∈ ([65, 200] : List Nat), c < 256) ∧
    bstr_new (some [65, 200]) =
      some [48, 49, 48, 48, 48, 48, 48, 49, 49, 49, 48, 48, 49, 48, 48, 48] ∧
    (([65, 200] : List Nat) ≠ [] →
      ∃ out, bstr_new (some [65, 200]) = some out ∧ BitStr out ∧
        out.length = 8 * ([65, 200] : List Nat).length ∧
        ∀ j k, j < ([65, 200] : List Nat).length → k < 8 →
          ∃ byte, ([65, 200] : List Nat)[j]? = some byte ∧
            (out[8 * j + k]? = some 49 ∨ out[8 * j + k]? = some 48) ∧
            (out[8 * j + k]? = some 49 ↔ byte / 2 ^ (7 - k) % 2 = 1)) ∧
    bstr_new (some []) = none ∧ bstr_new none = none :=
  ⟨by decide, by decide, bstr_new_spec [65, 200] (by decide) (by decide)⟩


/-! ## The initial permutation and its inverse -/

theorem des_permute_64 (s : List Nat) (tbl : List Int) (hs : Bits s) (hl : s.length = 64)
    (ht : tbl.length = 64) (hr : ∀ p ∈ tbl, 1 ≤ p ∧ p ≤ (64 : Int)) :
    des_permute (some s) (some tbl) 64 = some (permuteL tbl s) ∧
      Bits (permuteL tbl s) ∧ (permuteL tbl s).length = 64 := by
  have hlen : bstr_len (some s) = 64 := by rw [bstr_len_bits s hs, hl]
  have htake : tbl.take 64 = tbl := by rw [← ht]; exact List.take_length _
  refine ⟨?_, permuteL_bits tbl s hs (by rw [hl]; exact hr), by rw [length_permuteL, ht]⟩
  have h := des_permute_eq s tbl 64 (by decide) (by rw [hlen]; decide)
    (by rw [hlen, htake]; exact hr)
  rw [htake] at h
  exact h

/-- C23: the table `IP_INV` is the inverse of the table `IP`: for every valid bit
string `s` of length 64, `des_permute(des_permute(s, IP, 64), IP_INV, 64) = s` and
`des_permute(des_permute(s, IP_INV, 64), IP, 64) = s`. -/
theorem des_permute_IP_inverse (s : List Nat) (hs : BitStr s) (hl : s.length = 64) :
    (∃ t, des_permute (some s) (some IP) 64 = some t ∧
      des_permute (some t) (some IP_INV) 64 = some s) ∧
    (∃ t, des_permute (some s) (some IP_INV) 64 = some t ∧
      des_permute (some t) (some IP) 64 = some s) := by
  obtain ⟨h1, h1b, h1l⟩ := des_permute_64 s IP hs.2 hl rfl IP_range
  obtain ⟨h2, h2b, h2l⟩ := des_permute_64 s IP_INV hs.2 hl rfl IP_INV_range
  obtain ⟨h3, _, _⟩ := des_permute_64 _ IP_INV h1b h1l rfl IP_INV_range
  obtain ⟨h4, _, _⟩ := des_permute_64 _ IP h2b h2l rfl IP_range
  refine ⟨⟨_, h1, ?_⟩, ⟨_, h2, ?_⟩⟩
  · rw [h3, permuteL_permuteL IP_INV IP s 64 rfl hl IP_INV_IP]
  · rw [h4, permuteL_permuteL IP IP_INV s 64 rfl hl IP_IP_INV]

/-- Witness of C23 at the block `0x0123456789ABCDEF`. -/
theorem des_permute_IP_inverse_witness :
    (BitStr plain2 ∧ plain2.length = 64) ∧
    (∃ t, des_permute (some plain2) (some IP) 64 = some t ∧
      des_permute (some t) (some IP_INV) 64 = some plain2) ∧
    (∃ t, des_permute (some plain2) (some IP_INV) 64 = some t ∧
      des_permute (some t) (some IP) 64 = some plain2) :=
  ⟨by decide, des_permute_IP_inverse plain2 (by decide) (by decide)⟩

/-! ## The key states of the two directions, round by round -/

theorem fold_congr (f g : List Nat → Int → List Nat) (hf : KeepsKey f)
    (hfg : ∀ k r, Bits k → k.length = 56 → f k r = g k r)
    (k : List Nat) (rs : List Int) (hk : Bits k) (hl : k.length = 56) :
    rs.foldl f k = rs.foldl g k ∧ Bits (rs.foldl f k) ∧ (rs.foldl f k).length = 56 := by
  induction rs generalizing k with
  | nil => exact ⟨rfl, hk, hl⟩
  | cons r rs ih =>
    obtain ⟨h1, h2⟩ := hf k r hk hl
    simp only [List.foldl_cons]
    rw [← hfg k r hk hl]
    exact ih _ h1 h2

/-- The key state of encryption after `r` rounds, for `r` in `0..16`: both halves
rotated left by the sum of the first `r` shifts. -/
theorem enc_state (k : List Nat) (hk : Bits k) (hl : k.length = 56) (r : Nat) (hr : r ≤ 16) :
    (des_rounds.take r).foldl key_rot_enc k =
      rotHalves k ([0, 1, 2, 4, 6, 8, 10, 12, 14, 15, 17, 19, 21, 23, 25, 27, 0].getD r 0) := by
  rw [(fold_congr key_rot_enc rotEnc keepsKey_enc key_rot_enc_eq k _ hk hl).1]
  interval_cases r <;>
    simp only [des_rounds, List.take_succ_cons, List.take_zero, List.foldl_cons, List.foldl_nil,
      rotEnc, List.getD_cons_succ, List.getD_cons_zero] <;>
    norm_num <;>
    simp only [rotHalves_add_mod k _ _ hl, Nat.reduceAdd, Nat.reduceMod, rotHalves_zero]

/-- The key state of decryption after `r` rounds, for `r` in `0..16`. -/
theorem dec_state (k : List Nat) (hk : Bits k) (hl : k.length = 56) (r : Nat) (hr : r ≤ 16) :
    (des_rounds.take r).foldl key_rot_dec k =
      rotHalves k ([0, 0, 27, 25, 23, 21, 19, 17, 15, 14, 12, 10, 8, 6, 4, 2, 1].getD r 0) := by
  rw [(fold_congr key_rot_dec rotDec keepsKey_dec key_rot_dec_eq k _ hk hl).1]
  interval_cases r <;>
    simp only [des_rounds, List.take_succ_cons, List.take_zero, List.foldl_cons, List.foldl_nil,
      rotDec, List.getD_cons_succ, List.getD_cons_zero] <;>
    norm_num <;>
    simp only [rotHalves_add_mod k _ _ hl, Nat.reduceAdd, Nat.reduceMod, rotHalves_zero]


/-- C22: reversed subkey order: for every valid key `K` and every round `r` in
1..16, the 48-bit subkey `des_permute(k56, PC2, 48)` of round `r` of `des_dec`
equals the subkey of round `17 - r` of `des_enc`; in particular the key state
after the 16 encryption rotations is `key_init(K)` again, and decryption round 1
leaves the key state as it is.  The key state of a round is the buffer `k56`
after that many passes through the round loop of `des`, whatever the 64-bit
block states `cd` and `ce` are. -/
theorem des_dec_subkeys_reversed (K : List Nat) (hK : BitStr K) :
    ∃ k56, key_init (some K) = some k56 ∧
      ∀ cd ce : List Nat, Bits cd → cd.length = 64 → Bits ce → ce.length = 64 →
        (∀ r, 1 ≤ r → r ≤ 16 →
          ∃ k48,
            des_permute (some ((des_rounds.take r).foldl (des_round key_rot_dec) (cd, k56)).2)
              (some PC2) 48 = some k48 ∧
            des_permute
              (some ((des_rounds.take (17 - r)).foldl (des_round key_rot_enc) (ce, k56)).2)
              (some PC2) 48 = some k48) ∧
        (des_rounds.foldl (des_round key_rot_enc) (ce, k56)).2 = k56 ∧
        ((des_rounds.take 1).foldl (des_round key_rot_dec) (cd, k56)).2 = k56 := by
  obtain ⟨hki, hkb, hkl⟩ := key_init_eq K hK
  refine ⟨_, hki, ?_⟩
  intro cd ce hcd hcdl hce hcel
  generalize permuteL PC1 (key64 K) = k at hkb hkl
  have hd : ∀ r, r ≤ 16 → ((des_rounds.take r).foldl (des_round key_rot_dec) (cd, k)).2 =
      rotHalves k ([0, 0, 27, 25, 23, 21, 19, 17, 15, 14, 12, 10, 8, 6, 4, 2, 1].getD r 0) := by
    intro r hr
    rw [(des_fold_eq key_rot_dec keepsKey_dec _ cd k hcd hcdl hkb hkl).1]
    exact dec_state k hkb hkl r hr
  have he : ∀ r, r ≤ 16 → ((des_rounds.take r).foldl (des_round key_rot_enc) (ce, k)).2 =
      rotHalves k ([0, 1, 2, 4, 6, 8, 10, 12, 14, 15, 17, 19, 21, 23, 25, 27, 0].getD r 0) := by
    intro r hr
    rw [(des_fold_eq key_rot_enc keepsKey_enc _ ce k hce hcel hkb hkl).1]
    exact enc_state k hkb hkl r hr
  refine ⟨?_, ?_, ?_⟩
  · intro r h1 h16
    rw [hd r h16, he (17 - r) (by omega)]
    have hnum : ([0, 0, 27, 25, 23, 21, 19, 17, 15, 14, 12, 10, 8, 6, 4, 2, 1] : List Nat).getD r 0 =
        ([0, 1, 2, 4, 6, 8, 10, 12, 14, 15, 17, 19, 21, 23, 25, 27, 0] : List Nat).getD
          (17 - r) 0 := by
      interval_cases r <;> rfl
    rw [hnum]
    have hsub := (subkey_spec _ (rotHalves_bits k
      (([0, 1, 2, 4, 6, 8, 10, 12, 14, 15, 17, 19, 21, 23, 25, 27, 0] : List Nat).getD
        (17 - r) 0) hkb) (rotHalves_length k _ hkl)).1
    exact ⟨_, hsub, hsub⟩
  · have h := he 16 (Nat.le_refl _)
    have ht : des_rounds.take 16 = des_rounds := rfl
    rw [ht] at h
    rw [h]
    exact rotHalves_zero k
  · rw [hd 1 (by omega)]
    exact rotHalves_zero k

/-- Witness of C22 at the key `0x133457799BBCDFF1`. -/
theorem des_dec_subkeys_reversed_witness :
    BitStr key2 ∧
    ∃ k56, key_init (some key2) = some k56 ∧
      ∀ cd ce : List Nat, Bits cd → cd.length = 64 → Bits ce → ce.length = 64 →
        (∀ r, 1 ≤ r → r ≤ 16 →
          ∃ k48,
            des_permute (some ((des_rounds.take r).foldl (des_round key_rot_dec) (cd, k56)).2)
              (some PC2) 48 = some k48 ∧
            des_permute
              (some ((des_rounds.take (17 - r)).foldl (des_round key_rot_enc) (ce, k56)).2)
              (some PC2) 48 = some k48) ∧
        (des_rounds.foldl (des_round key_rot_enc) (ce, k56)).2 = k56 ∧
        ((des_rounds.take 1).foldl (des_round key_rot_dec) (cd, k56)).2 = k56 :=
  ⟨by decide, des_dec_subkeys_reversed key2 (by decide)⟩

/-! ## The parity positions of the key -/

theorem PC1_not_parity : ∀ p ∈ PC1, (p - 1).toNat < 64 ∧ ((p - 1).toNat + 1) % 8 ≠ 0 := by
  decide

/-- PC-1 gives the same key state for two keys that agree off the parity
positions. -/
theorem permuteL_PC1_congr (k k2 : List Nat)
    (h : ∀ j, j < 64 → (j + 1) % 8 ≠ 0 → k[j]? = k2[j]?) :
    permuteL PC1 k = permuteL PC1 k2 := by
  apply List.map_congr_left
  intro p hp
  obtain ⟨h1, h2⟩ := PC1_not_parity p hp
  rw [List.getD_eq_getElem?_getD, List.getD_eq_getElem?_getD, h _ h1 h2]

theorem key64_of_length_64 (k : List Nat) (hl : k.length = 64) : key64 k = k := by
  simp only [key64, hl, Nat.sub_self, List.replicate_zero, List.append_nil]
  rw [← hl]
  exact List.take_length _

/-- C26: key parity bits are ignored: for every valid 64-bit message `M` and every
two valid 64-bit keys `K` and `K2` that agree at every position except possibly
the 1-based positions 8, 16, ..., 64, `des_enc(M, K) = des_enc(M, K2)` and
`des_dec(M, K) = des_dec(M, K2)`, all of them succeeding; consequently a key of
length 63 and the same key with any 64th bit appended encrypt identically. -/
theorem des_key_parity_ignored (M : List Nat) (hM : BitStr M) (hMl : M.length = 64) :
    (∀ K K2 : List Nat, BitStr K → K.length = 64 → BitStr K2 → K2.length = 64 →
      (∀ j, j < 64 → (j + 1) % 8 ≠ 0 → K[j]? = K2[j]?) →
      (∃ C, des_enc (some M) (some K) = some C ∧ des_enc (some M) (some K2) = some C) ∧
      (∃ D, des_dec (some M) (some K) = some D ∧ des_dec (some M) (some K2) = some D)) ∧
    (∀ K63 : List Nat, BitStr K63 → K63.length = 63 → ∀ b, b = 48 ∨ b = 49 →
      ∃ C, des_enc (some M) (some K63) = some C ∧
        des_enc (some M) (some (K63 ++ [b])) = some C) := by
  constructor
  · intro K K2 hK hKl hK2 hK2l hagree
    obtain ⟨he, _, _⟩ := des_enc_eq M K hM.2 hMl hK
    obtain ⟨he2, _, _⟩ := des_enc_eq M K2 hM.2 hMl hK2
    obtain ⟨hd, _, _⟩ := des_dec_eq M K hM.2 hMl hK
    obtain ⟨hd2, _, _⟩ := des_dec_eq M K2 hM.2 hMl hK2
    have hkey : permuteL PC1 (key64 K) = permuteL PC1 (key64 K2) := by
      rw [key64_of_length_64 K hKl, key64_of_length_64 K2 hK2l]
      exact permuteL_PC1_congr K K2 hagree
    rw [← hkey] at he2 hd2
    exact ⟨⟨_, he, he2⟩, ⟨_, hd, hd2⟩⟩
  · intro K63 hK hKl b hb
    have hK2 : BitStr (K63 ++ [b]) := by
      refine ⟨by simp, Bits.append hK.2 ?_⟩
      intro c hc
      rw [List.mem_singleton] at hc
      rw [hc]
      exact hb
    have hK2l : (K63 ++ [b]).length = 64 := by simp [hKl]
    obtain ⟨he, _, _⟩ := des_enc_eq M K63 hM.2 hMl hK
    obtain ⟨he2, _, _⟩ := des_enc_eq M _ hM.2 hMl hK2
    have h64 : key64 K63 = K63 ++ [48] := by
      have h1 : (K63 ++ [48]).length = 64 := by simp [hKl]
      have h2 : List.replicate (64 - K63.length) 48 = [48] := by rw [hKl]; rfl
      unfold key64
      rw [h2, ← h1, List.take_length]
    have hkey : permuteL PC1 (key64 K63) = permuteL PC1 (key64 (K63 ++ [b])) := by
      rw [key64_of_length_64 _ hK2l, h64]
      apply permuteL_PC1_congr
      intro j hj hpar
      have hj63 : j < 63 := by omega
      rw [List.getElem?_append_left (by omega), List.getElem?_append_left (by omega)]
    rw [← hkey] at he2
    exact ⟨_, he, he2⟩

/-- Witness of C26 at the block `0x0123456789ABCDEF`. -/
theorem des_key_parity_ignored_witness :
    (BitStr plain2 ∧ plain2.length = 64) ∧
    ((∀ K K2 : List Nat, BitStr K → K.length = 64 → BitStr K2 → K2.length = 64 →
      (∀ j, j < 64 → (j + 1) % 8 ≠ 0 → K[j]? = K2[j]?) →
      (∃ C, des_enc (some plain2) (some K) = some C ∧
        des_enc (some plain2) (some K2) = some C) ∧
      (∃ D, des_dec (some plain2) (some K) = some D ∧
        des_dec (some plain2) (some K2) = some D)) ∧
    (∀ K63 : List Nat, BitStr K63 → K63.length = 63 → ∀ b, b = 48 ∨ b = 49 →
      ∃ C, des_enc (some plain2) (some K63) = some C ∧
        des_enc (some plain2) (some (K63 ++ [b])) = some C)) :=
  ⟨by decide, des_key_parity_ignored plain2 (by decide) (by decide)⟩


/-! ## The round function against its specification -/

/-- On six bit characters `sbox_value` is the S-box entry of the row and column
the specification names. -/
theorem sbox_value_eq (b : List Nat) (i : Nat) (hi : i < 8)
    (h0 : b.getD 0 0 = 48 ∨ b.getD 0 0 = 49) (h1 : b.getD 1 0 = 48 ∨ b.getD 1 0 = 49)
    (h2 : b.getD 2 0 = 48 ∨ b.getD 2 0 = 49) (h3 : b.getD 3 0 = 48 ∨ b.getD 3 0 = 49)
    (h4 : b.getD 4 0 = 48 ∨ b.getD 4 0 = 49) (h5 : b.getD 5 0 = 48 ∨ b.getD 5 0 = 49) :
    sbox_value b i =
      nibble ((SBOX.getD i []).getD
        (16 * (2 * bitVal (b.getD 0 0) + bitVal (b.getD 5 0)) +
          (8 * bitVal (b.getD 1 0) + 4 * bitVal (b.getD 2 0) + 2 * bitVal (b.getD 3 0) +
            bitVal (b.getD 4 0))) 0).toNat := by
  unfold sbox_value
  generalize b.getD 0 0 = x0 at h0 ⊢
  generalize b.getD 1 0 = x1 at h1 ⊢
  generalize b.getD 2 0 = x2 at h2 ⊢
  generalize b.getD 3 0 = x3 at h3 ⊢
  generalize b.getD 4 0 = x4 at h4 ⊢
  generalize b.getD 5 0 = x5 at h5 ⊢
  rcases h0 with rfl | rfl <;> rcases h1 with rfl | rfl <;> rcases h2 with rfl | rfl <;>
    rcases h3 with rfl | rfl <;> rcases h4 with rfl | rfl <;> rcases h5 with rfl | rfl <;>
    interval_cases i <;> decide


theorem getD_drop_bits (X : List Nat) (a j : Nat) (hX : Bits X) (h : a + j < X.length) :
    (X.drop a).getD j 0 = X.getD (a + j) 0 ∧
      (X.getD (a + j) 0 = 48 ∨ X.getD (a + j) 0 = 49) := by
  have h1 : (X.drop a).getD j 0 = X.getD (a + j) 0 := by
    rw [List.getD_eq_getElem?_getD, List.getD_eq_getElem?_getD, List.getElem?_drop]
  refine ⟨h1, ?_⟩
  rw [List.getD_eq_getElem X 0 h]
  exact hX _ (List.getElem_mem h)

/-- The characters `sbox_value` returns for group `i` of a 48-bit string are the
S-box output of the specification. -/
theorem sbox_value_group (X : List Nat) (i : Nat) (hX : Bits X) (hl : X.length = 48)
    (hi : i < 8) : sbox_value (X.drop (6 * i)) i = sboxSpec X i := by
  obtain ⟨e0, b0⟩ := getD_drop_bits X (6 * i) 0 hX (by omega)
  obtain ⟨e1, b1⟩ := getD_drop_bits X (6 * i) 1 hX (by omega)
  obtain ⟨e2, b2⟩ := getD_drop_bits X (6 * i) 2 hX (by omega)
  obtain ⟨e3, b3⟩ := getD_drop_bits X (6 * i) 3 hX (by omega)
  obtain ⟨e4, b4⟩ := getD_drop_bits X (6 * i) 4 hX (by omega)
  obtain ⟨e5, b5⟩ := getD_drop_bits X (6 * i) 5 hX (by omega)
  rw [sbox_value_eq _ i hi (by rw [e0]; exact b0) (by rw [e1]; exact b1) (by rw [e2]; exact b2)
    (by rw [e3]; exact b3) (by rw [e4]; exact b4) (by rw [e5]; exact b5),
    e0, e1, e2, e3, e4, e5]
  rfl

theorem sbox_flatMap_length (X : List Nat) (n : Nat) :
    ((List.range n).flatMap fun i => sbox_value (X.drop (6 * i)) i).length = 4 * n := by
  induction n with
  | zero => rfl
  | succ n ih =>
    rw [List.range_succ, List.flatMap_append, List.length_append, ih, List.flatMap_singleton,
      (sbox_value_spec _ _).2]
    omega

/-- The state of the loop of `f_func` after `n` passes: the S-box outputs of the
groups `0..n-1` of the original string `X`, followed by `X` from index `4n` on.
The group read in pass `n` starts at `6n >= 4n`, so it is still the group of `X`. -/
theorem f_func_fold_eq (X : List Nat) (n : Nat) (hn : n ≤ 8) :
    (List.range n).foldl f_func_step (X, 0, 0) =
      (((List.range n).flatMap fun i => sbox_value (X.drop (6 * i)) i) ++ X.drop (4 * n),
        6 * n, 4 * n) := by
  induction n with
  | zero => simp
  | succ n ih =>
    have hA := sbox_flatMap_length X n
    have hsv := (sbox_value_spec (X.drop (6 * n)) n).2
    rw [List.range_succ, List.foldl_append, ih (by omega), List.flatMap_append,
      List.flatMap_singleton]
    simp only [List.foldl_cons, List.foldl_nil, f_func_step_eq, memcpy]
    have e1 : (((List.range n).flatMap fun i => sbox_value (X.drop (6 * i)) i) ++
        X.drop (4 * n)).drop (6 * n) = X.drop (6 * n) := by
      have h6 : 6 * n = ((List.range n).flatMap fun i => sbox_value (X.drop (6 * i)) i).length +
          2 * n := by rw [hA]; omega
      rw [h6, List.drop_append, List.drop_drop, ← h6]
      congr 1
      omega
    have e2 : (((List.range n).flatMap fun i => sbox_value (X.drop (6 * i)) i) ++
        X.drop (4 * n)).take (4 * n) =
        (List.range n).flatMap fun i => sbox_value (X.drop (6 * i)) i := List.take_left' hA
    have e3 : (sbox_value (X.drop (6 * n)) n).take 4 = sbox_value (X.drop (6 * n)) n := by
      rw [← hsv]; exact List.take_length _
    have e4 : (((List.range n).flatMap fun i => sbox_value (X.drop (6 * i)) i) ++
        X.drop (4 * n)).drop (4 * n + 4) = X.drop (4 * (n + 1)) := by
      rw [← hA, List.drop_append, List.drop_drop, hA]
      congr 1
    rw [e1, e2, e3, e4]
    have e5 : 6 * n + 6 = 6 * (n + 1) := by omega
    have e6 : 4 * n + 4 = 4 * (n + 1) := by omega
    rw [e5, e6]

theorem sbox_flatMap_spec (X : List Nat) (hX : Bits X) (hl : X.length = 48) :
    ((List.range 8).flatMap fun i => sbox_value (X.drop (6 * i)) i) =
      (List.range 8).flatMap (sboxSpec X) := by
  apply List.flatMap_congr
  intro i hi
  exact sbox_value_group X i hX hl (List.mem_range.mp hi)

/-- The value of `f_func` on a 32-bit block and a 48-bit key is the value the
specification gives. -/
theorem f_func_eq (r k48 : List Nat) (hr : Bits r) (hrl : r.length = 32)
    (hk : Bits k48) (hkl : k48.length = 48) :
    des_permute (some r) (some EXP) 48 = some (permuteL EXP r) ∧
    bstr_xor (permuteL EXP r) k48 = (true, xorBits (permuteL EXP r) k48) ∧
    Bits (xorBits (permuteL EXP r) k48) ∧ (xorBits (permuteL EXP r) k48).length = 48 ∧
    f_func r k48 = some (fSpec r k48) := by
  have hrlen : bstr_len (some r) = 32 := by rw [bstr_len_bits r hr, hrl]
  have hE : des_permute (some r) (some EXP) 48 = some (permuteL EXP r) :=
    des_permute_eq r EXP 48 (by decide) (by rw [hrlen]; decide)
      (by rw [hrlen]; exact EXP_range)
  have hE0b : Bits (permuteL EXP r) := permuteL_bits EXP r hr (by rw [hrl]; exact EXP_range)
  have hE0l : (permuteL EXP r).length = 48 := length_permuteL EXP r
  have hne : permuteL EXP r ≠ [] := by
    intro h; rw [h] at hE0l; simp at hE0l
  have hx : bstr_xor (permuteL EXP r) k48 = (true, xorBits (permuteL EXP r) k48) := by
    have h := bstr_xor_eq (permuteL EXP r) k48 [] hk hne
      (by rw [List.append_nil]; exact bstr_len_bits _ hE0b) (by rw [hE0l, hkl])
    simpa using h
  have hE1b : Bits (xorBits (permuteL EXP r) k48) := xorBits_bits _ _ hE0b hk
  have hE1l : (xorBits (permuteL EXP r) k48).length = 48 := by
    rw [length_xorBits _ _ (by rw [hE0l, hkl]), hE0l]
  refine ⟨hE, hx, hE1b, hE1l, ?_⟩
  have hfold := f_func_fold_eq (xorBits (permuteL EXP r) k48) 8 (Nat.le_refl _)
  have hrange : List.range 8 = [0, 1, 2, 3, 4, 5, 6, 7] := rfl
  rw [hrange] at hfold
  simp only [f_func, hE, hx, hfold, fSpec]
  rw [← hrange, sbox_flatMap_spec _ hE1b hE1l]
  generalize hS : (List.range 8).flatMap (sboxSpec (xorBits (permuteL EXP r) k48)) = S
  have hSl : S.length = 32 := by
    rw [← hS, ← sbox_flatMap_spec _ hE1b hE1l]
    exact sbox_flatMap_length _ 8
  have hSb : Bits S := by
    rw [← hS, ← sbox_flatMap_spec _ hE1b hE1l]
    intro c hc
    obtain ⟨i, _, hci⟩ := List.mem_flatMap.mp hc
    exact (sbox_value_spec _ _).1 c hci
  generalize (xorBits (permuteL EXP r) k48).drop (4 * 8) = Y at *
  have hYl : 0 < Y.length ∨ Y = [] := by
    cases Y with
    | nil => exact Or.inr rfl
    | cons y Y => exact Or.inl (by simp)
  have hbuf : ∃ rest, (S ++ Y).set 32 0 = S ++ rest ∧ (rest = [] ∨ ∃ t, rest = 0 :: t) := by
    cases Y with
    | nil =>
      refine ⟨[], ?_, Or.inl rfl⟩
      rw [List.append_nil]
      exact List.set_eq_of_length_le (by omega)
    | cons y Y =>
      refine ⟨0 :: Y, ?_, Or.inr ⟨Y, rfl⟩⟩
      rw [← hSl]
      exact set_at_length S y 0 Y
  obtain ⟨rest, hset, hrest⟩ := hbuf
  rw [hset]
  have hlen : bstr_len (some (S ++ rest)) = 32 := by
    rcases hrest with rfl | ⟨t, rfl⟩
    · rw [List.append_nil, bstr_len_bits S hSb, hSl]
    · rw [bstr_len_bits_nul S t hSb, hSl]
  rw [des_permute_eq _ P 32 (by decide) (by rw [hlen]; decide) (by rw [hlen]; exact P_range)]
  congr 1
  exact permuteL_append P _ _ (by rw [hSl]; exact P_range)


/-- C21: for every valid 32-bit `R` and valid 48-bit subkey `k`, `f_func(R, k)`
equals `permute(S, P, 32)`, where `X = permute(R, EXP, 48) XOR k` and `S` is the
concatenation for `i = 0..7` of the 4-bit most-significant-first representation
of `SBOX[i][16 * row_i + col_i]` (the definition `sboxSpec`); in particular the
in-place overwrite of positions `[4i, 4i + 4)` never changes a 6-bit group before
it is read: before pass `i` the loop indices are `6i` and `4i`, and the buffer
from index `6i` on is still `X` from index `6i` on. -/
theorem f_func_refines_spec (R k : List Nat) (hR : BitStr R) (hRl : R.length = 32)
    (hk : BitStr k) (hkl : k.length = 48) :
    ∃ E X, des_permute (some R) (some EXP) 48 = some E ∧ bstr_xor E k = (true, X) ∧
      (∃ out, f_func R k = some out ∧
        des_permute (some ((List.range 8).flatMap (sboxSpec X))) (some P) 32 = some out) ∧
      (∀ i, i < 8 →
        ((List.range i).foldl f_func_step (X, 0, 0)).2 = (6 * i, 4 * i) ∧
        ((List.range i).foldl f_func_step (X, 0, 0)).1.drop (6 * i) = X.drop (6 * i)) ∧
      ([0, 1, 2, 3, 4, 5, 6, 7].foldl f_func_step (X, 0, 0)).1.take 32 =
        (List.range 8).flatMap (sboxSpec X) := by
  obtain ⟨hE, hx, hXb, hXl, hf⟩ := f_func_eq R k hR.2 hRl hk.2 hkl
  refine ⟨_, _, hE, hx, ⟨_, hf, ?_⟩, ?_, ?_⟩
  · generalize hS : (List.range 8).flatMap (sboxSpec (xorBits (permuteL EXP R) k)) = S
    have hSl : S.length = 32 := by
      rw [← hS, ← sbox_flatMap_spec _ hXb hXl]
      exact sbox_flatMap_length _ 8
    have hSb : Bits S := by
      rw [← hS, ← sbox_flatMap_spec _ hXb hXl]
      intro c hc
      obtain ⟨i, _, hci⟩ := List.mem_flatMap.mp hc
      exact (sbox_value_spec _ _).1 c hci
    have hlen : bstr_len (some S) = 32 := by rw [bstr_len_bits S hSb, hSl]
    have hP : P.take 32 = P := rfl
    have h := des_permute_eq S P 32 (by decide) (by rw [hlen]; decide)
      (by rw [hlen]; exact P_range)
    rw [hP] at h
    rw [h, fSpec, hS]
  · intro i hi
    rw [f_func_fold_eq _ i (by omega)]
    refine ⟨rfl, ?_⟩
    have hA := sbox_flatMap_length (xorBits (permuteL EXP R) k) i
    have h6 : 6 * i = ((List.range i).flatMap fun j =>
        sbox_value ((xorBits (permuteL EXP R) k).drop (6 * j)) j).length + 2 * i := by
      rw [hA]; omega
    show List.drop (6 * i) (_ ++ _) = _
    rw [h6, List.drop_append, List.drop_drop, ← h6]
    congr 1
    omega
  · have hfold := f_func_fold_eq (xorBits (permuteL EXP R) k) 8 (Nat.le_refl _)
    have hrange : List.range 8 = [0, 1, 2, 3, 4, 5, 6, 7] := rfl
    rw [hrange] at hfold
    rw [hfold]
    rw [← hrange, sbox_flatMap_spec _ hXb hXl]
    apply List.take_left'
    rw [← sbox_flatMap_spec _ hXb hXl]
    exact sbox_flatMap_length _ 8

/-- Witness of C21: the right half and the key of the first test vector cut to
32 and 48 bits. -/
theorem f_func_refines_spec_witness :
    (BitStr (plain2.take 32) ∧ (plain2.take 32).length = 32 ∧
      BitStr (key2.take 48) ∧ (key2.take 48).length = 48) ∧
    ∃ E X, des_permute (some (plain2.take 32)) (some EXP) 48 = some E ∧
      bstr_xor E (key2.take 48) = (true, X) ∧
      (∃ out, f_func (plain2.take 32) (key2.take 48) = some out ∧
        des_permute (some ((List.range 8).flatMap (sboxSpec X))) (some P) 32 = some out) ∧
      (∀ i, i < 8 →
        ((List.range i).foldl f_func_step (X, 0, 0)).2 = (6 * i, 4 * i) ∧
        ((List.range i).foldl f_func_step (X, 0, 0)).1.drop (6 * i) = X.drop (6 * i)) ∧
      ([0, 1, 2, 3, 4, 5, 6, 7].foldl f_func_step (X, 0, 0)).1.take 32 =
        (List.range 8).flatMap (sboxSpec X) :=
  ⟨by decide, f_func_refines_spec (plain2.take 32) (key2.take 48) (by decide) (by decide)
    (by decide) (by decide)⟩


/-! ## Complementation -/

theorem bstr_flip_loop_eq (s : List Nat) (hs : Bits s) :
    bstr_flip_loop s = (true, flipBits s) := by
  induction s with
  | nil => rfl
  | cons c s ih =>
    obtain ⟨hc, hs⟩ := Bits.cons_iff.mp hs
    have h0 : c ≠ 0 := by omega
    have h1 : ¬ (c ≠ 49 ∧ c ≠ 48) := by omega
    simp only [bstr_flip_loop, if_neg h0, if_neg h1, ih hs, flipBits, List.map_cons]

/-- Effect of `bstr_flip` on a valid bit string: every character is complemented. -/
theorem bstr_flip_eq (s : List Nat) (hs : BitStr s) : bstr_flip s = (true, flipBits s) := by
  have hfirst : ¬ s.getD 0 0 = 0 := by
    cases s with
    | nil => exact absurd rfl hs.1
    | cons c s =>
      have := (Bits.cons_iff.mp hs.2).1
      simp only [List.getD_cons_zero]
      omega
  simp only [bstr_flip, if_neg hfirst]
  exact bstr_flip_loop_eq s hs.2

theorem flipBits_length (s : List Nat) : (flipBits s).length = s.length := by
  simp [flipBits]

theorem flipBits_bits (s : List Nat) : Bits (flipBits s) := by
  intro c hc
  obtain ⟨x, _, rfl⟩ := List.mem_map.mp hc
  split
  · exact Or.inl rfl
  · exact Or.inr rfl

theorem flipBits_bitStr (s : List Nat) (hs : BitStr s) : BitStr (flipBits s) := by
  refine ⟨?_, flipBits_bits s⟩
  intro h
  have hl := flipBits_length s
  rw [h] at hl
  exact hs.1 (List.length_eq_zero.mp hl.symm)

theorem flipBits_append (a b : List Nat) : flipBits (a ++ b) = flipBits a ++ flipBits b := by
  simp [flipBits]

theorem flipBits_take (s : List Nat) (n : Nat) : flipBits (s.take n) = (flipBits s).take n := by
  simp [flipBits, List.map_take]

theorem flipBits_drop (s : List Nat) (n : Nat) : flipBits (s.drop n) = (flipBits s).drop n := by
  simp [flipBits, List.map_drop]

theorem flipBits_rotate (s : List Nat) (n : Nat) :
    flipBits (s.rotate n) = (flipBits s).rotate n := by
  simp [flipBits, List.map_rotate]

/-- A table of in-range entries selects the complemented characters of the
complemented string. -/
theorem permuteL_flipBits (tbl : List Int) (s : List Nat)
    (h : ∀ p ∈ tbl, 1 ≤ p ∧ p ≤ (s.length : Int)) :
    permuteL tbl (flipBits s) = flipBits (permuteL tbl s) := by
  simp only [permuteL, flipBits, List.map_map]
  apply List.map_congr_left
  intro p hp
  have hb := h p hp
  have hlt : (p - 1).toNat < s.length := by omega
  have hlt2 : (p - 1).toNat < (s.map fun c => if c = 49 then 48 else 49).length := by
    rw [List.length_map]; exact hlt
  simp only [Function.comp]
  rw [List.getD_eq_getElem _ 0 hlt2, List.getElem_map]
  simp only [List.getD_eq_getElem s 0 hlt]

theorem xorBits_flip_flip (a b : List Nat) (ha : Bits a) (hb : Bits b) :
    xorBits (flipBits a) (flipBits b) = xorBits a b := by
  induction a generalizing b with
  | nil => simp [xorBits, flipBits]
  | cons x a ih =>
    cases b with
    | nil => simp [xorBits, flipBits]
    | cons y b =>
      obtain ⟨hx, ha⟩ := Bits.cons_iff.mp ha
      obtain ⟨hy, hb⟩ := Bits.cons_iff.mp hb
      have ih2 := ih b ha hb
      simp only [xorBits, flipBits, List.map_cons, List.zipWith_cons_cons] at ih2 ⊢
      rw [ih2]
      congr 1
      rcases hx with rfl | rfl <;> rcases hy with rfl | rfl <;> decide

theorem xorBits_flip_left (a b : List Nat) (ha : Bits a) (hb : Bits b) :
    xorBits (flipBits a) b = flipBits (xorBits a b) := by
  induction a generalizing b with
  | nil => simp [xorBits, flipBits]
  | cons x a ih =>
    cases b with
    | nil => simp [xorBits, flipBits]
    | cons y b =>
      obtain ⟨hx, ha⟩ := Bits.cons_iff.mp ha
      obtain ⟨hy, hb⟩ := Bits.cons_iff.mp hb
      have ih2 := ih b ha hb
      simp only [xorBits, flipBits, List.map_cons, List.zipWith_cons_cons] at ih2 ⊢
      rw [ih2]
      congr 1
      rcases hx with rfl | rfl <;> rcases hy with rfl | rfl <;> decide

/-- The round function does not change when its block and its key are both
complemented. -/
theorem fBits_flip (r k48 : List Nat) (hr : Bits r) (hrl : r.length = 32)
    (hk : Bits k48) (hkl : k48.length = 48) :
    fBits (flipBits r) (flipBits k48) = fBits r k48 := by
  have h1 := (f_func_eq r k48 hr hrl hk hkl).2.2.2.2
  have h2 := (f_func_eq (flipBits r) (flipBits k48) (flipBits_bits r)
    (by rw [flipBits_length, hrl]) (flipBits_bits k48) (by rw [flipBits_length, hkl])).2.2.2.2
  have hE : Bits (permuteL EXP r) := permuteL_bits EXP r hr (by rw [hrl]; exact EXP_range)
  unfold fBits
  rw [h1, h2]
  simp only [Option.getD_some, fSpec]
  rw [permuteL_flipBits EXP r (by rw [hrl]; exact EXP_range), xorBits_flip_flip _ _ hE hk]

theorem feistel_flip (ct k48 : List Nat) (hc : Bits ct) (hcl : ct.length = 64)
    (hk : Bits k48) (hkl : k48.length = 48) :
    feistel (flipBits ct) (flipBits k48) = flipBits (feistel ct k48) := by
  have hRl : (ct.drop 32).length = 32 := by rw [List.length_drop]; omega
  obtain ⟨_, hFb, _⟩ := fBits_spec (ct.drop 32) k48 (hc.drop 32) hRl hk hkl
  unfold feistel
  rw [← flipBits_drop, ← flipBits_take, fBits_flip _ _ (hc.drop 32) hRl hk hkl,
    xorBits_flip_left _ _ (hc.take 32) hFb, flipBits_append]

theorem feistel_fold_flip (ks : List (List Nat)) (ct : List Nat)
    (hks : ∀ k48 ∈ ks, Bits k48 ∧ k48.length = 48) (hc : Bits ct) (hcl : ct.length = 64) :
    (ks.map flipBits).foldl feistel (flipBits ct) = flipBits (ks.foldl feistel ct) := by
  induction ks generalizing ct with
  | nil => rfl
  | cons k ks ih =>
    obtain ⟨hk, hkl⟩ := hks k (List.mem_cons_self _ _)
    obtain ⟨h1, h2⟩ := feistel_spec ct k hc hcl hk hkl
    rw [List.map_cons, List.foldl_cons, List.foldl_cons, feistel_flip ct k hc hcl hk hkl,
      ih _ (fun q hq => hks q (List.mem_cons_of_mem _ hq)) h1 h2]

theorem rotHalves_flip (k : List Nat) (n : Nat) :
    rotHalves (flipBits k) n = flipBits (rotHalves k n) := by
  unfold rotHalves
  rw [flipBits_append, flipBits_rotate, flipBits_rotate, flipBits_take, flipBits_drop]

theorem subkeys_enc_flip (k : List Nat) (hk : Bits k) (hl : k.length = 56) :
    subkeys key_rot_enc (flipBits k) des_rounds =
      (subkeys key_rot_enc k des_rounds).map flipBits := by
  rw [subkeys_enc k hk hl, subkeys_enc _ (flipBits_bits k) (by rw [flipBits_length, hl]),
    List.map_map]
  apply List.map_congr_left
  intro n _
  simp only [Function.comp]
  rw [rotHalves_flip, permuteL_flipBits PC2 _
    (by rw [rotHalves_length k n hl]; exact PC2_range)]

theorem swapHalves_flip (s : List Nat) : swapHalves (flipBits s) = flipBits (swapHalves s) := by
  unfold swapHalves
  rw [flipBits_length, flipBits_append, flipBits_drop, flipBits_take]

/-- The block computation of encryption commutes with complementing the message
and the key state. -/
theorem desBlock_flip (msg k : List Nat) (hm : Bits msg) (hml : msg.length = 64)
    (hk : Bits k) (hkl : k.length = 56) :
    desBlock (flipBits msg) (flipBits k) key_rot_enc =
      flipBits (desBlock msg k key_rot_enc) := by
  have h0b : Bits (permuteL IP msg) := permuteL_bits IP msg hm (by rw [hml]; exact IP_range)
  have h0l : (permuteL IP msg).length = 64 := length_permuteL IP msg
  have hks := subkeys_valid key_rot_enc keepsKey_enc k des_rounds hk hkl
  obtain ⟨hSb, hSl⟩ := feistel_fold_spec _ _ hks h0b h0l
  obtain ⟨hWb, hWl⟩ := swapHalves_spec _ hSb hSl
  unfold desBlock
  rw [permuteL_flipBits IP msg (by rw [hml]; exact IP_range), subkeys_enc_flip k hk hkl,
    feistel_fold_flip _ _ hks h0b h0l, swapHalves_flip,
    permuteL_flipBits IP_INV _ (by rw [hWl]; exact IP_INV_range)]

/-- C25: complementation property: for every valid 64-bit message `M` and every
valid 64-bit key `K`, `des_enc(flip(M), flip(K)) = flip(des_enc(M, K))`, where
`flip` is the string `bstr_flip` leaves; all three calls of `bstr_flip` return
true and both encryptions succeed. -/
theorem des_enc_complement (M K : List Nat) (hM : BitStr M) (hMl : M.length = 64)
    (hK : BitStr K) (hKl : K.length = 64) :
    ∃ C, des_enc (some M) (some K) = some C ∧
      (bstr_flip M).1 = true ∧ (bstr_flip K).1 = true ∧ (bstr_flip C).1 = true ∧
      des_enc (some (bstr_flip M).2) (some (bstr_flip K).2) = some (bstr_flip C).2 := by
  obtain ⟨he, heb, hel⟩ := des_enc_eq M K hM.2 hMl hK
  obtain ⟨_, hkb, hkl⟩ := key_init_eq K hK
  have hCs : BitStr (desBlock M (permuteL PC1 (key64 K)) key_rot_enc) := by
    refine ⟨?_, heb⟩
    intro h
    rw [h] at hel
    simp at hel
  refine ⟨_, he, ?_⟩
  rw [bstr_flip_eq M hM, bstr_flip_eq K hK, bstr_flip_eq _ hCs]
  refine ⟨rfl, rfl, rfl, ?_⟩
  obtain ⟨he2, _, _⟩ := des_enc_eq (flipBits M) (flipBits K) (flipBits_bits M)
    (by rw [flipBits_length, hMl]) (flipBits_bitStr K hK)
  rw [he2]
  congr 1
  rw [key64_of_length_64 (flipBits K) (by rw [flipBits_length, hKl]),
    key64_of_length_64 K hKl,
    permuteL_flipBits PC1 K (by rw [hKl]; exact PC1_range)]
  rw [key64_of_length_64 K hKl] at hkb hkl
  exact desBlock_flip M _ hM.2 hMl hkb hkl

/-- Witness of C25 at the block `0x0123456789ABCDEF` and the key `0x133457799BBCDFF1`. -/
theorem des_enc_complement_witness :
    (BitStr plain2 ∧ plain2.length = 64 ∧ BitStr key2 ∧ key2.length = 64) ∧
    ∃ C, des_enc (some plain2) (some key2) = some C ∧
      (bstr_flip plain2).1 = true ∧ (bstr_flip key2).1 = true ∧ (bstr_flip C).1 = true ∧
      des_enc (some (bstr_flip plain2).2) (some (bstr_flip key2).2) = some (bstr_flip C).2 :=
  ⟨by decide, des_enc_complement plain2 key2 (by decide) (by decide) (by decide) (by decide)⟩


/-! ## Every call of `des_permute` stays within bounds -/

theorem safe_of_range (s : List Nat) (tbl : List Int) (n : Nat) (hn : n ≠ 0)
    (hlen : bstr_len (some s) = n) (ht : tbl ≠ [])
    (h : ∀ p ∈ tbl, 1 ≤ p ∧ p ≤ (n : Int)) :
    PermCall.safe ⟨some s, tbl, tbl.length⟩ := by
  refine ⟨by rw [hlen]; exact hn, ?_, rfl, ?_⟩
  · intro h0
    exact ht (List.length_eq_zero.mp h0)
  · intro p hp
    simp only [List.take_length] at hp
    have hb := h p hp
    have hsz := toSizeT_of_nonneg (p - 1) (by omega)
    simp only [hlen]
    omega

theorem f_func_calls_safe (r k48 : List Nat) (hr : Bits r) (hrl : r.length = 32)
    (hk : Bits k48) (hkl : k48.length = 48) :
    (f_func_calls r k48).length = 2 ∧ ∀ c ∈ f_func_calls r k48, c.safe := by
  obtain ⟨hE, hx, hXb, hXl, _⟩ := f_func_eq r k48 hr hrl hk hkl
  obtain ⟨hE2b, hE2l⟩ := f_func_fold_spec [0, 1, 2, 3, 4, 5, 6, 7] _ 0 0 hXb hXl (by simp)
  simp only [f_func_calls, hE, hx]
  generalize ([0, 1, 2, 3, 4, 5, 6, 7].foldl f_func_step
    (xorBits (permuteL EXP r) k48, 0, 0)).1 = e at hE2b hE2l
  refine ⟨rfl, ?_⟩
  intro c hc
  simp only [List.mem_cons, List.mem_singleton, List.not_mem_nil, or_false] at hc
  rcases hc with rfl | rfl
  · exact safe_of_range r EXP 32 (by decide) (by rw [bstr_len_bits r hr, hrl]) (by decide)
      EXP_range
  · rw [set_nul e 32 (by omega)]
    have hAl : (e.take 32).length = 32 := by rw [List.length_take]; omega
    exact safe_of_range _ P 32 (by decide)
      (by rw [bstr_len_bits_nul _ _ (hE2b.take 32), hAl]) (by decide) P_range

theorem des_round_calls_safe (k_func : List Nat → Int → List Nat) (ct k : List Nat) (i : Int)
    (hc : Bits ct) (hcl : ct.length = 64)
    (hk : Bits (k_func k i)) (hkl : (k_func k i).length = 56) :
    (des_round_calls k_func (ct, k) i).length = 3 ∧
      ∀ c ∈ des_round_calls k_func (ct, k) i, c.safe := by
  obtain ⟨hsub, hsb, hsl⟩ := subkey_spec (k_func k i) hk hkl
  have hRl : (ct.drop 32).length = 32 := by rw [List.length_drop]; omega
  obtain ⟨hfl, hfs⟩ := f_func_calls_safe (ct.drop 32) _ (hc.drop 32) hRl hsb hsl
  simp only [des_round_calls, hsub]
  refine ⟨by rw [List.length_cons, hfl], ?_⟩
  intro c hc
  rcases List.mem_cons.mp hc with rfl | hc
  · exact safe_of_range _ PC2 56 (by decide) (by rw [bstr_len_bits _ hk, hkl]) (by decide)
      PC2_range
  · exact hfs c hc

theorem des_loop_calls_safe (k_func : List Nat → Int → List Nat) (hkf : KeepsKey k_func)
    (rs : List Int) (ct k : List Nat) (hc : Bits ct) (hcl : ct.length = 64)
    (hk : Bits k) (hkl : k.length = 56) :
    (des_loop_calls k_func (ct, k) rs).length = 3 * rs.length ∧
      ∀ c ∈ des_loop_calls k_func (ct, k) rs, c.safe := by
  induction rs generalizing ct k with
  | nil => exact ⟨rfl, fun c hc => by cases hc⟩
  | cons r rs ih =>
    obtain ⟨hk2, hkl2⟩ := hkf k r hk hkl
    obtain ⟨_, hsb, hsl⟩ := subkey_spec _ hk2 hkl2
    obtain ⟨hfb, hfl⟩ := feistel_spec ct _ hc hcl hsb hsl
    obtain ⟨hrl, hrs⟩ := des_round_calls_safe k_func ct k r hc hcl hk2 hkl2
    have hround := des_round_eq k_func ct k r hc hcl hk2 hkl2
    obtain ⟨hil, his⟩ := ih _ _ hfb hfl hk2 hkl2
    simp only [des_loop_calls, hround]
    refine ⟨by rw [List.length_append, hrl, hil, List.length_cons]; omega, ?_⟩
    intro c hc
    rcases List.mem_append.mp hc with h | h
    · exact hrs c h
    · exact his c h

theorem des_calls_safe (k_func : List Nat → Int → List Nat) (hkf : KeepsKey k_func)
    (msg k : List Nat) (hm : Bits msg) (hml : msg.length = 64)
    (hk : Bits k) (hkl : k.length = 56) :
    (des_calls msg k k_func).length = 50 ∧ ∀ c ∈ des_calls msg k k_func, c.safe := by
  have hlen : bstr_len (some msg) = 64 := by rw [bstr_len_bits msg hm, hml]
  obtain ⟨hIP, h0b, h0l⟩ := des_permute_64 msg IP hm hml rfl IP_range
  obtain ⟨hfold, hSb, hSl⟩ := des_fold_eq k_func hkf des_rounds _ k h0b h0l hk hkl
  obtain ⟨hll, hls⟩ := des_loop_calls_safe k_func hkf des_rounds _ k h0b h0l hk hkl
  simp only [des_calls, hIP, hfold]
  generalize (subkeys k_func k des_rounds).foldl feistel (permuteL IP msg) = S at hSb hSl
  have hAl : (S.take 32).length = 32 := by rw [List.length_take]; omega
  have hBl : (S.drop 32).length = 32 := by rw [List.length_drop]; omega
  have hsw : bstr_swap S = (true, swapHalves S) := by
    have h := bstr_swap_eq (S.take 32) (S.drop 32) [] (by omega) (by rw [hAl, hBl])
      (by rw [List.append_nil, List.take_append_drop, bstr_len_bits S hSb, hSl, hAl, hBl])
    rw [List.append_nil, List.append_nil, List.take_append_drop] at h
    rw [h, swapHalves, hSl]
  obtain ⟨hWb, hWl⟩ := swapHalves_spec S hSb hSl
  rw [hsw]
  refine ⟨by rw [List.length_cons, List.length_append, hll]; rfl, ?_⟩
  intro c hc
  rcases List.mem_cons.mp hc with rfl | hc
  · exact safe_of_range msg IP 64 (by decide) hlen (by decide) IP_range
  · rcases List.mem_append.mp hc with h | h
    · exact hls c h
    · rw [List.mem_singleton] at h
      rw [h]
      exact safe_of_range _ IP_INV 64 (by decide) (by rw [bstr_len_bits _ hWb, hWl])
        (by decide) IP_INV_range

theorem key_init_calls_safe (k : List Nat) (hk : BitStr k) :
    (key_init_calls (some k)).length = 1 ∧ ∀ c ∈ key_init_calls (some k), c.safe := by
  obtain ⟨hne, hb⟩ := hk
  have hpos : 0 < k.length := List.length_pos.mpr hne
  have h0 : ¬ k.length = 0 := by omega
  obtain ⟨h64b, h64l⟩ := key64_spec k hb
  simp only [key_init_calls, bstr_len_bits k hb, if_neg h0]
  refine ⟨rfl, ?_⟩
  intro c hc
  rw [List.mem_singleton] at hc
  rw [hc]
  split
  · rw [bstr_pad_eq k 64 ⟨hne, hb⟩ (by decide)]
    have hl64 : bstr_len (some (key64 k)) = 64 := by rw [bstr_len_bits _ h64b, h64l]
    exact safe_of_range (key64 k) PC1 64 (by decide) hl64 (by decide) PC1_range
  · rename_i hge
    refine safe_of_range k PC1 k.length h0 (bstr_len_bits k hb) (by decide) ?_
    intro p hp
    have := PC1_range p hp
    omega

/-- C24: every fixed permutation table stays within the bounds of the string it is
applied to: all entries of `IP`, `IP_INV` and `PC1` lie in `[1, 64]`, all entries
of `PC2` in `[1, 56]`, and all entries of `EXP` and `P` in `[1, 32]`; hence in every
one of the 51 `des_permute` calls made by `des_enc` or by `des_dec` on valid
inputs the out-of-bound rejection branch is never taken and no character at or
past the end of the input is read. -/
theorem des_permute_calls_in_bounds (M K : List Nat) (hM : BitStr M) (hMl : M.length = 64)
    (hK : BitStr K) :
    ((∀ p ∈ IP, 1 ≤ p ∧ p ≤ (64 : Int)) ∧ (∀ p ∈ IP_INV, 1 ≤ p ∧ p ≤ (64 : Int)) ∧
      (∀ p ∈ PC1, 1 ≤ p ∧ p ≤ (64 : Int)) ∧ (∀ p ∈ PC2, 1 ≤ p ∧ p ≤ (56 : Int)) ∧
      (∀ p ∈ EXP, 1 ≤ p ∧ p ≤ (32 : Int)) ∧ (∀ p ∈ P, 1 ≤ p ∧ p ≤ (32 : Int))) ∧
    ((des_enc_calls (some M) (some K)).length = 51 ∧
      ∀ c ∈ des_enc_calls (some M) (some K), c.safe) ∧
    ((des_dec_calls (some M) (some K)).length = 51 ∧
      ∀ c ∈ des_dec_calls (some M) (some K), c.safe) := by
  refine ⟨⟨IP_range, IP_INV_range, PC1_range, PC2_range, EXP_range, P_range⟩, ?_, ?_⟩
  · obtain ⟨hki, hkb, hkl⟩ := key_init_eq K hK
    obtain ⟨hkcl, hkcs⟩ := key_init_calls_safe K hK
    obtain ⟨hdl, hds⟩ := des_calls_safe key_rot_enc keepsKey_enc M _ hM.2 hMl hkb hkl
    have hlen : ¬ bstr_len (some M) ≠ 64 := by rw [bstr_len_bits M hM.2, hMl]; simp
    unfold des_enc_calls
    rw [if_neg hlen, hki]
    refine ⟨by rw [List.length_append, hkcl]; simp only; rw [hdl], ?_⟩
    intro c hc
    rcases List.mem_append.mp hc with h | h
    · exact hkcs c h
    · exact hds c h
  · obtain ⟨hki, hkb, hkl⟩ := key_init_eq K hK
    obtain ⟨hkcl, hkcs⟩ := key_init_calls_safe K hK
    obtain ⟨hdl, hds⟩ := des_calls_safe key_rot_dec keepsKey_dec M _ hM.2 hMl hkb hkl
    have hlen : ¬ bstr_len (some M) ≠ 64 := by rw [bstr_len_bits M hM.2, hMl]; simp
    unfold des_dec_calls
    rw [if_neg hlen, hki]
    refine ⟨by rw [List.length_append, hkcl]; simp only; rw [hdl], ?_⟩
    intro c hc
    rcases List.mem_append.mp hc with h | h
    · exact hkcs c h
    · exact hds c h

/-- Witness of C24 at the block `0x0123456789ABCDEF` and the key `0x133457799BBCDFF1`. -/
theorem des_permute_calls_in_bounds_witness :
    (BitStr plain2 ∧ plain2.length = 64 ∧ BitStr key2) ∧
    ((∀ p ∈ IP, 1 ≤ p ∧ p ≤ (64 : Int)) ∧ (∀ p ∈ IP_INV, 1 ≤ p ∧ p ≤ (64 : Int)) ∧
      (∀ p ∈ PC1, 1 ≤ p ∧ p ≤ (64 : Int)) ∧ (∀ p ∈ PC2, 1 ≤ p ∧ p ≤ (56 : Int)) ∧
      (∀ p ∈ EXP, 1 ≤ p ∧ p ≤ (32 : Int)) ∧ (∀ p ∈ P, 1 ≤ p ∧ p ≤ (32 : Int))) ∧
    ((des_enc_calls (some plain2) (some key2)).length = 51 ∧
      ∀ c ∈ des_enc_calls (some plain2) (some key2), c.safe) ∧
    ((des_dec_calls (some plain2) (some key2)).length = 51 ∧
      ∀ c ∈ des_dec_calls (some plain2) (some key2), c.safe) :=
  ⟨by decide, des_permute_calls_in_bounds plain2 key2 (by decide) (by decide) (by decide)⟩


/-! ## `bstr_xor` on one memory: arguments that share a buffer -/

theorem bstr_len_loop_cstr (l : List Nat) (i : Nat) :
    bstr_len_loop l i = if Bits (cstr l) then i + (cstr l).length else 0 := by
  induction l generalizing i with
  | nil => simp [bstr_len_loop, cstr, Bits.nil]
  | cons c l ih =>
    by_cases h0 : c = 0
    · simp [bstr_len_loop, cstr, h0, Bits.nil]
    · by_cases hb : c = 48 ∨ c = 49
      · have h1 : ¬ (c ≠ 48 ∧ c ≠ 49) := by omega
        simp only [bstr_len_loop, cstr, if_neg h0, if_neg h1, ih, List.length_cons]
        by_cases hB : Bits (cstr l)
        · have hB2 : Bits (c :: cstr l) := Bits.cons_iff.mpr ⟨hb, hB⟩
          rw [if_pos hB, if_pos hB2]
          omega
        · have hB2 : ¬ Bits (c :: cstr l) := fun h => hB (Bits.cons_iff.mp h).2
          rw [if_neg hB, if_neg hB2]
      · have h1 : c ≠ 48 ∧ c ≠ 49 := by omega
        have hB2 : ¬ Bits (c :: cstr l) := fun h => hb (Bits.cons_iff.mp h).1
        simp only [bstr_len_loop, cstr, if_neg h0, if_pos h1, if_neg hB2]

/-- The value of `bstr_len` at any pointer, in terms of the C string there. -/
theorem bstr_len_cstr (l : List Nat) :
    bstr_len (some l) = if BitStr (cstr l) then (cstr l).length else 0 := by
  cases l with
  | nil => simp [bstr_len, cstr, BitStr]
  | cons c l =>
    by_cases h0 : c = 0
    · simp [bstr_len, cstr, h0, BitStr]
    · have hne : cstr (c :: l) ≠ [] := by simp [cstr, h0]
      simp only [bstr_len, List.getD_cons_zero, if_neg h0, bstr_len_loop_cstr, Nat.zero_add]
      by_cases hB : Bits (cstr (c :: l))
      · rw [if_pos hB, if_pos ⟨hne, hB⟩]
      · rw [if_neg hB, if_neg (fun h => hB h.2)]

theorem cstr_getElem? (l : List Nat) (j : Nat) (hj : j < (cstr l).length) :
    (cstr l)[j]? = l[j]? := by
  induction l generalizing j with
  | nil => simp [cstr] at hj
  | cons c l ih =>
    by_cases h0 : c = 0
    · simp [cstr, h0] at hj
    · simp only [cstr, if_neg h0, List.length_cons] at hj ⊢
      cases j with
      | zero => simp
      | succ j => simpa using ih j (by omega)

theorem cstr_terminator (l : List Nat) : l.getD (cstr l).length 0 = 0 := by
  induction l with
  | nil => simp [cstr]
  | cons c l ih =>
    by_cases h0 : c = 0
    · simp [cstr, h0]
    · simp only [cstr, if_neg h0, List.length_cons, List.getD_cons_succ]
      exact ih

/-- A piece of memory with `n` non-NUL bytes followed by a NUL (or its end)
holds a string of length `n`. -/
theorem cstr_length_of_cells (l : List Nat) (n : Nat)
    (h1 : ∀ j, j < n → ∃ c, l[j]? = some c ∧ c ≠ 0) (h2 : l.getD n 0 = 0) :
    (cstr l).length = n := by
  induction n generalizing l with
  | zero =>
    cases l with
    | nil => rfl
    | cons c l =>
      have : c = 0 := by simpa using h2
      simp [cstr, this]
  | succ n ih =>
    cases l with
    | nil =>
      obtain ⟨c, hc, _⟩ := h1 0 (by omega)
      simp at hc
    | cons c l =>
      obtain ⟨c2, hc, hne⟩ := h1 0 (by omega)
      have hcc : c = c2 := by simpa using hc
      have h0 : ¬ c = 0 := by rw [hcc]; exact hne
      simp only [cstr, if_neg h0, List.length_cons]
      rw [ih l (fun j hj => by simpa using h1 (j + 1) (by omega)) (by simpa using h2)]


theorem getD_set (m : List Nat) (a x v : Nat) (h : x ≠ a) :
    (m.set a v).getD x 0 = m.getD x 0 := by
  rw [List.getD_eq_getElem?_getD, List.getD_eq_getElem?_getD,
    List.getElem?_set_ne (fun e => h e.symm)]

/-- The memory after the passes `i .. n-1` of the loop of `bstr_xor`, when `b` is the
buffer `a` itself or lies apart from the `n` bytes written: the byte at `pa + j`
is the XOR character of the bytes that were at `pa + j` and `pb + j`, every other
byte is unchanged. -/
theorem bstr_xor_mem_loop_cells (pa pb n : Nat)
    (hd : pb = pa ∨ pa + n ≤ pb ∨ pb + n ≤ pa) (k i : Nat) (hik : i + k = n)
    (m : List Nat) (hm : pa + n ≤ m.length) :
    (bstr_xor_mem_loop pa pb k i m).length = m.length ∧
    ∀ x, (bstr_xor_mem_loop pa pb k i m)[x]? =
      if pa + i ≤ x ∧ x < pa + n then
        some (((m.getD x 0 - 48) ^^^ (m.getD (pb + (x - pa)) 0 - 48)) + 48)
      else m[x]? := by
  induction k generalizing i m with
  | zero =>
    refine ⟨rfl, fun x => ?_⟩
    have h : ¬ (pa + i ≤ x ∧ x < pa + n) := by omega
    rw [if_neg h]
    rfl
  | succ k ih =>
    obtain ⟨hl, hc⟩ := ih (i + 1) (by omega)
      (m.set (pa + i) (((m.getD (pa + i) 0 - 48) ^^^ (m.getD (pb + i) 0 - 48)) + 48))
      (by rw [List.length_set]; exact hm)
    simp only [bstr_xor_mem_loop]
    refine ⟨by rw [hl, List.length_set], fun x => ?_⟩
    rw [hc x]
    by_cases h1 : pa + (i + 1) ≤ x ∧ x < pa + n
    · have h2 : pa + i ≤ x ∧ x < pa + n := by omega
      have h3 : x ≠ pa + i := by omega
      have h4 : pb + (x - pa) ≠ pa + i := by omega
      rw [if_pos h1, if_pos h2, getD_set m _ x _ h3, getD_set m _ _ _ h4]
    · rw [if_neg h1]
      by_cases h5 : x = pa + i
      · subst h5
        have h2 : pa + i ≤ pa + i ∧ pa + i < pa + n := by omega
        have h6 : pa + i - pa = i := by omega
        rw [if_pos h2, List.getElem?_set_self (by omega), h6]
      · have h2 : ¬ (pa + i ≤ x ∧ x < pa + n) := by omega
        rw [if_neg h2, List.getElem?_set_ne (fun e => h5 e.symm)]

/-- The cells of a valid bit string at address `p`: `n` bit characters followed
by a NUL or the end of the memory. -/
theorem strAt_cells (mem : List Nat) (p : Nat) (hs : BitStr (strAt mem p)) :
    p + (strAt mem p).length ≤ mem.length ∧
    (∀ j, j < (strAt mem p).length → mem[p + j]? = (strAt mem p)[j]? ∧
      (mem.getD (p + j) 0 = 48 ∨ mem.getD (p + j) 0 = 49)) ∧
    mem.getD (p + (strAt mem p).length) 0 = 0 := by
  have hcell : ∀ j, j < (strAt mem p).length → mem[p + j]? = (strAt mem p)[j]? := by
    intro j hj
    rw [strAt, cstr_getElem? _ j hj, List.getElem?_drop]
  have hpos : 0 < (strAt mem p).length := List.length_pos.mpr hs.1
  refine ⟨?_, ?_, ?_⟩
  · have h := hcell ((strAt mem p).length - 1) (by omega)
    have hsome : (strAt mem p)[(strAt mem p).length - 1]? ≠ none := by
      rw [List.getElem?_eq_getElem (by omega)]
      simp
    have h2 : p + ((strAt mem p).length - 1) < mem.length := by
      by_contra hge
      have hnone : mem[p + ((strAt mem p).length - 1)]? = none :=
        List.getElem?_eq_none (Nat.le_of_not_lt hge)
      rw [hnone] at h
      exact hsome h.symm
    omega
  · intro j hj
    refine ⟨hcell j hj, ?_⟩
    rw [List.getD_eq_getElem?_getD, hcell j hj, List.getElem?_eq_getElem hj]
    exact hs.2 _ (List.getElem_mem hj)
  · have h := cstr_terminator (mem.drop p)
    rw [List.getD_eq_getElem?_getD, List.getElem?_drop] at h
    rw [List.getD_eq_getElem?_getD]
    exact h

/-- Two valid bit strings of the same length at different addresses of one
memory do not overlap, and neither starts at the terminator of the other. -/
theorem strAt_apart (mem : List Nat) (pa pb : Nat) (ha : BitStr (strAt mem pa))
    (hb : BitStr (strAt mem pb)) (hl : (strAt mem pa).length = (strAt mem pb).length)
    (hne : pa ≠ pb) :
    pa + (strAt mem pa).length < pb ∨ pb + (strAt mem pa).length < pa := by
  obtain ⟨_, hac, hat⟩ := strAt_cells mem pa ha
  obtain ⟨_, hbc, hbt⟩ := strAt_cells mem pb hb
  have hpos : 0 < (strAt mem pa).length := List.length_pos.mpr ha.1
  rw [← hl] at hbc hbt
  generalize (strAt mem pa).length = n at *
  by_contra hcon
  rcases Nat.lt_or_gt_of_ne hne with h | h
  · have hj : pa + n - pb < n := by omega
    have h1 := (hbc (pa + n - pb) hj).2
    have e : pb + (pa + n - pb) = pa + n := by omega
    rw [e, hat] at h1
    omega
  · have hj : pb + n - pa < n := by omega
    have h1 := (hac (pb + n - pa) hj).2
    have e : pa + (pb + n - pa) = pb + n := by omega
    rw [e, hbt] at h1
    omega


theorem strAt_getElem? (mem : List Nat) (p j : Nat) (hj : j < (strAt mem p).length) :
    (strAt mem p)[j]? = some (mem.getD (p + j) 0) := by
  have h : mem[p + j]? = (strAt mem p)[j]? := by
    rw [strAt, cstr_getElem? _ j hj, List.getElem?_drop]
  rw [List.getD_eq_getElem?_getD, h, List.getElem?_eq_getElem hj]
  rfl

theorem cstr_congr (l l2 : List Nat) (h : ∀ j, j ≤ (cstr l).length → l2[j]? = l[j]?) :
    cstr l2 = cstr l := by
  induction l generalizing l2 with
  | nil =>
    have h0 := h 0 (Nat.zero_le _)
    cases l2 with
    | nil => rfl
    | cons c l2 => simp at h0
  | cons c l ih =>
    have h0 := h 0 (Nat.zero_le _)
    cases l2 with
    | nil => simp at h0
    | cons c2 l2 =>
      have hc : c2 = c := by simpa using h0
      subst hc
      by_cases hz : c2 = 0
      · simp [cstr, hz]
      · simp only [cstr, if_neg hz, List.cons.injEq, true_and]
        apply ih
        intro j hj
        have := h (j + 1) (by simp only [cstr, if_neg hz, List.length_cons]; omega)
        simpa using this

/-- The string at `p` is the same in two memories that agree on its cells and
its terminator. -/
theorem strAt_congr (mem mem2 : List Nat) (p : Nat)
    (h : ∀ j, j ≤ (strAt mem p).length → mem2[p + j]? = mem[p + j]?) :
    strAt mem2 p = strAt mem p := by
  apply cstr_congr
  intro j hj
  rw [List.getElem?_drop, List.getElem?_drop]
  exact h j hj

theorem xor_char_cases (u v : Nat) (hu : u = 48 ∨ u = 49) (hv : v = 48 ∨ v = 49) :
    ((some (((u - 48) ^^^ (v - 48)) + 48) = some 49 ∨
        some (((u - 48) ^^^ (v - 48)) + 48) = some 48) ∧
      (some (((u - 48) ^^^ (v - 48)) + 48) = some 49 ↔ ¬ (some u = some 49 ↔ some v = some 49))) ∧
    ((u - 48) ^^^ (v - 48)) + 48 ≠ 0 := by
  rcases hu with rfl | rfl <;> rcases hv with rfl | rfl <;> decide

/-- The guard of `bstr_xor`: nothing is written when an argument is not a valid
bit string or the lengths differ. -/
theorem bstr_xor_mem_fail (mem : List Nat) (pa pb : Nat) :
    ¬ BitStr (strAt mem pa) ∨ ¬ BitStr (strAt mem pb) ∨
        (strAt mem pa).length ≠ (strAt mem pb).length →
      bstr_xor_mem mem pa pb = (false, mem) := by
  have hla : bstr_len (some (mem.drop pa)) =
      if BitStr (strAt mem pa) then (strAt mem pa).length else 0 := bstr_len_cstr _
  have hlb : bstr_len (some (mem.drop pb)) =
      if BitStr (strAt mem pb) then (strAt mem pb).length else 0 := bstr_len_cstr _
  intro h
  have hcond : bstr_len (some (mem.drop pa)) = 0 ∨ bstr_len (some (mem.drop pb)) = 0 ∨
      bstr_len (some (mem.drop pa)) ≠ bstr_len (some (mem.drop pb)) := by
    rw [hla, hlb]
    by_cases hA : BitStr (strAt mem pa)
    · by_cases hB : BitStr (strAt mem pb)
      · rw [if_pos hA, if_pos hB]
        rcases h with h | h | h
        · exact absurd hA h
        · exact absurd hB h
        · exact Or.inr (Or.inr h)
      · rw [if_neg hB]
        exact Or.inr (Or.inl rfl)
    · rw [if_neg hA]
      exact Or.inl rfl
  unfold bstr_xor_mem
  dsimp only
  rw [if_pos hcond]

/-- C15 as stated fails: on the call `bstr_xor(s, s)` with the valid string `1`
for both arguments the code returns true and `b`, which is the buffer of `a`,
is not unchanged: it holds `0` afterwards. -/
theorem bstr_xor_mem_spec_counterexample :
    BitStr (strAt [49] 0) ∧ bstr_xor_mem [49] 0 0 = (true, [48]) ∧
      strAt (bstr_xor_mem [49] 0 0).2 0 ≠ strAt [49] 0 := by
  decide

/-- C15 amended: for all strings `a` and `b`, at the addresses `pa` and `pb` of a
memory, `bstr_xor(a, b)` returns false and leaves the memory (so `a` and `b`)
exactly as on entry when `a` or `b` is not a valid non-empty bit string or their
lengths differ; otherwise it returns true and afterwards `a[i]` is the XOR of the
original `a[i]` and `b[i]` for every `i`, with the length of `a` unchanged, every
byte outside `a` unchanged, and `b` unchanged unless `b` is the buffer `a` itself
(`pa = pb`), in which case it holds the result. -/
theorem bstr_xor_mem_spec (mem : List Nat) (pa pb : Nat) :
    (¬ BitStr (strAt mem pa) ∨ ¬ BitStr (strAt mem pb) ∨
        (strAt mem pa).length ≠ (strAt mem pb).length →
      bstr_xor_mem mem pa pb = (false, mem)) ∧
    (BitStr (strAt mem pa) → BitStr (strAt mem pb) →
      (strAt mem pa).length = (strAt mem pb).length →
      (bstr_xor_mem mem pa pb).1 = true ∧
      (strAt (bstr_xor_mem mem pa pb).2 pa).length = (strAt mem pa).length ∧
      (∀ i, i < (strAt mem pa).length →
        ((strAt (bstr_xor_mem mem pa pb).2 pa)[i]? = some 49 ∨
          (strAt (bstr_xor_mem mem pa pb).2 pa)[i]? = some 48) ∧
        ((strAt (bstr_xor_mem mem pa pb).2 pa)[i]? = some 49 ↔
          ¬ ((strAt mem pa)[i]? = some 49 ↔ (strAt mem pb)[i]? = some 49))) ∧
      (pa ≠ pb → strAt (bstr_xor_mem mem pa pb).2 pb = strAt mem pb) ∧
      (pa = pb → strAt (bstr_xor_mem mem pa pb).2 pb = strAt (bstr_xor_mem mem pa pb).2 pa) ∧
      (∀ x, ¬ (pa ≤ x ∧ x < pa + (strAt mem pa).length) →
        (bstr_xor_mem mem pa pb).2[x]? = mem[x]?)) := by
  have hla : bstr_len (some (mem.drop pa)) =
      if BitStr (strAt mem pa) then (strAt mem pa).length else 0 := bstr_len_cstr _
  have hlb : bstr_len (some (mem.drop pb)) =
      if BitStr (strAt mem pb) then (strAt mem pb).length else 0 := bstr_len_cstr _
  constructor
  · exact bstr_xor_mem_fail mem pa pb
  · intro hA hB hl
    have hpos : 0 < (strAt mem pa).length := List.length_pos.mpr hA.1
    obtain ⟨hma, hac, hat⟩ := strAt_cells mem pa hA
    obtain ⟨_, hbc, _⟩ := strAt_cells mem pb hB
    have hd : pb = pa ∨ pa + (strAt mem pa).length ≤ pb ∨ pb + (strAt mem pa).length ≤ pa := by
      by_cases he : pa = pb
      · exact Or.inl he.symm
      · rcases strAt_apart mem pa pb hA hB hl he with h | h
        · exact Or.inr (Or.inl (by omega))
        · exact Or.inr (Or.inr (by omega))
    obtain ⟨_, hc⟩ := bstr_xor_mem_loop_cells pa pb (strAt mem pa).length hd
      (strAt mem pa).length 0 (by omega) mem hma
    have hcond : ¬ ((strAt mem pa).length = 0 ∨ (strAt mem pb).length = 0 ∨
        (strAt mem pa).length ≠ (strAt mem pb).length) := by omega
    have hres : bstr_xor_mem mem pa pb =
        (true, bstr_xor_mem_loop pa pb (strAt mem pa).length 0 mem) := by
      unfold bstr_xor_mem
      dsimp only
      rw [hla, hlb, if_pos hA, if_pos hB, if_neg hcond]
    rw [hres]
    dsimp only
    generalize bstr_xor_mem_loop pa pb (strAt mem pa).length 0 mem = mem2 at hc
    have hin : ∀ i, i < (strAt mem pa).length →
        mem2[pa + i]? =
          some (((mem.getD (pa + i) 0 - 48) ^^^ (mem.getD (pb + i) 0 - 48)) + 48) := by
      intro i hi
      have h1 : pa + 0 ≤ pa + i ∧ pa + i < pa + (strAt mem pa).length := by omega
      have h2 : pa + i - pa = i := by omega
      rw [hc (pa + i), if_pos h1, h2]
    have hout : ∀ x, ¬ (pa ≤ x ∧ x < pa + (strAt mem pa).length) → mem2[x]? = mem[x]? := by
      intro x hx
      have h1 : ¬ (pa + 0 ≤ x ∧ x < pa + (strAt mem pa).length) := by omega
      rw [hc x, if_neg h1]
    have hlen2 : (strAt mem2 pa).length = (strAt mem pa).length := by
      apply cstr_length_of_cells
      · intro j hj
        refine ⟨_, by rw [List.getElem?_drop]; exact hin j hj, ?_⟩
        exact (xor_char_cases _ _ (hac j hj).2 (hbc j (by omega)).2).2
      · rw [List.getD_eq_getElem?_getD, List.getElem?_drop, hout _ (by omega),
          ← List.getD_eq_getElem?_getD]
        exact hat
    refine ⟨rfl, hlen2, ?_, ?_, ?_, hout⟩
    · intro i hi
      have e1 : (strAt mem2 pa)[i]? =
          some (((mem.getD (pa + i) 0 - 48) ^^^ (mem.getD (pb + i) 0 - 48)) + 48) := by
        rw [strAt, cstr_getElem? _ i (by rw [← strAt, hlen2]; exact hi), List.getElem?_drop]
        exact hin i hi
      rw [e1, strAt_getElem? mem pa i hi, strAt_getElem? mem pb i (by omega)]
      exact (xor_char_cases _ _ (hac i hi).2 (hbc i (by omega)).2).1
    · intro hne
      apply strAt_congr
      intro j hj
      apply hout
      rcases strAt_apart mem pa pb hA hB hl hne with h | h <;> omega
    · intro he
      rw [he]


/-- Witness of C15 amended: `0011` at address 0 and `0101` at address 5 of one
memory; afterwards the memory holds `0110` and `0101`. -/
theorem bstr_xor_mem_spec_witness :
    bstr_xor_mem [48, 48, 49, 49, 0, 48, 49, 48, 49] 0 5 =
      (true, [48, 49, 49, 48, 0, 48, 49, 48, 49]) ∧
    BitStr (strAt [48, 48, 49, 49, 0, 48, 49, 48, 49] 0) ∧
    BitStr (strAt [48, 48, 49, 49, 0, 48, 49, 48, 49] 5) ∧
    (strAt (bstr_xor_mem [48, 48, 49, 49, 0, 48, 49, 48, 49] 0 5).2 5 =
        strAt [48, 48, 49, 49, 0, 48, 49, 48, 49] 5) ∧
    (strAt (bstr_xor_mem [48, 48, 49, 49, 0, 48, 49, 48, 49] 0 5).2 0).length =
      (strAt [48, 48, 49, 49, 0, 48, 49, 48, 49] 0).length :=
  ⟨by decide, by decide, by decide,
    ((bstr_xor_mem_spec [48, 48, 49, 49, 0, 48, 49, 48, 49] 0 5).2 (by decide) (by decide)
      (by decide)).2.2.2.1 (by decide),
    ((bstr_xor_mem_spec [48, 48, 49, 49, 0, 48, 49, 48, 49] 0 5).2 (by decide) (by decide)
      (by decide)).2.1⟩

theorem cstr_of_no_nul (a : List Nat) (h0 : 0 ∉ a) (r : List Nat)
    (hr : r = [] ∨ ∃ t, r = 0 :: t) : cstr (a ++ r) = a := by
  induction a with
  | nil =>
    rcases hr with rfl | ⟨t, rfl⟩
    · rfl
    · simp [cstr]
  | cons c a ih =>
    have hc : ¬ c = 0 := fun h => h0 (by simp [h])
    have ha : 0 ∉ a := fun h => h0 (List.mem_cons_of_mem _ h)
    rw [List.cons_append]
    simp only [cstr, if_neg hc]
    rw [ih ha]

theorem xorBits_getElem?_val (a b : List Nat) (h : a.length = b.length) (i : Nat)
    (hi : i < a.length) :
    (xorBits a b)[i]? = some (((a.getD i 0 - 48) ^^^ (b.getD i 0 - 48)) + 48) := by
  induction a generalizing b i with
  | nil => simp at hi
  | cons x a ih =>
    cases b with
    | nil => simp at h
    | cons y b =>
      have h2 : a.length = b.length := by simpa using h
      cases i with
      | zero => simp [xorBits]
      | succ i =>
        have hi2 : i < a.length := by simpa using hi
        have := ih b h2 i hi2
        simpa only [xorBits, List.zipWith_cons_cons, List.getElem?_cons_succ,
          List.getD_cons_succ] using this

/-- The two models of `bstr_xor` agree: with the C strings `a` and `b` in separate
buffers of one memory, `a` at address 0 and `b` behind its terminator, the memory
after the call holds the buffer `bstr_xor a b` returns, followed by `b` as it
was. -/
theorem bstr_xor_mem_separate (a b : List Nat) (ha0 : 0 ∉ a) (hb0 : 0 ∉ b) :
    bstr_xor_mem (a ++ 0 :: b) 0 (a.length + 1) =
      ((bstr_xor a b).1, (bstr_xor a b).2 ++ 0 :: b) := by
  have hsa : strAt (a ++ 0 :: b) 0 = a := cstr_of_no_nul a ha0 _ (Or.inr ⟨b, rfl⟩)
  have hdrop : (a ++ 0 :: b).drop (a.length + 1) = b := by
    rw [List.drop_append_eq_append_drop]
    simp
  have hsb : strAt (a ++ 0 :: b) (a.length + 1) = b := by
    rw [strAt, hdrop]
    have h := cstr_of_no_nul b hb0 [] (Or.inl rfl)
    rw [List.append_nil] at h
    exact h
  have hfail := bstr_xor_mem_fail (a ++ 0 :: b) 0 (a.length + 1)
  rw [hsa, hsb] at hfail
  by_cases hv : BitStr a ∧ BitStr b ∧ a.length = b.length
  · obtain ⟨hA, hB, hl⟩ := hv
    have hx : bstr_xor a b = (true, xorBits a b) := by
      have h := bstr_xor_eq a b [] hB.2 hA.1
        (by rw [List.append_nil]; exact bstr_len_bits a hA.2) hl
      rw [List.append_nil, List.append_nil] at h
      exact h
    have hd : a.length + 1 = 0 ∨ 0 + a.length ≤ a.length + 1 ∨ a.length + 1 + a.length ≤ 0 :=
      Or.inr (Or.inl (by omega))
    obtain ⟨_, hc⟩ := bstr_xor_mem_loop_cells 0 (a.length + 1) a.length hd a.length 0
      (by omega) (a ++ 0 :: b) (by simp only [List.length_append, List.length_cons]; omega)
    have hcond : ¬ (a.length = 0 ∨ b.length = 0 ∨ a.length ≠ b.length) := by
      have := List.length_pos.mpr hA.1
      omega
    have hres : bstr_xor_mem (a ++ 0 :: b) 0 (a.length + 1) =
        (true, bstr_xor_mem_loop 0 (a.length + 1) a.length 0 (a ++ 0 :: b)) := by
      unfold bstr_xor_mem
      dsimp only
      rw [hdrop, List.drop_zero, bstr_len_bits_nul a b hA.2, bstr_len_bits b hB.2,
        if_neg hcond]
    rw [hres, hx]
    congr 1
    apply List.ext_getElem?
    intro x
    rw [hc x]
    by_cases hxl : x < a.length
    · have h1 : 0 + 0 ≤ x ∧ x < 0 + a.length := by omega
      have e1 : (a ++ 0 :: b).getD x 0 = a.getD x 0 := List.getD_append _ _ _ _ hxl
      have e2 : (a ++ 0 :: b).getD (a.length + 1 + (x - 0)) 0 = b.getD x 0 := by
        rw [List.getD_append_right _ _ _ _ (by omega)]
        have : a.length + 1 + (x - 0) - a.length = x + 1 := by omega
        rw [this, List.getD_cons_succ]
      rw [if_pos h1, e1, e2,
        List.getElem?_append_left (by rw [length_xorBits a b hl]; exact hxl),
        xorBits_getElem?_val a b hl x hxl]
    · have h1 : ¬ (0 + 0 ≤ x ∧ x < 0 + a.length) := by omega
      rw [if_neg h1, List.getElem?_append_right (by omega),
        List.getElem?_append_right (by rw [length_xorBits a b hl]; omega),
        length_xorBits a b hl]
  · have hor : ¬ BitStr a ∨ ¬ BitStr b ∨ a.length ≠ b.length := by
      by_cases h1 : BitStr a
      · by_cases h2 : BitStr b
        · exact Or.inr (Or.inr (fun h3 => hv ⟨h1, h2, h3⟩))
        · exact Or.inr (Or.inl h2)
      · exact Or.inl h1
    rw [hfail hor, (bstr_xor_separate_spec a b ha0 hb0).1 hor]

end Des
